import Mathlib

/-!
Verification of the MFE (minimum free energy) evaluator and the CDS synthesis
fixer of the `poly` repository, against their natural-language specification.

The Go sources are embedded shallowly:

* pure Go functions become Lean functions;
* Go `int` values that are provably non-negative at their use sites become `ℕ`,
  all others become `ℤ`; Go `float64` becomes `ℚ`;
* every Go slice/array/string access that can panic (index out of range, nil
  dereference) is modelled by a checked access in the `Except` monad, with the
  distinguished error `MfeError.runtimeError` standing for the Go runtime panic;
* the two deliberate `panic` calls in `stackEnergy` ("bases f and t can't
  pair!") carry the offending pair and realize the spec's `InvalidPair(f,t)`
  failure; they are modelled as `MfeError.invalidPair f t`;
* Go loops whose termination is not structural are given an explicit bound
  (fuel); exhaustion is `MfeError.outOfFuel` and corresponds to states that the
  published entry points never reach.
-/

/-- Error taxonomy of the MFE facade (spec §7).  `runtimeError` models a Go
runtime panic (index out of range / nil map or slice access); `outOfFuel` is the
artefact of bounding non-structural loops. -/
inductive MfeError where
  | lengthMismatch
  | emptyInput
  | invalidAlphabet
  | malformedStructure
  | invalidPair (f t : ℕ)
  | runtimeError
  | outOfFuel
  deriving DecidableEq, Repr

/-- Loop-type tag `ExteriorLoop` (Go `iota` constant 0). -/
def ExteriorLoop : ℕ := 0

/-- Loop-type tag `InteriorLoop` (Go `iota` constant 1). -/
def InteriorLoop : ℕ := 1

/-- Loop-type tag `HairpinLoop` (Go `iota` constant 2). -/
def HairpinLoop : ℕ := 2

/-- Loop-type tag `MultiLoop` (Go `iota` constant 3). -/
def MultiLoop : ℕ := 3

/-- The maximum tabulated loop length (`maxLenLoop` in the source). -/
def maxLenLoop : ℕ := 30

/-- `nbPairs`: the number of distinguishable base pairs. -/
def nbPairs : ℕ := 7

/-- `nbNucleobase`: the number of distinguishable nucleotides. -/
def nbNucleobase : ℕ := 4

/-- Celsius/Kelvin offset (`zeroCKelvin` of `energy_params.go`, physically
273.15; the float constant is modelled as the exact rational). -/
def zeroCKelvin : ℚ := 27315 / 100

/-- The reference temperature of the energy parameters
(`energyParamsTemperature`, 37 °C). -/
def energyParamsTemperature : ℚ := 37

/-- Encoding of a single nucleotide character, as in `encodeSequence`:
A=1, C=2, G=3, U=4, anything else 0 (Go map zero value). -/
def nucleotideEncoding (c : Char) : ℕ :=
  if c = 'A' then 1
  else if c = 'C' then 2
  else if c = 'G' then 3
  else if c = 'U' then 4
  else 0

/-- `encodeSequence`: numerical encoding of a sequence. -/
def encodeSequence (sequence : List Char) : List ℕ :=
  sequence.map nucleotideEncoding

/-- The base-pair encoding of `basePairEncodedTypeMap`: CG=1, GC=2, GU=3, UG=4,
AU=5, UA=6, and 0 for every unlisted ordered pair (Go nested-map zero value). -/
def basePairEncodedType (a b : Char) : ℕ :=
  if a = 'A' then (if b = 'U' then 5 else 0)
  else if a = 'C' then (if b = 'G' then 1 else 0)
  else if a = 'G' then (if b = 'C' then 2 else if b = 'U' then 3 else 0)
  else if a = 'U' then (if b = 'A' then 6 else if b = 'G' then 4 else 0)
  else 0

/-- Length of the longest prefix of the string consisting of characters
accepted by the character class `cls`.  This is the extent of the (anchored,
greedy) match of the Go regular expression `^[cls]+`; the match exists iff the
length is nonzero. -/
def classPrefixLen (cls : Char → Bool) : List Char → ℕ
  | [] => 0
  | c :: cs => if cls c then classPrefixLen cls cs + 1 else 0

/-- `ensureValidRNA`: the Go code compiles `^[ACGU]+` and indexes the result of
`FindStringIndex` without a nil check.  When the first character is not one of
A/C/G/U there is no match, `FindStringIndex` returns nil, and `rnaIdxs[0]`
panics — modelled by `runtimeError`.  Otherwise the match is `[0, L)` with `L`
the longest ACGU prefix, and the function errors iff `L ≠ len`. -/
def ensureValidRNA (sequence : List Char) : Except MfeError Unit :=
  let L := classPrefixLen (fun c => c = 'A' ∨ c = 'C' ∨ c = 'G' ∨ c = 'U') sequence
  if L = 0 then .error .runtimeError
  else if L = sequence.length then .ok () else .error .invalidAlphabet

/-- `ensureValidStructure`: same pattern with the class `[().]`. -/
def ensureValidStructure (struc : List Char) : Except MfeError Unit :=
  let L := classPrefixLen (fun c => c = '(' ∨ c = ')' ∨ c = '.') struc
  if L = 0 then .error .runtimeError
  else if L = struc.length then .ok () else .error .invalidAlphabet

/-- One step of `pairTable`'s scan.  The Go loop keeps the table as a
preallocated zero-initialized int array and the open-bracket stack as an array
with a stack pointer; they are modelled as a total function `ℕ → ℤ` (updated
pointwise) and a `List ℕ` used LIFO.  `i` is the index of the head of `cs` in
the full structure string. -/
def pairTableAux : List Char → ℕ → (ℕ → ℤ) → List ℕ → Except MfeError (ℕ → ℤ)
  | [], _, tbl, stack =>
      if stack = [] then .ok tbl else .error .malformedStructure
  | c :: cs, i, tbl, stack =>
      if c = '(' then
        pairTableAux cs (i + 1) tbl (i :: stack)
      else if c = ')' then
        match stack with
        | [] => .error .malformedStructure
        | p :: rest =>
            pairTableAux cs (i + 1)
              (fun j => if j = i then (p : ℤ) else if j = p then (i : ℤ) else tbl j) rest
      else
        pairTableAux cs (i + 1) (fun j => if j = i then -1 else tbl j) stack

/-- `pairTable`: builds the pair table of a dot-bracket structure, failing with
`malformedStructure` on unbalanced brackets.  The resulting array is
materialized as a list of length `structure.length`. -/
def pairTable (struc : List Char) : Except MfeError (List ℤ) :=
  (pairTableAux struc 0 (fun _ => 0) []).map
    (fun tbl => (List.range struc.length).map tbl)

/-- The scaled Turner parameter set (`energyParams` struct).  The fixed-size Go
arrays are modelled as total functions of their indices; only in-range indices
are ever produced by the evaluator.  `lxcLog n` models the composite
floating-point expression `int(params.lxc * math.Log(float64(n)/30.0))` used
for logarithmic extrapolation of loops longer than 30; its value is abstract
here (no claim depends on it). -/
structure energyParams where
  stackingPair : ℕ → ℕ → ℤ
  hairpinLoop : ℕ → ℤ
  bulge : ℕ → ℤ
  interiorLoop : ℕ → ℤ
  mismatchInteriorLoop : ℕ → ℕ → ℕ → ℤ
  mismatch1xnInteriorLoop : ℕ → ℕ → ℕ → ℤ
  mismatch2x3InteriorLoop : ℕ → ℕ → ℕ → ℤ
  mismatchExteriorLoop : ℕ → ℕ → ℕ → ℤ
  mismatchHairpinLoop : ℕ → ℕ → ℕ → ℤ
  mismatchMultiLoop : ℕ → ℕ → ℕ → ℤ
  dangle5 : ℕ → ℕ → ℤ
  dangle3 : ℕ → ℕ → ℤ
  interior1x1Loop : ℕ → ℕ → ℕ → ℕ → ℤ
  interior2x1Loop : ℕ → ℕ → ℕ → ℕ → ℕ → ℤ
  interior2x2Loop : ℕ → ℕ → ℕ → ℕ → ℕ → ℕ → ℤ
  ninio : ℕ → ℤ
  lxcLog : ℕ → ℤ
  multiLoopUnpairedNucelotideBonus : ℤ
  multiLoopClosingPenalty : ℤ
  terminalAU : ℤ
  multiLoopIntern : ℕ → ℤ
  tetraloops : List Char
  tetraloop : ℕ → ℤ
  triloops : List Char
  triloop : ℕ → ℤ
  hexaloops : List Char
  hexaloop : ℕ → ℤ
  tripleC : ℤ
  multipleCA : ℤ
  multipleCB : ℤ

/-- `EnergyContribution`: the per-loop energy record.  Unset fields of the Go
struct literal default to 0 (Go zero values), which is mirrored here. -/
structure EnergyContribution where
  closingFivePrimeIdx : ℕ := 0
  closingThreePrimeIdx : ℕ := 0
  loopType : ℕ := 0
  energy : ℤ := 0
  enclosedFivePrimeIdx : ℕ := 0
  enclosedThreePrimeIdx : ℕ := 0
  deriving DecidableEq, Repr

/-- `foldCompound`: everything needed to score one structure.  The
`basePairEncodedType` map of the Go struct is the fixed table
`basePairEncodedType` above and is not duplicated per compound. -/
structure foldCompound where
  length : ℕ
  energyParams : energyParams
  sequence : List Char
  encodedSequence : List ℕ
  pairTable : List ℤ

/-- Checked read of `fc.sequence[i]` for a Go `int` index; out-of-range access
is the runtime panic. -/
def foldCompound.seqAt (fc : foldCompound) (i : ℤ) : Except MfeError Char :=
  if 0 ≤ i ∧ i.toNat < fc.sequence.length then .ok (fc.sequence.getD i.toNat ' ')
  else .error .runtimeError

/-- Checked read of `fc.encodedSequence[i]`. -/
def foldCompound.encAt (fc : foldCompound) (i : ℤ) : Except MfeError ℕ :=
  if 0 ≤ i ∧ i.toNat < fc.encodedSequence.length then .ok (fc.encodedSequence.getD i.toNat 0)
  else .error .runtimeError

/-- Checked read of `fc.pairTable[i]`. -/
def foldCompound.ptAt (fc : foldCompound) (i : ℤ) : Except MfeError ℤ :=
  if 0 ≤ i ∧ i.toNat < fc.pairTable.length then .ok (fc.pairTable.getD i.toNat 0)
  else .error .runtimeError

/-- `encodedBasePairType`: base-pair code of the bases at two (checked)
sequence positions. -/
def encodedBasePairType (fc : foldCompound) (basePairFivePrime basePairThreePrime : ℤ) :
    Except MfeError ℕ := do
  let a ← fc.seqAt basePairFivePrime
  let b ← fc.seqAt basePairThreePrime
  pure (basePairEncodedType a b)

/-- `MAX_NINIO`, the cap on the ninio asymmetry penalty.  Modelled from the
spec: the constant lives in `energy_params.go`, which is not among the sources
under review; the spec (§4.A) only names the cap.  Its value does not affect
any claim proved here. -/
def MAX_NINIO : ℤ := 300

/-- `exteriorStemEnergy`: energy of a stem branching off the exterior loop.
`fivePrimeMismatch`/`threePrimeMismatch` are encoded nucleotides, or -1 for
"no adjacent base". -/
def exteriorStemEnergy (basePairType : ℕ) (fivePrimeMismatch threePrimeMismatch : ℤ)
    (energyParams : energyParams) : ℤ :=
  let energy : ℤ :=
    if 0 ≤ fivePrimeMismatch ∧ 0 ≤ threePrimeMismatch then
      energyParams.mismatchExteriorLoop basePairType fivePrimeMismatch.toNat threePrimeMismatch.toNat
    else if 0 ≤ fivePrimeMismatch then
      energyParams.dangle5 basePairType fivePrimeMismatch.toNat
    else if 0 ≤ threePrimeMismatch then
      energyParams.dangle3 basePairType threePrimeMismatch.toNat
    else 0
  if basePairType > 2 then energy + energyParams.terminalAU else energy

/-- `multiLoopStemEnergy`: energy contribution of a multi-loop stem. -/
def multiLoopStemEnergy (basePairType fivePrimeMismatch threePrimeMismatch : ℕ)
    (energyParams : energyParams) : ℤ :=
  let energy := energyParams.mismatchMultiLoop basePairType fivePrimeMismatch threePrimeMismatch +
    energyParams.multiLoopIntern basePairType
  if basePairType > 2 then energy + energyParams.terminalAU else energy

/-- `evaluateStackBulgeInteriorLoop`: energy of a stacking pair, bulge, or
interior loop.  Sizes and mismatches are the already-read encoded values; the
caller guarantees they equal the Go expressions. -/
def evaluateStackBulgeInteriorLoop (nbUnpairedLeftLoop nbUnpairedRightLoop : ℕ)
    (closingBasePairType enclosedBasePairType : ℕ)
    (closingFivePrimeMismatch closingThreePrimeMismatch
      enclosedThreePrimeMismatch enclosedFivePrimeMismatch : ℕ)
    (energyParams : energyParams) : ℤ :=
  let nbUnpairedLarger := max nbUnpairedLeftLoop nbUnpairedRightLoop
  let nbUnpairedSmaller := min nbUnpairedLeftLoop nbUnpairedRightLoop
  if nbUnpairedLarger = 0 then
    energyParams.stackingPair closingBasePairType enclosedBasePairType
  else if nbUnpairedSmaller = 0 then
    -- bulge
    let energy :=
      if nbUnpairedLarger ≤ maxLenLoop then energyParams.bulge nbUnpairedLarger
      else energyParams.bulge maxLenLoop + energyParams.lxcLog nbUnpairedLarger
    if nbUnpairedLarger = 1 then
      energy + energyParams.stackingPair closingBasePairType enclosedBasePairType
    else
      energy + (if closingBasePairType > 2 then energyParams.terminalAU else 0) +
        (if enclosedBasePairType > 2 then energyParams.terminalAU else 0)
  else if nbUnpairedSmaller = 1 ∧ nbUnpairedLarger = 1 then
    energyParams.interior1x1Loop closingBasePairType enclosedBasePairType
      closingFivePrimeMismatch closingThreePrimeMismatch
  else if nbUnpairedSmaller = 1 ∧ nbUnpairedLarger = 2 then
    if nbUnpairedLeftLoop = 1 then
      energyParams.interior2x1Loop closingBasePairType enclosedBasePairType
        closingFivePrimeMismatch enclosedFivePrimeMismatch closingThreePrimeMismatch
    else
      energyParams.interior2x1Loop enclosedBasePairType closingBasePairType
        enclosedFivePrimeMismatch closingFivePrimeMismatch enclosedThreePrimeMismatch
  else if nbUnpairedSmaller = 1 then
    -- 1xn loop
    let energy :=
      if nbUnpairedLarger + 1 ≤ maxLenLoop then energyParams.interiorLoop (nbUnpairedLarger + 1)
      else energyParams.interiorLoop maxLenLoop + energyParams.lxcLog (nbUnpairedLarger + 1)
    energy + min MAX_NINIO (((nbUnpairedLarger - nbUnpairedSmaller : ℕ) : ℤ) * energyParams.ninio 2) +
      energyParams.mismatch1xnInteriorLoop closingBasePairType closingFivePrimeMismatch closingThreePrimeMismatch +
      energyParams.mismatch1xnInteriorLoop enclosedBasePairType enclosedFivePrimeMismatch enclosedThreePrimeMismatch
  else if nbUnpairedSmaller = 2 ∧ nbUnpairedLarger = 2 then
    energyParams.interior2x2Loop closingBasePairType enclosedBasePairType
      closingFivePrimeMismatch enclosedThreePrimeMismatch enclosedFivePrimeMismatch closingThreePrimeMismatch
  else if nbUnpairedSmaller = 2 ∧ nbUnpairedLarger = 3 then
    energyParams.interiorLoop (nbNucleobase + 1) + energyParams.ninio 2 +
      energyParams.mismatch2x3InteriorLoop closingBasePairType closingFivePrimeMismatch closingThreePrimeMismatch +
      energyParams.mismatch2x3InteriorLoop enclosedBasePairType enclosedFivePrimeMismatch enclosedThreePrimeMismatch
  else
    -- generic interior loop
    let nbUnpairedNucleotides := nbUnpairedLarger + nbUnpairedSmaller
    let energy :=
      if nbUnpairedNucleotides ≤ maxLenLoop then energyParams.interiorLoop nbUnpairedNucleotides
      else energyParams.interiorLoop maxLenLoop + energyParams.lxcLog nbUnpairedNucleotides
    energy + min MAX_NINIO (((nbUnpairedLarger - nbUnpairedSmaller : ℕ) : ℤ) * energyParams.ninio 2) +
      energyParams.mismatchInteriorLoop closingBasePairType closingFivePrimeMismatch closingThreePrimeMismatch +
      energyParams.mismatchInteriorLoop enclosedBasePairType enclosedFivePrimeMismatch enclosedThreePrimeMismatch

/-- `stackBulgeInteriorLoopEnergy`: reads the mismatching nucleotides of the
closing pair `(cf, ct)` and enclosed pair `(ef, et)` and scores the degree-2
loop.  `ef > cf` and `ct > et` hold at every call site, so the `ℕ`
subtractions below compute the Go `int` differences. -/
def stackBulgeInteriorLoopEnergy (fc : foldCompound) (cf ct ef et : ℕ) :
    Except MfeError (ℤ × EnergyContribution) := do
  let nbUnpairedFivePrime := ef - cf - 1
  let nbUnpairedThreePrime := ct - et - 1
  let closingBasePairType ← encodedBasePairType fc cf ct
  let enclosedBasePairType ← encodedBasePairType fc et ef
  let cm5 ← fc.encAt ((cf : ℤ) + 1)
  let cm3 ← fc.encAt ((ct : ℤ) - 1)
  let em3 ← fc.encAt ((ef : ℤ) - 1)
  let em5 ← fc.encAt ((et : ℤ) + 1)
  let energy := evaluateStackBulgeInteriorLoop nbUnpairedFivePrime nbUnpairedThreePrime
    closingBasePairType enclosedBasePairType cm5 cm3 em3 em5 fc.energyParams
  pure (energy,
    { closingFivePrimeIdx := cf, closingThreePrimeIdx := ct,
      enclosedFivePrimeIdx := ef, enclosedThreePrimeIdx := et,
      energy := energy, loopType := InteriorLoop })

/-- First index at which `needle` occurs as a contiguous sublist of `hay`
(Go `strings.Index`); `none` when it does not occur. -/
def strIndexOf (hay needle : List Char) : Option ℕ :=
  if needle.isPrefixOf hay then some 0
  else
    match hay with
    | [] => none
    | _ :: t => (strIndexOf t needle).map (· + 1)

/-- `evaluateHairpinLoop`: energy of a hairpin loop.  `sequence` is the slice
passed by `hairpinLoopEnergy`, i.e. the full sequence starting one position
BEFORE the closing 5' base (the Go code slices `fc.sequence[f-1:]`).  The Go
prefix slices `sequence[:5]`, `[:6]`, `[:8]` are in range at every reachable
call (the tail has length ≥ size + 3), so the total `List.take` is faithful. -/
def evaluateHairpinLoop (size basePairType fivePrimeMismatch threePrimeMismatch : ℕ)
    (sequence : List Char) (energyParams : energyParams) : ℤ :=
  let energy :=
    if size ≤ maxLenLoop then energyParams.hairpinLoop size
    else energyParams.hairpinLoop maxLenLoop + energyParams.lxcLog size
  if size < 3 then energy
  else if size = 4 then
    match strIndexOf energyParams.tetraloops (sequence.take 6) with
    | some idx => energyParams.tetraloop (idx / 7)
    | none =>
        energy + energyParams.mismatchHairpinLoop basePairType fivePrimeMismatch threePrimeMismatch
  else if size = 6 then
    match strIndexOf energyParams.hexaloops (sequence.take 8) with
    | some idx => energyParams.hexaloop (idx / 9)
    | none =>
        energy + energyParams.mismatchHairpinLoop basePairType fivePrimeMismatch threePrimeMismatch
  else if size = 3 then
    match strIndexOf energyParams.triloops (sequence.take 5) with
    | some idx => energyParams.triloop (idx / 6)
    | none => if basePairType > 2 then energy + energyParams.terminalAU else energy
  else
    energy + energyParams.mismatchHairpinLoop basePairType fivePrimeMismatch threePrimeMismatch

/-- `hairpinLoopEnergy`: wrapper evaluating a hairpin closed by
`(pairFivePrimeIdx, pairThreePrimeIdx)`.  The Go code slices
`fc.sequence[pairFivePrimeIdx-1:]`; when `pairFivePrimeIdx = 0` the slice lower
bound is -1 and the access panics (`runtimeError`). -/
def hairpinLoopEnergy (fc : foldCompound) (pairFivePrimeIdx pairThreePrimeIdx : ℕ) :
    Except MfeError (ℤ × EnergyContribution) := do
  let nbUnpairedNucleotides := pairThreePrimeIdx - pairFivePrimeIdx - 1
  let basePairType ← encodedBasePairType fc pairFivePrimeIdx pairThreePrimeIdx
  let m5 ← fc.encAt ((pairFivePrimeIdx : ℤ) + 1)
  let m3 ← fc.encAt ((pairThreePrimeIdx : ℤ) - 1)
  if pairFivePrimeIdx = 0 then .error .runtimeError
  else do
    let energy := evaluateHairpinLoop nbUnpairedNucleotides basePairType m5 m3
      (fc.sequence.drop (pairFivePrimeIdx - 1)) fc.energyParams
    pure (energy,
      { closingFivePrimeIdx := pairFivePrimeIdx, closingThreePrimeIdx := pairThreePrimeIdx,
        energy := energy, loopType := HairpinLoop })

/-- Scan upward from `i` to the next paired position (`pairTable[i] != -1`).
Models the unguarded Go loops `for pairTable[i] == -1 { i++ }`: running past
the end of the table is the index-out-of-range panic.  `remaining` is the
structural bound `pt.length - i`. -/
def seekPairedForwardAux (pt : List ℤ) : ℕ → ℕ → Except MfeError ℕ
  | _, 0 => .error .runtimeError
  | i, remaining + 1 =>
      if i < pt.length then
        if pt.getD i 0 = -1 then seekPairedForwardAux pt (i + 1) remaining else .ok i
      else .error .runtimeError

/-- Entry point for the forward seek. -/
def seekPairedForward (pt : List ℤ) (i : ℕ) : Except MfeError ℕ :=
  seekPairedForwardAux pt i (pt.length - i)

/-- Scan downward from `i` to the next paired position; running below index 0
is the index-out-of-range panic. -/
def seekPairedBackwardAux (pt : List ℤ) : ℕ → ℕ → Except MfeError ℕ
  | _, 0 => .error .runtimeError
  | i, remaining + 1 =>
      if i < pt.length then
        if pt.getD i 0 = -1 then
          if i = 0 then .error .runtimeError else seekPairedBackwardAux pt (i - 1) remaining
        else .ok i
      else .error .runtimeError

/-- Entry point for the backward seek. -/
def seekPairedBackward (pt : List ℤ) (i : ℕ) : Except MfeError ℕ :=
  seekPairedBackwardAux pt i (i + 1)

/-- Guarded stem seek of `multiLoopEnergy`: advance `ef` while
`ef ≤ bound && pairTable[ef] == -1` (first stem uses `bound = ct`, with `≤`;
the in-loop seek uses strict `<`, selected by `strict`).  The short-circuit
guard reads `pairTable[ef]` only when the comparison holds; that read is
checked. -/
def seekStemAux (pt : List ℤ) (bound : ℕ) (strict : Bool) : ℕ → ℕ → Except MfeError ℕ
  | ef, 0 => .ok ef
  | ef, remaining + 1 =>
      if (if strict then ef < bound else ef ≤ bound) then
        if ef < pt.length then
          if pt.getD ef 0 = -1 then seekStemAux pt bound strict (ef + 1) remaining else .ok ef
        else .error .runtimeError
      else .ok ef

/-- Entry point for the guarded stem seek. -/
def seekStem (pt : List ℤ) (bound : ℕ) (strict : Bool) (ef : ℕ) : Except MfeError ℕ :=
  seekStemAux pt bound strict ef (bound + 1 - ef)

/-- The type of the recursive stem evaluator passed down into the multi-loop
walker (ties the `stackEnergy` ↔ `multiLoopEnergy` recursion through the fuel
of `stackEnergy`). -/
abbrev StemEval := foldCompound → ℕ → Except MfeError (ℤ × List EnergyContribution)

/-- The stem iteration of `multiLoopEnergy` (`for enclosedFivePrimeIdx <
closingThreePrimeIdx { ... }`).  Returns the accumulated multi-loop stem
energies, the accumulated substructure energies, the number of unpaired
nucleotides counted after the first stem, and the substructure contributions,
in order.  `k` bounds the iteration count (each iteration advances
`enclosedFivePrimeIdx` for every state reachable from the facade). -/
def multiLoopLoop (stackE : StemEval) (fc : foldCompound) (ct : ℕ) :
    ℕ → ℕ → Except MfeError (ℤ × ℤ × ℕ × List EnergyContribution)
  | 0, _ => .error .outOfFuel
  | k + 1, ef =>
      if ef < ct then do
        let (subEn, subCs) ← stackE fc ef
        let etZ ← fc.ptAt ef
        let basePairType ← encodedBasePairType fc ef etZ
        let m5 ← fc.encAt ((ef : ℤ) - 1)
        let m3 ← fc.encAt (etZ + 1)
        let stemEn := multiLoopStemEnergy basePairType m5 m3 fc.energyParams
        let ef2 ← seekStem fc.pairTable ct true (etZ.toNat + 1)
        let (stemRest, subRest, unpRest, csRest) ← multiLoopLoop stackE fc ct k ef2
        pure (stemEn + stemRest, subEn + subRest, (ef2 - etZ.toNat - 1) + unpRest, subCs ++ csRest)
      else pure (0, 0, 0, [])

/-- `multiLoopEnergy`: scores the multi-loop closed by `closingFivePrimeIdx`.
The closing-pair type is looked up with the pair REVERSED — `(ct, cf)` — as in
the source (flagged there as a possible upstream bug and preserved).  The
`closingFivePrimeIdx >= pairTable[closingFivePrimeIdx]` guard panics in Go;
modelled as `runtimeError`. -/
def multiLoopEnergyGo (stackE : StemEval) (fc : foldCompound) (closingFivePrimeIdx : ℕ) :
    Except MfeError (ℤ × List EnergyContribution) := do
  let ctZ ← fc.ptAt closingFivePrimeIdx
  if (closingFivePrimeIdx : ℤ) ≥ ctZ then .error .runtimeError
  else do
    let basePairType ← encodedBasePairType fc ctZ closingFivePrimeIdx
    let m5 ← fc.encAt (ctZ - 1)
    let m3 ← fc.encAt ((closingFivePrimeIdx : ℤ) + 1)
    let closingEnergy := fc.energyParams.multiLoopClosingPenalty +
      multiLoopStemEnergy basePairType m5 m3 fc.energyParams
    let ct := ctZ.toNat
    let ef1 ← seekStem fc.pairTable ct false (closingFivePrimeIdx + 1)
    let nbUnpairedInitial := ef1 - closingFivePrimeIdx - 1
    let (stemSum, subSum, unpRest, subCs) ← multiLoopLoop stackE fc ct (ct + 1) ef1
    let multiLoopEnergy := closingEnergy + stemSum +
      ((nbUnpairedInitial + unpRest : ℕ) : ℤ) * fc.energyParams.multiLoopUnpairedNucelotideBonus
    pure (multiLoopEnergy + subSum,
      subCs ++ [{ closingFivePrimeIdx := closingFivePrimeIdx, closingThreePrimeIdx := ct,
                  energy := multiLoopEnergy, loopType := MultiLoop }])

/-- Terminal step of `stackEnergy`'s descent: the iterators `(ef, et)` no
longer name a nested pair.  `ef > et` is a hairpin closed by the current
closing pair `(cf, ct)`; otherwise the region is a multi-loop. -/
def stackAfterLoop (stackE : StemEval) (fc : foldCompound) (cf ct ef et : ℕ) :
    Except MfeError (ℤ × List EnergyContribution) :=
  if ef > et then do
    let (en, c) ← hairpinLoopEnergy fc cf ct
    pure (en, [c])
  else
    multiLoopEnergyGo stackE fc cf

/-- The backward seek for the enclosed 3' iterator: `enclosedThreePrimeIdx--`
underflows (index -1, panic) when the closing 3' index is 0. -/
def seekEnclosedThree (pt : List ℤ) (ct : ℕ) : Except MfeError ℕ :=
  if ct = 0 then .error .runtimeError else seekPairedBackward pt (ct - 1)

/-- The descent loop of `stackEnergy`: from closing pair `(cf, ct)`, seek the
next inner paired positions `(ef, et)`; while they are partners score the
degree-2 loop and rename the closing pair; a non-pairing enclosed pair with
code 0 is the Go `panic("bases ef and et can't pair!")`, modelled as
`invalidPair ef et`.  `k` bounds the iteration count (the 5' iterator strictly
increases, so `pt.length + 2` never exhausts). -/
def stackLoop (stackE : StemEval) (fc : foldCompound) :
    ℕ → ℕ → ℕ → Except MfeError (ℤ × List EnergyContribution)
  | 0, _, _ => .error .outOfFuel
  | k + 1, cf, ct =>
      if cf < ct then do
        let ef ← seekPairedForward fc.pairTable (cf + 1)
        let et ← seekEnclosedThree fc.pairTable ct
        if fc.pairTable.getD et 0 ≠ (ef : ℤ) ∨ ef > et then
          stackAfterLoop stackE fc cf ct ef et
        else do
          let enclosedType ← encodedBasePairType fc et ef
          if enclosedType = 0 then .error (.invalidPair ef et)
          else do
            let (en, c) ← stackBulgeInteriorLoopEnergy fc cf ct ef et
            let (enRest, csRest) ← stackLoop stackE fc k ef et
            pure (en + enRest, c :: csRest)
      else stackAfterLoop stackE fc cf ct cf ct

/-- `stackEnergy`: scores the whole substructure enclosed by the pair at
`closingFivePrimeIdx`.  A closing pair with base-pair code 0 is the Go
`panic("bases f and t can't pair!")`, modelled as `invalidPair`.  `fuel`
bounds the `stackEnergy` ↔ `multiLoopEnergy` recursion depth; the facade
passes more fuel than any pair-table nesting depth can use. -/
def stackEnergy : ℕ → foldCompound → ℕ → Except MfeError (ℤ × List EnergyContribution)
  | 0, _, _ => .error .outOfFuel
  | fuel + 1, fc, closingFivePrimeIdx => do
      let ctZ ← fc.ptAt closingFivePrimeIdx
      let closingType ← encodedBasePairType fc closingFivePrimeIdx ctZ
      if closingType = 0 then .error (.invalidPair closingFivePrimeIdx ctZ.toNat)
      else
        stackLoop (fun fc' cf' => stackEnergy fuel fc' cf') fc
          (fc.pairTable.length + 2) closingFivePrimeIdx ctZ.toNat

/-- Seek of `exteriorLoopEnergy`: advance while
`pf < fc.length && pairTable[pf] == -1`. -/
def extSeekAux (fc : foldCompound) : ℕ → ℕ → Except MfeError ℕ
  | ef, 0 => .ok ef
  | ef, remaining + 1 =>
      if ef < fc.length then
        if ef < fc.pairTable.length then
          if fc.pairTable.getD ef 0 = -1 then extSeekAux fc (ef + 1) remaining else .ok ef
        else .error .runtimeError
      else .ok ef

/-- Entry point for the exterior-loop seek. -/
def extSeek (fc : foldCompound) (ef : ℕ) : Except MfeError ℕ :=
  extSeekAux fc ef (fc.length - ef)

/-- The stem iteration of `exteriorLoopEnergy`.  Each visited `pf` is the 5'
base of a top-level stem; mismatches fall back to -1 at the sequence ends. -/
def exteriorLoopEnergyGo (fc : foldCompound) : ℕ → ℕ → Except MfeError ℤ
  | 0, _ => .error .outOfFuel
  | k + 1, pairFivePrimeIdx =>
      if pairFivePrimeIdx < fc.length then do
        let ptpZ ← fc.ptAt pairFivePrimeIdx
        let basePairType ← encodedBasePairType fc pairFivePrimeIdx ptpZ
        let fivePrimeMismatch ←
          if pairFivePrimeIdx > 0 then
            Except.map (fun x => (x : ℤ)) (fc.encAt ((pairFivePrimeIdx : ℤ) - 1))
          else pure (-1 : ℤ)
        let threePrimeMismatch ←
          if ptpZ < (fc.length : ℤ) - 1 then Except.map (fun x => (x : ℤ)) (fc.encAt (ptpZ + 1))
          else pure (-1 : ℤ)
        let en := exteriorStemEnergy basePairType fivePrimeMismatch threePrimeMismatch fc.energyParams
        if ptpZ < 0 then .error .runtimeError
        else do
          let pf2 ← extSeek fc (ptpZ.toNat + 1)
          let rest ← exteriorLoopEnergyGo fc k pf2
          pure (en + rest)
      else pure 0

/-- `exteriorLoopEnergy`: dangling-end/mismatch energy of all stems branching
off the exterior loop, packaged with its single contribution record (whose
other fields are Go zero values). -/
def exteriorLoopEnergy (fc : foldCompound) : Except MfeError (ℤ × EnergyContribution) := do
  let pf0 ← extSeek fc 0
  let energy ← exteriorLoopEnergyGo fc (fc.length + 1) pf0
  pure (energy, { energy := energy })

/-- The top-level scan of `evaluateFoldCompound`: score every top-level stem
and jump to `pairTable[i] + 1`.  A table entry below -1 would make the next Go
iteration read a negative index (panic). -/
def evaluateTopLoop (fc : foldCompound) : ℕ → ℕ → Except MfeError (ℤ × List EnergyContribution)
  | 0, _ => .error .outOfFuel
  | k + 1, i =>
      if i < fc.length then do
        let pti ← fc.ptAt i
        if pti = -1 then evaluateTopLoop fc k (i + 1)
        else do
          let (en, cs) ← stackEnergy (fc.length + 2) fc i
          if pti < 0 then .error .runtimeError
          else do
            let (enRest, csRest) ← evaluateTopLoop fc k (pti.toNat + 1)
            pure (en + enRest, cs ++ csRest)
      else pure (0, [])

/-- `evaluateFoldCompound`: exterior-loop energy plus the energies of all
top-level substructures, with the contribution list in source order. -/
def evaluateFoldCompound (fc : foldCompound) : Except MfeError (ℤ × List EnergyContribution) := do
  let (extEn, extC) ← exteriorLoopEnergy fc
  let (en, cs) ← evaluateTopLoop fc (fc.length + 1) 0
  pure (extEn + en, extC :: cs)

/-- Go `int(x)` conversion of a float: truncation toward zero, modelled on
`ℚ`. -/
def ratTruncToInt (q : ℚ) : ℤ :=
  if 0 ≤ q then q.floor else -((-q).floor)

/-- `rescaleDg`: rescales an energy-table entry `dG` (at 37 °C) with enthalpy
`dH` to `temperature` (°C).  Note that the source converts the Kelvin-ratio
`temperatureKelvin / defaultEnergyParamsTemperatureKelvin` to an `int` BEFORE
multiplying, i.e. `T` below is the truncated ratio, not the real-valued one. -/
def rescaleDg (dG dH : ℤ) (temperature : ℚ) : ℤ :=
  let defaultEnergyParamsTemperatureKelvin := energyParamsTemperature + zeroCKelvin
  let temperatureKelvin := temperature + zeroCKelvin
  let T : ℤ := ratTruncToInt (temperatureKelvin / defaultEnergyParamsTemperatureKelvin)
  let dS := dH - dG
  dH - dS * T

/-- The 37 °C reference tables and matched enthalpy tables consumed by
`scaleEnergyParams` (`stack37`/`stackdH`, `hairpin37`/`hairpindH`, …).

Modelled from the spec: these constants live in `energy_params.go`, which is
not among the sources under review; the spec (§4.A) describes only their
shapes, not their numeric content, and no claim proved in this file depends on
the numbers.  The default instance below therefore carries all-zero tables and
empty special-loop registries, while every theorem about the evaluator is
stated for an arbitrary `energyParams` record. -/
structure referenceEnergyTables where
  stack37 : ℕ → ℕ → ℤ := fun _ _ => 0
  stackdH : ℕ → ℕ → ℤ := fun _ _ => 0
  hairpin37 : ℕ → ℤ := fun _ => 0
  hairpindH : ℕ → ℤ := fun _ => 0
  bulge37 : ℕ → ℤ := fun _ => 0
  bulgedH : ℕ → ℤ := fun _ => 0
  internalLoop37 : ℕ → ℤ := fun _ => 0
  internalLoopdH : ℕ → ℤ := fun _ => 0
  mismatchI37 : ℕ → ℕ → ℕ → ℤ := fun _ _ _ => 0
  mismatchIdH : ℕ → ℕ → ℕ → ℤ := fun _ _ _ => 0
  mismatchH37 : ℕ → ℕ → ℕ → ℤ := fun _ _ _ => 0
  mismatchHdH : ℕ → ℕ → ℕ → ℤ := fun _ _ _ => 0
  mismatch1nI37 : ℕ → ℕ → ℕ → ℤ := fun _ _ _ => 0
  mismatch1nIdH : ℕ → ℕ → ℕ → ℤ := fun _ _ _ => 0
  mismatch23I37 : ℕ → ℕ → ℕ → ℤ := fun _ _ _ => 0
  mismatch23IdH : ℕ → ℕ → ℕ → ℤ := fun _ _ _ => 0
  mismatchM37 : ℕ → ℕ → ℕ → ℤ := fun _ _ _ => 0
  mismatchMdH : ℕ → ℕ → ℕ → ℤ := fun _ _ _ => 0
  mismatchExt37 : ℕ → ℕ → ℕ → ℤ := fun _ _ _ => 0
  mismatchExtdH : ℕ → ℕ → ℕ → ℤ := fun _ _ _ => 0
  dangle5_37 : ℕ → ℕ → ℤ := fun _ _ => 0
  dangle5_dH : ℕ → ℕ → ℤ := fun _ _ => 0
  dangle3_37 : ℕ → ℕ → ℤ := fun _ _ => 0
  dangle3_dH : ℕ → ℕ → ℤ := fun _ _ => 0
  int11_37 : ℕ → ℕ → ℕ → ℕ → ℤ := fun _ _ _ _ => 0
  int11_dH : ℕ → ℕ → ℕ → ℕ → ℤ := fun _ _ _ _ => 0
  int21_37 : ℕ → ℕ → ℕ → ℕ → ℕ → ℤ := fun _ _ _ _ _ => 0
  int21_dH : ℕ → ℕ → ℕ → ℕ → ℕ → ℤ := fun _ _ _ _ _ => 0
  int22_37 : ℕ → ℕ → ℕ → ℕ → ℕ → ℕ → ℤ := fun _ _ _ _ _ _ => 0
  int22_dH : ℕ → ℕ → ℕ → ℕ → ℕ → ℕ → ℤ := fun _ _ _ _ _ _ => 0
  ninio37 : ℤ := 0
  niniodH : ℤ := 0
  TripleC37 : ℤ := 0
  TripleCdH : ℤ := 0
  MultipleCA37 : ℤ := 0
  MultipleCAdH : ℤ := 0
  TerminalAU37 : ℤ := 0
  TerminalAUdH : ℤ := 0
  MLbase37 : ℤ := 0
  MLbasedH : ℤ := 0
  MLclosing37 : ℤ := 0
  MLclosingdH : ℤ := 0
  MLintern37 : ℤ := 0
  MLinterndH : ℤ := 0
  Tetraloops : List Char := []
  Tetraloop37 : ℕ → ℤ := fun _ => 0
  TetraloopdH : ℕ → ℤ := fun _ => 0
  Triloops : List Char := []
  Triloop37 : ℕ → ℤ := fun _ => 0
  TriloopdH : ℕ → ℤ := fun _ => 0
  Hexaloops : List Char := []
  Hexaloop37 : ℕ → ℤ := fun _ => 0
  HexaloopdH : ℕ → ℤ := fun _ => 0

/-- Default (all-zero) reference tables; see `referenceEnergyTables`. -/
def defaultReferenceTables : referenceEnergyTables := {}

/-- Modelled from the spec: `int(lxc * math.Log(float64(n)/30.0))` with
`lxc = lxc37 * temperature` is a floating-point computation on values from the
missing `energy_params.go`; it is abstracted as zero (spec §4.A only fixes its
role for loops longer than 30, and no claim depends on its value — all
theorems about the evaluator quantify over the whole parameter record). -/
def lxcLogModel (_temperature : ℚ) (_n : ℕ) : ℤ := 0

/-- `scaleEnergyParams`: builds the temperature-scaled parameter set by
applying `rescaleDg` entrywise to the reference/enthalpy tables, clamping the
multi-loop and exterior mismatches and both dangle tables to ≤ 0.  The Go
loops that fill the fixed-size arrays become pointwise function definitions
(the second bulge/interiorLoop loop in the source is dead code: its index
starts past `maxLenLoop`).  `ninio` is written only at index 2, the rest of
the array keeps its zero value. -/
def scaleEnergyParams (tables : referenceEnergyTables) (temperature : ℚ) : energyParams where
  stackingPair := fun i j => rescaleDg (tables.stack37 i j) (tables.stackdH i j) temperature
  hairpinLoop := fun i => rescaleDg (tables.hairpin37 i) (tables.hairpindH i) temperature
  bulge := fun i => rescaleDg (tables.bulge37 i) (tables.bulgedH i) temperature
  interiorLoop := fun i => rescaleDg (tables.internalLoop37 i) (tables.internalLoopdH i) temperature
  mismatchInteriorLoop := fun i j k =>
    rescaleDg (tables.mismatchI37 i j k) (tables.mismatchIdH i j k) temperature
  mismatch1xnInteriorLoop := fun i j k =>
    rescaleDg (tables.mismatch1nI37 i j k) (tables.mismatch1nIdH i j k) temperature
  mismatch2x3InteriorLoop := fun i j k =>
    rescaleDg (tables.mismatch23I37 i j k) (tables.mismatch23IdH i j k) temperature
  mismatchExteriorLoop := fun i j k =>
    let mm := rescaleDg (tables.mismatchExt37 i j k) (tables.mismatchExtdH i j k) temperature
    if mm > 0 then 0 else mm
  mismatchHairpinLoop := fun i j k =>
    rescaleDg (tables.mismatchH37 i j k) (tables.mismatchHdH i j k) temperature
  mismatchMultiLoop := fun i j k =>
    let mm := rescaleDg (tables.mismatchM37 i j k) (tables.mismatchMdH i j k) temperature
    if mm > 0 then 0 else mm
  dangle5 := fun i j =>
    let dd := rescaleDg (tables.dangle5_37 i j) (tables.dangle5_dH i j) temperature
    if dd > 0 then 0 else dd
  dangle3 := fun i j =>
    let dd := rescaleDg (tables.dangle3_37 i j) (tables.dangle3_dH i j) temperature
    if dd > 0 then 0 else dd
  interior1x1Loop := fun i j k l =>
    rescaleDg (tables.int11_37 i j k l) (tables.int11_dH i j k l) temperature
  interior2x1Loop := fun i j k l m =>
    rescaleDg (tables.int21_37 i j k l m) (tables.int21_dH i j k l m) temperature
  interior2x2Loop := fun i j k l m n =>
    rescaleDg (tables.int22_37 i j k l m n) (tables.int22_dH i j k l m n) temperature
  ninio := fun i => if i = 2 then rescaleDg tables.ninio37 tables.niniodH temperature else 0
  lxcLog := lxcLogModel temperature
  multiLoopUnpairedNucelotideBonus := rescaleDg tables.MLbase37 tables.MLbasedH temperature
  multiLoopClosingPenalty := rescaleDg tables.MLclosing37 tables.MLclosingdH temperature
  terminalAU := rescaleDg tables.TerminalAU37 tables.TerminalAUdH temperature
  multiLoopIntern := fun _ => rescaleDg tables.MLintern37 tables.MLinterndH temperature
  tetraloops := tables.Tetraloops
  tetraloop := fun i => rescaleDg (tables.Tetraloop37 i) (tables.TetraloopdH i) temperature
  triloops := tables.Triloops
  triloop := fun i => rescaleDg (tables.Triloop37 i) (tables.TriloopdH i) temperature
  hexaloops := tables.Hexaloops
  hexaloop := fun i => rescaleDg (tables.Hexaloop37 i) (tables.HexaloopdH i) temperature
  tripleC := rescaleDg tables.TripleC37 tables.TripleCdH temperature
  multipleCA := rescaleDg tables.MultipleCA37 tables.MultipleCAdH temperature
  multipleCB := rescaleDg tables.TerminalAU37 tables.TerminalAUdH temperature

/-- The validation/encoding/decomposition pipeline of `MinimumFreeEnergy`,
with the scaled parameter set passed in (the facade instantiates it at
`scaleEnergyParams defaultReferenceTables temperature`; every structural
theorem below quantifies over the whole record). -/
def minimumFreeEnergyWith (params : energyParams) (sequence struc : String) :
    Except MfeError (ℚ × List EnergyContribution) :=
  let lenSequence := sequence.length
  let lenStructure := struc.length
  if lenSequence ≠ lenStructure then .error .lengthMismatch
  else if lenStructure = 0 then .error .emptyInput
  else do
    let seqU := sequence.data.map Char.toUpper
    ensureValidRNA seqU
    ensureValidStructure struc.data
    let pt ← pairTable struc.data
    let fc : foldCompound :=
      { length := lenSequence, energyParams := params, sequence := seqU,
        encodedSequence := encodeSequence seqU, pairTable := pt }
    let (energyInt, energyContributions) ← evaluateFoldCompound fc
    pure ((energyInt : ℚ) / 100, energyContributions)

/-- `MinimumFreeEnergy(sequence, structure, temperature)`: the public facade.
The kcal/mol result is the integer dcal/mol total divided by 100 (the Go
float64 arithmetic is modelled exactly on `ℚ`). -/
def MinimumFreeEnergy (sequence struc : String) (temperature : ℚ) :
    Except MfeError (ℚ × List EnergyContribution) :=
  minimumFreeEnergyWith (scaleEnergyParams defaultReferenceTables temperature) sequence struc

/-! ## CDS synthesis fixer (`synthesis/synthesis.go`) -/

/-- Errors of `FixCds` (spec §7).  `runtimeError` again models a Go panic —
here `MustExec` aborting on a PRIMARY KEY violation when the codon table
contains a duplicate triplet. -/
inductive FixError where
  | notCompleteCds
  | unfixable
  | runtimeError
  deriving DecidableEq, Repr

/-- A codon of the supplied codon table (`codon.Codon`): a DNA triplet and its
weight. -/
structure Codon where
  triplet : String
  weight : ℤ
  deriving DecidableEq, Repr

/-- An amino acid of the codon table (`codon.AminoAcid`). -/
structure AminoAcid where
  letter : String
  codons : List Codon
  deriving DecidableEq, Repr

/-- The supplied codon table (`codon.Table`; only the `AminoAcids` field is
consumed by the fixer). -/
structure CodonTable where
  aminoAcids : List AminoAcid
  deriving DecidableEq, Repr

/-- `DnaSuggestion`: a detector's directive.  Field names follow the Go struct
(`End` is spelled `endPos`).  `endPos` is `ℤ` because the detectors' codon
back-off `end/3 - 1` can be negative. -/
structure DnaSuggestion where
  start : ℤ
  endPos : ℤ
  bias : String
  quantityFixes : ℤ
  suggestionType : String
  deriving DecidableEq, Repr

/-- A `Change` log entry of `FixCds`.  `codonFrom` is the result of the
sub-select `SELECT codon FROM history WHERE pos = h.pos AND step = h.step-1
LIMIT 1`, which is `none` when no history row exists at the previous step. -/
structure Change where
  position : ℕ
  step : ℕ
  codonFrom : Option String
  codonTo : String
  reason : String
  deriving DecidableEq, Repr

/-- A row of the `history` relation. -/
structure HistoryRow where
  pos : ℕ
  codon : String
  step : ℕ
  suggestedfix : Option ℕ
  deriving DecidableEq, Repr

/-- A row of the `suggestedfix` relation (`dbDnaSuggestion`). -/
structure SuggestedFixRow where
  id : ℕ
  step : ℕ
  start : ℤ
  endPos : ℤ
  gcBias : String
  quantityFixes : ℤ
  suggestionType : String
  deriving DecidableEq, Repr

/-- A row of the `codonbias` relation. -/
structure CodonBiasRow where
  fromCodon : String
  toCodon : String
  gcBias : String
  deriving DecidableEq, Repr

/-- A detector (`problematicSequenceFunc`).  The Go function writes its
suggestions to a channel and signals a wait group; it is modelled by its
emission trace on a given sequence (the detectors of this file are pure). -/
abbrev ProblematicSequenceFunc := String → List DnaSuggestion

/-- `strings.Count(s, "G") + strings.Count(s, "C")`: the G+C content of a
codon, used to label the bias of a substitution. -/
def gcCount (s : String) : ℕ :=
  (s.data.filter (fun c => c = 'G' ∨ c = 'C')).length

/-- All `(triplet, amino-acid letter)` rows inserted into the `codon`
relation, in insertion order. -/
def codonRows (codontable : CodonTable) : List (String × String) :=
  codontable.aminoAcids.flatMap (fun aa => aa.codons.map (fun c => (c.triplet, aa.letter)))

/-- All rows of the `codonbias` relation: for every ordered pair of distinct
codons of one amino acid, the bias label NA/AT/GC according to whether the
target has equal/fewer/more G+C. -/
def codonBiasRows (codontable : CodonTable) : List CodonBiasRow :=
  codontable.aminoAcids.flatMap (fun aa =>
    aa.codons.flatMap (fun c =>
      (aa.codons.filter (fun t => t.triplet ≠ c.triplet)).map (fun t =>
        { fromCodon := c.triplet, toCodon := t.triplet,
          gcBias :=
            if gcCount c.triplet = gcCount t.triplet then "NA"
            else if gcCount c.triplet > gcCount t.triplet then "AT"
            else "GC" })))

/-- The `weightTable` map (codon → weight); absent keys give the Go zero
value 0. -/
def weightLookup (codontable : CodonTable) (codon : String) : ℤ :=
  ((codontable.aminoAcids.flatMap (fun aa => aa.codons)).filter
      (fun c => c.triplet = codon)).getLast?.elim 0 (fun c => c.weight)

/-- Static context of one `FixCds` invocation: the codon-bias relation, the
per-position `weights` relation (the weight of the position's original codon),
and the number of codon positions. -/
structure FixContext where
  bias : List CodonBiasRow
  weightAt : ℕ → ℤ
  numPositions : ℕ

/-- Mutable state of the fixer round loop. -/
structure FixState where
  history : List HistoryRow
  suggestedfix : List SuggestedFixRow
  sequence : String
  deriving DecidableEq, Repr

/-- The current codon at a position: the `codon` of the history row at that
position with the maximum `step` (the `SELECT codon FROM (SELECT codon, pos
FROM history ORDER BY step DESC) GROUP BY pos` recomputation; spec §4.G fixes
the selected row as the max-step one; among equal steps the latest insertion
wins). -/
def currentCodonAt (history : List HistoryRow) (p : ℕ) : String :=
  (((history.filter (fun r => r.pos = p)).foldl
      (fun best r =>
        match best with
        | none => some r
        | some b => if r.step ≥ b.step then some r else some b)
      none).map (fun r => r.codon)).getD ""

/-- Recompute the working sequence from the history. -/
def recomputeSequence (ctx : FixContext) (history : List HistoryRow) : String :=
  String.join ((List.range ctx.numPositions).map (currentCodonAt history))

/-- The candidate substitution at one position for one suggestion: the first
`codonbias` row (in relation order, over the history rows of the position in
insertion order) whose source codon is a historical codon of the position,
whose target differs from it, and which matches the bias filter (`none` means
the unfiltered `NA` statement). -/
def firstCandidate (ctx : FixContext) (history : List HistoryRow) (p : ℕ)
    (biasFilter : Option String) : Option String :=
  (((history.filter (fun r => r.pos = p)).flatMap (fun h =>
      ctx.bias.filter (fun cb =>
        cb.fromCodon = h.codon ∧ cb.toCodon ≠ h.codon ∧
          cb.gcBias = biasFilter.getD cb.gcBias))).head?).map
    (fun cb => cb.toCodon)

/-- Apply one `suggestedfix` row at step `i`: positions of `seq` inside
`[start, end]` that admit a candidate are ranked by ascending weight (position
as tie-break, per spec §4.G.4/§9), the first `quantityFixes` of them each get
a new history row at step `i` recording the chosen codon and the suggestion
id.  A bias label other than NA/GC/AT matches no `switch` case in the source
and performs no substitution. -/
def applySuggestedFixWith (ctx : FixContext) (i : ℕ) (history : List HistoryRow)
    (sf : SuggestedFixRow) (bf : Option String) : List HistoryRow :=
  let cands := (List.range ctx.numPositions).filterMap (fun (p : ℕ) =>
    if sf.start ≤ (p : ℤ) ∧ (p : ℤ) ≤ sf.endPos then
      (firstCandidate ctx history p bf).map (fun c => (p, c))
    else none)
  let ranked := cands.insertionSort (fun a b =>
    ctx.weightAt a.1 < ctx.weightAt b.1 ∨
      (ctx.weightAt a.1 = ctx.weightAt b.1 ∧ a.1 ≤ b.1))
  let chosen := ranked.take sf.quantityFixes.toNat
  history ++ chosen.map (fun pc =>
    { pos := pc.1, codon := pc.2, step := i, suggestedfix := some sf.id })

/-- Dispatch on the suggestion's bias label, as the Go `switch`: `NA` runs the
unfiltered statement, `GC`/`AT` the filtered ones, and any other label matches
no case and performs no substitution. -/
def applySuggestedFix (ctx : FixContext) (i : ℕ) (history : List HistoryRow)
    (sf : SuggestedFixRow) : List HistoryRow :=
  if sf.gcBias = "NA" then applySuggestedFixWith ctx i history sf none
  else if sf.gcBias = "GC" then applySuggestedFixWith ctx i history sf (some "GC")
  else if sf.gcBias = "AT" then applySuggestedFixWith ctx i history sf (some "AT")
  else history

/-- `findProblems`: run all detectors over the sequence and join their
suggestion streams (the concurrent channel interleaving is modelled as
concatenation in detector order; spec §5 makes the set, not the order,
canonical). -/
def findProblems (sequence : String) (problematicSequenceFuncs : List ProblematicSequenceFunc) :
    List DnaSuggestion :=
  (problematicSequenceFuncs.map (fun f => f sequence)).flatten

/-- One round of the fixer at step `i`, given the (nonempty) suggestion list:
insert the suggestions into `suggestedfix` with fresh AUTOINCREMENT ids, apply
each suggestion of this step independently, and recompute the sequence. -/
def fixRound (ctx : FixContext) (i : ℕ) (st : FixState) (suggestions : List DnaSuggestion) :
    FixState :=
  let fresh := (List.range suggestions.length).zip suggestions
  let newRows := fresh.map (fun idsugg =>
    { id := st.suggestedfix.length + idsugg.1 + 1, step := i,
      start := idsugg.2.start, endPos := idsugg.2.endPos, gcBias := idsugg.2.bias,
      quantityFixes := idsugg.2.quantityFixes,
      suggestionType := idsugg.2.suggestionType : SuggestedFixRow })
  let sfix := st.suggestedfix ++ newRows
  let independentSuggestions := sfix.filter (fun r => r.step = i)
  let history := independentSuggestions.foldl (applySuggestedFix ctx i) st.history
  { history := history, suggestedfix := sfix, sequence := recomputeSequence ctx history }

/-- How the round loop of `FixCds` ended: `finished` is the
no-suggestions-left exit, `capReached` is exhaustion of the iteration cap. -/
inductive FixExit where
  | finished (st : FixState)
  | capReached (st : FixState)
  deriving DecidableEq, Repr

/-- Whether the loop exit is the iteration-cap one. -/
def FixExit.isCap : FixExit → Bool
  | .finished _ => false
  | .capReached _ => true

/-- The state carried out of the loop. -/
def FixExit.state : FixExit → FixState
  | .finished st => st
  | .capReached st => st

/-- `FixIterations`: the round cap (package variable, default 100). -/
def FixIterations : ℕ := 100

/-- The round loop `for i := 1; i < FixIterations; i++`, with `remaining` the
number of iterations left (`FixIterations - i`). -/
def fixLoop (ctx : FixContext) (problematicSequenceFuncs : List ProblematicSequenceFunc) :
    ℕ → ℕ → FixState → FixExit
  | 0, _, st => .capReached st
  | remaining + 1, i, st =>
      if findProblems st.sequence problematicSequenceFuncs = [] then .finished st
      else
        fixLoop ctx problematicSequenceFuncs remaining (i + 1)
          (fixRound ctx i st (findProblems st.sequence problematicSequenceFuncs))

/-- The change-log query: history rows carrying a `suggestedfix` id, joined to
their suggestion for the reason, ordered by `(step, pos)`; `codonFrom` is the
first history row of the same position at the previous step, if any. -/
def buildChanges (history : List HistoryRow) (sfix : List SuggestedFixRow) : List Change :=
  let rows := (history.filter (fun r => r.suggestedfix ≠ none)).insertionSort
    (fun a b => a.step < b.step ∨ (a.step = b.step ∧ a.pos ≤ b.pos))
  rows.filterMap (fun r =>
    (r.suggestedfix.bind (fun idv => (sfix.filter (fun s => s.id = idv)).head?)).map (fun s =>
      { position := r.pos, step := r.step,
        codonFrom := ((history.filter (fun h => h.pos = r.pos ∧ h.step + 1 = r.step)).head?).map
          (fun h => h.codon)
        codonTo := r.codon, reason := s.suggestionType }))

/-- The codon at codon position `p` of the input sequence
(`sequence[3p : 3p+3]`). -/
def initCodonAt (sequence : String) (p : ℕ) : String :=
  ((sequence.data.drop (3 * p)).take 3).asString

/-- The static context `FixCds` sets up for a given input. -/
def fixInitCtx (sequence : String) (codontable : CodonTable) : FixContext where
  bias := codonBiasRows codontable
  weightAt := fun p => weightLookup codontable (initCodonAt sequence p)
  numPositions := sequence.length / 3

/-- The initial fixer state: one step-0 history row per codon position. -/
def fixInitState (sequence : String) : FixState where
  history := (List.range (sequence.length / 3)).map (fun p =>
    { pos := p, codon := initCodonAt sequence p, step := 0, suggestedfix := none })
  suggestedfix := []
  sequence := sequence

/-- The exit of `FixCds`'s round loop on the given input. -/
def fixLoopResult (sequence : String) (codontable : CodonTable)
    (problematicSequenceFuncs : List ProblematicSequenceFunc) : FixExit :=
  fixLoop (fixInitCtx sequence codontable) problematicSequenceFuncs
    (FixIterations - 1) 1 (fixInitState sequence)

/-- `FixCds(sequence, codontable, detectors)`.  The relational initialization
happens first: a duplicate triplet in the codon table violates the `codon`
PRIMARY KEY and `MustExec` panics (`runtimeError`).  Then the
`len(sequence) % 3` precondition, the `seq`/`history`/`weights`
initialization, the round loop, and the three exits of the source: success
with the change log when a round finds no problems; success with the change
log after the cap when the log is nonempty; `unfixable` otherwise. -/
def FixCds (sequence : String) (codontable : CodonTable)
    (problematicSequenceFuncs : List ProblematicSequenceFunc) :
    Except FixError (String × List Change) :=
  if ¬ ((codonRows codontable).map Prod.fst).Nodup then .error .runtimeError
  else if sequence.length % 3 ≠ 0 then .error .notCompleteCds
  else
    match fixLoopResult sequence codontable problematicSequenceFuncs with
    | .finished st => .ok (st.sequence, buildChanges st.history st.suggestedfix)
    | .capReached st =>
        let changes := buildChanges st.history st.suggestedfix
        if changes.length > 0 then .ok (st.sequence, changes) else .error .unfixable

/-- The suggestion a repeat occurrence at nucleotide offset `i` produces:
codon start `i/3`, codon end `(i+k)/3` with the one-codon back-off when `i` is
not codon-aligned, bias NA, one fix. -/
def repeatSuggestion (i repeatLen : ℕ) : DnaSuggestion :=
  let position := i / 3
  if i % 3 = 0 then
    { start := position, endPos := ((i + repeatLen : ℕ) : ℤ) / 3, bias := "NA",
      quantityFixes := 1, suggestionType := "Remove repeat" }
  else
    { start := position, endPos := ((i + repeatLen : ℕ) : ℤ) / 3 - 1, bias := "NA",
      quantityFixes := 1, suggestionType := "Remove repeat" }

/-- The scan of `RemoveRepeat`'s detector: window start `i`, countdown
`c = (len - repeatLen) - i` (the Go loop bound `i < len(sequence)-repeatLen`),
and the k-mer set seen so far (the Go map; membership is all that is read). -/
def removeRepeatAux (chars : List Char) (repeatLen : ℕ) :
    ℕ → ℕ → List (List Char) → List DnaSuggestion
  | _, 0, _ => []
  | i, c + 1, kmers =>
      let w := (chars.drop i).take repeatLen
      (if w ∈ kmers then [repeatSuggestion i repeatLen] else []) ++
        removeRepeatAux chars repeatLen (i + 1) c (w :: kmers)

/-- `RemoveRepeat(repeatLen)`: the repeat detector, modelled by its emission
trace. -/
def RemoveRepeat (repeatLen : ℕ) : ProblematicSequenceFunc := fun sequence =>
  removeRepeatAux sequence.data repeatLen 0 (sequence.length - repeatLen) []

/-- Codon-by-codon translation of a triplet under the codon table: the letter
of the first amino acid listing the triplet, `none` when no amino acid does. -/
def translateCodon (codontable : CodonTable) (codon : String) : Option String :=
  ((codonRows codontable).filter (fun r => r.1 = codon)).head?.map (fun r => r.2)

/-- Split a DNA string into consecutive triplets (the last chunk may be
shorter if the length is not a multiple of 3). -/
def splitCodons (s : String) : List String :=
  (List.range ((s.length + 2) / 3)).map (fun p => ((s.data.drop (3 * p)).take 3).asString)

/-- The protein of a CDS under the codon table, translated codon-by-codon. -/
def translateSeq (codontable : CodonTable) (s : String) : List (Option String) :=
  (splitCodons s).map (translateCodon codontable)

/-! ## Concrete instances used by counterexamples and witnesses -/

/-- An all-zero scaled parameter set, used as a base for concrete test
parameter records. -/
def zeroParams : energyParams where
  stackingPair := fun _ _ => 0
  hairpinLoop := fun _ => 0
  bulge := fun _ => 0
  interiorLoop := fun _ => 0
  mismatchInteriorLoop := fun _ _ _ => 0
  mismatch1xnInteriorLoop := fun _ _ _ => 0
  mismatch2x3InteriorLoop := fun _ _ _ => 0
  mismatchExteriorLoop := fun _ _ _ => 0
  mismatchHairpinLoop := fun _ _ _ => 0
  mismatchMultiLoop := fun _ _ _ => 0
  dangle5 := fun _ _ => 0
  dangle3 := fun _ _ => 0
  interior1x1Loop := fun _ _ _ _ => 0
  interior2x1Loop := fun _ _ _ _ _ => 0
  interior2x2Loop := fun _ _ _ _ _ _ => 0
  ninio := fun _ => 0
  lxcLog := fun _ => 0
  multiLoopUnpairedNucelotideBonus := 0
  multiLoopClosingPenalty := 0
  terminalAU := 0
  multiLoopIntern := fun _ => 0
  tetraloops := []
  tetraloop := fun _ => 0
  triloops := []
  triloop := fun _ => 0
  hexaloops := []
  hexaloop := fun _ => 0
  tripleC := 0
  multipleCA := 0
  multipleCB := 0

/-- Parameter set whose tetraloop registry holds the single entry `GAAAAC`
with bonus -200 (entries are 7 characters: 6 bases and a separator). -/
def tetraloopTestParams : energyParams :=
  { zeroParams with
    tetraloops := "GAAAAC ".data,
    tetraloop := fun _ => -200 }

/-- Fold compound for the sequence `AGAAAAC` with the size-4 hairpin closed by
the pair (1, 6), under `tetraloopTestParams`. -/
def tetraloopTestFc : foldCompound where
  length := 7
  energyParams := tetraloopTestParams
  sequence := "AGAAAAC".data
  encodedSequence := encodeSequence "AGAAAAC".data
  pairTable := [-1, 6, -1, -1, -1, -1, 1]

/-- C2 (code bug): `rescaleDg` truncates the Kelvin ratio
`(T+273.15)/310.15` to an `int` before multiplying, so for `dG37 = 0`,
`dH = 1000`, `T = 50 °C` it returns `dG37` itself (the truncated ratio is 1),
while the spec formula `dH − (dH − dG37)·((T+273.15)/310.15)` gives
`-260000/6203 ≈ -41.9`.  The code contradicts its own comment
`G(T) = H - [H - G(T0)]*T/T0`. -/
theorem claim_C2_rescaleDg_truncated_ratio :
    rescaleDg 0 1000 50 = 0 ∧
    ((rescaleDg 0 1000 50 : ℤ) : ℚ) ≠
      1000 - ((1000 - 0 : ℤ) : ℚ) * ((50 + zeroCKelvin) / (energyParamsTemperature + zeroCKelvin)) := by
  have hq : (50 + zeroCKelvin) / (energyParamsTemperature + zeroCKelvin) = 6463 / 6203 := by
    norm_num [zeroCKelvin, energyParamsTemperature]
  have htrunc : ratTruncToInt ((50 + zeroCKelvin) / (energyParamsTemperature + zeroCKelvin)) = 1 := by
    unfold ratTruncToInt
    rw [hq, if_pos (by norm_num)]
    show ⌊(6463 : ℚ) / 6203⌋ = 1
    norm_num
  have hval : rescaleDg 0 1000 50 = 0 := by
    show (1000 : ℤ) - (1000 - 0) *
      ratTruncToInt ((50 + zeroCKelvin) / (energyParamsTemperature + zeroCKelvin)) = 0
    rw [htrunc]
    ring
  refine ⟨hval, ?_⟩
  rw [hval, hq]
  norm_num

/-- C10 (confirmed): on the valid input `GAAAC` / `(...)` — a hairpin whose
closing 5' base is at index 0 — the evaluation hits the out-of-range slice
`fc.sequence[pairFivePrimeIdx-1:]` in `hairpinLoopEnergy` and dies with a
runtime panic (`runtimeError`), which is neither a result nor one of the
errors of the spec's taxonomy. -/
theorem claim_C10_hairpin_at_index_zero_crashes :
    MinimumFreeEnergy "GAAAC" "(...)" 37 = .error .runtimeError := by
  rfl

/-- C9 (code bug): a sequence whose FIRST character is invalid makes the
`^[ACGU]+` regular expression fail to match; `ensureValidRNA` then indexes the
nil `FindStringIndex` result and panics (`runtimeError`) instead of returning
the `InvalidAlphabet` error.  An invalid character after a valid first
character does produce `InvalidAlphabet`, as the claim states. -/
theorem claim_C9_first_char_invalid_panics :
    MinimumFreeEnergy "XAAAA" "....." 37 = .error .runtimeError ∧
    MinimumFreeEnergy "AXAAA" "....." 37 = .error .invalidAlphabet := by
  exact ⟨rfl, rfl⟩

/-- C6 (code bug): the hairpin kernel is given the slice
`fc.sequence[f-1:]`, so the 6 characters it looks up for a size-4 hairpin are
`sequence[f-1 .. f+4]` — one position to the LEFT of the claim's closing
substring `sequence[f..t]`.  Here `sequence[1..6] = GAAAAC` is in the registry
with bonus -200, yet the kernel looks up `AGAAAA`, misses, and returns the
size term plus hairpin mismatch (0 under the test tables) instead of the
bonus. -/
theorem claim_C6_tetraloop_window_shifted :
    strIndexOf tetraloopTestParams.tetraloops (("AGAAAAC".data.drop 1).take 6) = some 0 ∧
    tetraloopTestParams.tetraloop 0 = -200 ∧
    hairpinLoopEnergy tetraloopTestFc 1 6 =
      .ok (0, { closingFivePrimeIdx := 1, closingThreePrimeIdx := 6,
                energy := 0, loopType := HairpinLoop }) := by
  exact ⟨rfl, rfl, rfl⟩

/-- C8 (counterexample): for `ATAT` with k = 2 the k-mer `AT` re-occurs at
offset 2, whose window ends exactly at the end of the sequence — but the scan
bound `i < len(sequence)-repeatLen` stops before offset 2, and the detector
emits nothing at all. -/
theorem claim_C8_counterexample_end_window_skipped :
    RemoveRepeat 2 "ATAT" = [] ∧
    ("ATAT".data.drop 2).take 2 = ("ATAT".data.drop 0).take 2 ∧
    2 + 2 = "ATAT".length := by
  exact ⟨rfl, rfl, rfl⟩

/-- Scan invariant of `removeRepeatAux`: a window at offset `i + m` inside the
scanned range whose k-mer was already seen — either in the accumulated k-mer
set or at an earlier offset of the current scan — produces its suggestion. -/
theorem removeRepeatAux_mem (chars : List Char) (repeatLen : ℕ) :
    ∀ (c : ℕ) (i m : ℕ) (kmers : List (List Char)), m < c →
      ((chars.drop (i + m)).take repeatLen ∈ kmers ∨
        ∃ j, i ≤ j ∧ j < i + m ∧
          (chars.drop j).take repeatLen = (chars.drop (i + m)).take repeatLen) →
      repeatSuggestion (i + m) repeatLen ∈ removeRepeatAux chars repeatLen i c kmers := by
  intro c
  induction c with
  | zero => intro i m kmers hm _; omega
  | succ c ih =>
      intro i m kmers hm hseen
      match m with
      | 0 =>
          have hw : (chars.drop (i + 0)).take repeatLen ∈ kmers := by
            rcases hseen with h | ⟨j, hj1, hj2, _⟩
            · exact h
            · omega
          simp only [removeRepeatAux]
          rw [if_pos (by simpa using hw)]
          simp
      | m' + 1 =>
          have hmem : repeatSuggestion ((i + 1) + m') repeatLen ∈
              removeRepeatAux chars repeatLen (i + 1) c
                (((chars.drop i).take repeatLen) :: kmers) := by
            apply ih (i + 1) m' (((chars.drop i).take repeatLen) :: kmers) (by omega)
            have harith : (i + 1) + m' = i + (m' + 1) := by omega
            rw [harith]
            rcases hseen with h | ⟨j, hj1, hj2, hj3⟩
            · exact Or.inl (List.mem_cons_of_mem _ h)
            · rcases Nat.eq_or_lt_of_le hj1 with hji | hji
              · subst hji
                exact Or.inl (by rw [← hj3]; exact List.mem_cons_self _ _)
              · exact Or.inr ⟨j, by omega, by omega, hj3⟩
          simp only [removeRepeatAux]
          have harith : (i + 1) + m' = i + (m' + 1) := by omega
          rw [harith] at hmem
          exact List.mem_append_right _ hmem

/-- C8 (amended): `RemoveRepeat(k)` emits, for every k-mer occurrence at an
offset `i` that repeats an earlier occurrence AND starts strictly before
`len − k` (the Go scan bound `i < len(sequence)-repeatLen` excludes the window
ending exactly at the end of the sequence), one suggestion with gcBias NA and
quantityFixes 1 derived from `i`. -/
theorem claim_C8_remove_repeat_amended (repeatLen : ℕ) (sequence : String) (i : ℕ)
    (hi : i < sequence.length - repeatLen)
    (hrep : ∃ j, j < i ∧
      (sequence.data.drop j).take repeatLen = (sequence.data.drop i).take repeatLen) :
    repeatSuggestion i repeatLen ∈ RemoveRepeat repeatLen sequence ∧
    (repeatSuggestion i repeatLen).bias = "NA" ∧
    (repeatSuggestion i repeatLen).quantityFixes = 1 ∧
    (repeatSuggestion i repeatLen).start = (i / 3 : ℕ) := by
  refine ⟨?_, ?_, ?_, ?_⟩
  · have := removeRepeatAux_mem sequence.data repeatLen (sequence.length - repeatLen) 0 i [] hi ?_
    · simpa [RemoveRepeat] using this
    · rcases hrep with ⟨j, hj, hw⟩
      exact Or.inr ⟨j, Nat.zero_le _, by omega, by simpa using hw⟩
  · unfold repeatSuggestion
    split <;> rfl
  · unfold repeatSuggestion
    split <;> rfl
  · unfold repeatSuggestion
    split <;> rfl

/-- Witness for the amended C8 on `AAAA`, k = 2: the second occurrence of
`AA` (offset 1) yields its suggestion. -/
theorem claim_C8_remove_repeat_amended_witness :
    repeatSuggestion 1 2 ∈ RemoveRepeat 2 "AAAA" ∧
    (repeatSuggestion 1 2).bias = "NA" ∧
    (repeatSuggestion 1 2).quantityFixes = 1 ∧
    (repeatSuggestion 1 2).start = (1 / 3 : ℕ) :=
  claim_C8_remove_repeat_amended 2 "AAAA" 1 (by decide) ⟨0, by decide, by decide⟩

/-- C7 (confirmed): when the round loop of `FixCds` exits by reaching the
`FixIterations` cap, the function returns the current sequence with the
accumulated change log as a success whenever the log is nonempty, and the
`Unfixable` error when the log is empty.  (The no-panic and complete-CDS
hypotheses select the branch in which the loop runs at all.) -/
theorem claim_C7_cap_exit (sequence : String) (codontable : CodonTable)
    (problematicSequenceFuncs : List ProblematicSequenceFunc)
    (hnodup : ((codonRows codontable).map Prod.fst).Nodup)
    (hlen : sequence.length % 3 = 0)
    (hcap : (fixLoopResult sequence codontable problematicSequenceFuncs).isCap = true) :
    (buildChanges (fixLoopResult sequence codontable problematicSequenceFuncs).state.history
        (fixLoopResult sequence codontable problematicSequenceFuncs).state.suggestedfix ≠ [] →
      FixCds sequence codontable problematicSequenceFuncs =
        .ok ((fixLoopResult sequence codontable problematicSequenceFuncs).state.sequence,
          buildChanges
            (fixLoopResult sequence codontable problematicSequenceFuncs).state.history
            (fixLoopResult sequence codontable problematicSequenceFuncs).state.suggestedfix)) ∧
    (buildChanges (fixLoopResult sequence codontable problematicSequenceFuncs).state.history
        (fixLoopResult sequence codontable problematicSequenceFuncs).state.suggestedfix = [] →
      FixCds sequence codontable problematicSequenceFuncs = .error .unfixable) := by
  unfold FixCds
  rw [if_neg (by simpa using hnodup), if_neg (by simpa using hlen)]
  cases h : fixLoopResult sequence codontable problematicSequenceFuncs with
  | finished st => rw [h] at hcap; simp [FixExit.isCap] at hcap
  | capReached st =>
      dsimp only [FixExit.state]
      constructor
      · intro hne
        rw [if_pos (List.length_pos.mpr hne)]
      · intro he
        rw [he]
        simp

/-- A one-codon, one-amino-acid table for the cap-exit witness: no synonymous
substitution exists, so the suggestion below can never be applied. -/
def unfixableTable : CodonTable where
  aminoAcids := [{ letter := "K", codons := [{ triplet := "AAA", weight := 1 }] }]

/-- A detector that always complains with a GC-bias suggestion no table entry
can satisfy, driving the loop to the iteration cap with an empty change log. -/
def unfixableDet : ProblematicSequenceFunc := fun _ =>
  [{ start := 0, endPos := 0, bias := "GC", quantityFixes := 1, suggestionType := "loop" }]

set_option maxRecDepth 40000 in
/-- Witness for C7: on `AAA` with `unfixableTable`/`unfixableDet` the loop
reaches the cap with an empty log and `FixCds` returns `Unfixable`. -/
theorem claim_C7_cap_exit_witness :
    FixCds "AAA" unfixableTable [unfixableDet] = .error .unfixable := by
  exact (claim_C7_cap_exit "AAA" unfixableTable [unfixableDet]
    (by decide) (by decide) (by decide)).2 (by decide)

/-- Codon table with a two-letter "triplet" (`AA`), synonymous with `AAA`.
The Go `Codon.Triplet` field is an unconstrained string and `FixCds` never
checks its length. -/
def shortTripletTable : CodonTable where
  aminoAcids := [{ letter := "K",
                   codons := [{ triplet := "AAA", weight := 1 },
                              { triplet := "AA", weight := 1 }] }]

/-- A detector that complains exactly once, about codon 0 of the original
sequence. -/
def shortTripletDet : ProblematicSequenceFunc := fun s =>
  if s = "AAAGGG" then
    [{ start := 0, endPos := 0, bias := "NA", quantityFixes := 1, suggestionType := "test" }]
  else []

/-- C3 (counterexample): with a codon table containing a 2-character
"triplet", `FixCds` succeeds while replacing `AAA` by `AA`; the returned
sequence `AAGGG` is no longer codon-aligned with the input and its
codon-by-codon translation differs from the input's. -/
theorem claim_C3_counterexample_short_triplet :
    FixCds "AAAGGG" shortTripletTable [shortTripletDet] =
      .ok ("AAGGG", [{ position := 0, step := 1, codonFrom := some "AAA",
                       codonTo := "AA", reason := "test" }]) ∧
    translateSeq shortTripletTable "AAGGG" ≠ translateSeq shortTripletTable "AAAGGG" := by
  exact ⟨by rfl, by decide⟩

/-- Under a duplicate-free `codon` relation, `translateCodon` maps a listed
triplet to its (unique) amino-acid letter. -/
theorem translateCodon_of_mem (codontable : CodonTable)
    (hnodup : ((codonRows codontable).map Prod.fst).Nodup)
    (t l : String) (hmem : (t, l) ∈ codonRows codontable) :
    translateCodon codontable t = some l := by
  unfold translateCodon
  have hfilter : (t, l) ∈ (codonRows codontable).filter (fun r => r.1 = t) :=
    List.mem_filter.mpr ⟨hmem, by simp⟩
  match hh : ((codonRows codontable).filter (fun r => r.1 = t)).head? with
  | none =>
      rw [List.head?_eq_none_iff] at hh
      rw [hh] at hfilter
      cases hfilter
  | some r =>
      have hrmem : r ∈ (codonRows codontable).filter (fun r => r.1 = t) :=
        List.mem_of_mem_head? (by simp [hh])
      have hr := List.mem_filter.mp hrmem
      have hreq : r = (t, l) := by
        apply List.inj_on_of_nodup_map hnodup hr.1 hmem
        simpa using hr.2
      simp [hh, hreq]

/-- Every `codonbias` row pairs two triplets of one amino-acid group. -/
theorem codonBiasRows_spec (codontable : CodonTable) (cb : CodonBiasRow)
    (hcb : cb ∈ codonBiasRows codontable) :
    ∃ aa ∈ codontable.aminoAcids, ∃ c ∈ aa.codons, ∃ t ∈ aa.codons,
      cb.fromCodon = c.triplet ∧ cb.toCodon = t.triplet := by
  unfold codonBiasRows at hcb
  rw [List.mem_flatMap] at hcb
  obtain ⟨aa, haa, hcb⟩ := hcb
  rw [List.mem_flatMap] at hcb
  obtain ⟨c, hc, hcb⟩ := hcb
  rw [List.mem_map] at hcb
  obtain ⟨tt, htt, heq⟩ := hcb
  have htt' := (List.mem_filter.mp htt).1
  exact ⟨aa, haa, c, hc, tt, htt', by rw [← heq], by rw [← heq]⟩

/-- Under a duplicate-free `codon` relation, every `codonbias` row is
synonymous: source and target triplets translate to the same letter. -/
theorem codonBiasRows_synonymous (codontable : CodonTable)
    (hnodup : ((codonRows codontable).map Prod.fst).Nodup)
    (cb : CodonBiasRow) (hcb : cb ∈ codonBiasRows codontable) :
    translateCodon codontable cb.fromCodon = translateCodon codontable cb.toCodon := by
  obtain ⟨aa, haa, c, hc, t, ht, hf, hto⟩ := codonBiasRows_spec codontable cb hcb
  have h1 : (c.triplet, aa.letter) ∈ codonRows codontable := by
    unfold codonRows
    rw [List.mem_flatMap]
    exact ⟨aa, haa, List.mem_map.mpr ⟨c, hc, rfl⟩⟩
  have h2 : (t.triplet, aa.letter) ∈ codonRows codontable := by
    unfold codonRows
    rw [List.mem_flatMap]
    exact ⟨aa, haa, List.mem_map.mpr ⟨t, ht, rfl⟩⟩
  rw [hf, hto, translateCodon_of_mem codontable hnodup _ _ h1,
    translateCodon_of_mem codontable hnodup _ _ h2]

/-- When every triplet of the table has length 3, so has every `codonbias`
target. -/
theorem codonBiasRows_toCodon_length (codontable : CodonTable)
    (hlen3 : ∀ aa ∈ codontable.aminoAcids, ∀ c ∈ aa.codons, c.triplet.length = 3)
    (cb : CodonBiasRow) (hcb : cb ∈ codonBiasRows codontable) :
    cb.toCodon.length = 3 := by
  obtain ⟨aa, haa, c, hc, t, ht, _, hto⟩ := codonBiasRows_spec codontable cb hcb
  rw [hto]
  exact hlen3 aa haa t ht

/-- Synonymity invariant of the fixer history: every history row names a
valid codon position, translates like the original codon of its position, and
is a proper triplet. -/
def SynInv (codontable : CodonTable) (sequence : String) (history : List HistoryRow) : Prop :=
  ∀ r ∈ history, r.pos < sequence.length / 3 ∧
    translateCodon codontable r.codon = translateCodon codontable (initCodonAt sequence r.pos) ∧
    r.codon.length = 3

/-- Coverage invariant: every codon position has at least one history row. -/
def CovInv (sequence : String) (history : List HistoryRow) : Prop :=
  ∀ p, p < sequence.length / 3 → ∃ r ∈ history, r.pos = p

/-- A successful `firstCandidate` is the target of some bias row whose source
is a historical codon of the position. -/
theorem firstCandidate_spec (ctx : FixContext) (history : List HistoryRow) (p : ℕ)
    (bf : Option String) (c : String)
    (h : firstCandidate ctx history p bf = some c) :
    ∃ h' ∈ history, h'.pos = p ∧ ∃ cb ∈ ctx.bias, cb.fromCodon = h'.codon ∧ cb.toCodon = c := by
  unfold firstCandidate at h
  rw [Option.map_eq_some'] at h
  obtain ⟨cb, hcb, hc⟩ := h
  have hmem := List.mem_of_mem_head? (Option.mem_def.mpr hcb)
  rw [List.mem_flatMap] at hmem
  obtain ⟨h', hh', hcb'⟩ := hmem
  have hh'2 := List.mem_filter.mp hh'
  have hcb'2 := List.mem_filter.mp hcb'
  have hfrom : cb.fromCodon = h'.codon := by
    have := hcb'2.2
    simp only [decide_eq_true_eq] at this
    exact this.1
  exact ⟨h', hh'2.1, by simpa using hh'2.2, cb, hcb'2.1, hfrom, hc⟩

/-- `applySuggestedFixWith` only appends rows. -/
theorem applySuggestedFixWith_sublist (ctx : FixContext) (i : ℕ) (history : List HistoryRow)
    (sf : SuggestedFixRow) (bf : Option String) (r : HistoryRow) (hr : r ∈ history) :
    r ∈ applySuggestedFixWith ctx i history sf bf :=
  List.mem_append_left _ hr

/-- `applySuggestedFix` only appends rows. -/
theorem applySuggestedFix_sublist (ctx : FixContext) (i : ℕ) (history : List HistoryRow)
    (sf : SuggestedFixRow) (r : HistoryRow) (hr : r ∈ history) :
    r ∈ applySuggestedFix ctx i history sf := by
  unfold applySuggestedFix
  split
  · exact applySuggestedFixWith_sublist ctx i history sf none r hr
  · split
    · exact applySuggestedFixWith_sublist ctx i history sf (some "GC") r hr
    · split
      · exact applySuggestedFixWith_sublist ctx i history sf (some "AT") r hr
      · exact hr

/-- Rows appended by `applySuggestedFixWith` are bias-row targets of
historical codons of their (valid) position. -/
theorem applySuggestedFixWith_new_row (ctx : FixContext) (i : ℕ) (history : List HistoryRow)
    (sf : SuggestedFixRow) (bf : Option String) (r : HistoryRow)
    (hr : r ∈ applySuggestedFixWith ctx i history sf bf) :
    r ∈ history ∨
      (r.pos < ctx.numPositions ∧ r.step = i ∧
        ∃ h' ∈ history, h'.pos = r.pos ∧
          ∃ cb ∈ ctx.bias, cb.fromCodon = h'.codon ∧ cb.toCodon = r.codon) := by
  unfold applySuggestedFixWith at hr
  rw [List.mem_append] at hr
  rcases hr with hold | hnew
  · exact Or.inl hold
  · right
    rw [List.mem_map] at hnew
    obtain ⟨pc, hpc, hreq⟩ := hnew
    have hranked : pc ∈ (List.range ctx.numPositions).filterMap (fun (p : ℕ) =>
        if sf.start ≤ (p : ℤ) ∧ (p : ℤ) ≤ sf.endPos then
          (firstCandidate ctx history p bf).map (fun c => (p, c))
        else none) := by
      have hsub := List.take_subset sf.quantityFixes.toNat _ hpc
      exact (List.perm_insertionSort _ _).mem_iff.mp hsub
    rw [List.mem_filterMap] at hranked
    obtain ⟨p, hp, hif⟩ := hranked
    rw [List.mem_range] at hp
    split at hif
    · rw [Option.map_eq_some'] at hif
      obtain ⟨c, hfc, hpc2⟩ := hif
      obtain ⟨h', hh', hpos, cb, hcb, hfrom, hto⟩ := firstCandidate_spec ctx history p bf c hfc
      have hrpos : r.pos = p := by rw [← hreq, ← hpc2]
      have hrcodon : r.codon = c := by rw [← hreq, ← hpc2]
      have hrstep : r.step = i := by rw [← hreq]
      exact ⟨by omega, hrstep, h', hh', by rw [hrpos]; exact hpos, cb, hcb, hfrom,
        by rw [hrcodon]; exact hto⟩
    · cases hif

/-- Rows appended by `applySuggestedFix` are bias-row targets of historical
codons of their (valid) position. -/
theorem applySuggestedFix_new_row (ctx : FixContext) (i : ℕ) (history : List HistoryRow)
    (sf : SuggestedFixRow) (r : HistoryRow)
    (hr : r ∈ applySuggestedFix ctx i history sf) :
    r ∈ history ∨
      (r.pos < ctx.numPositions ∧ r.step = i ∧
        ∃ h' ∈ history, h'.pos = r.pos ∧
          ∃ cb ∈ ctx.bias, cb.fromCodon = h'.codon ∧ cb.toCodon = r.codon) := by
  unfold applySuggestedFix at hr
  split at hr
  · exact applySuggestedFixWith_new_row ctx i history sf none r hr
  · split at hr
    · exact applySuggestedFixWith_new_row ctx i history sf (some "GC") r hr
    · split at hr
      · exact applySuggestedFixWith_new_row ctx i history sf (some "AT") r hr
      · exact Or.inl hr

/-- `applySuggestedFix` preserves the synonymity invariant (under a
duplicate-free codon relation with proper triplets). -/
theorem applySuggestedFix_syninv (codontable : CodonTable) (sequence : String)
    (hnodup : ((codonRows codontable).map Prod.fst).Nodup)
    (hlen3 : ∀ aa ∈ codontable.aminoAcids, ∀ c ∈ aa.codons, c.triplet.length = 3)
    (i : ℕ) (history : List HistoryRow) (sf : SuggestedFixRow)
    (hinv : SynInv codontable sequence history) :
    SynInv codontable sequence
      (applySuggestedFix (fixInitCtx sequence codontable) i history sf) := by
  intro r hr
  rcases applySuggestedFix_new_row _ i history sf r hr with
    hold | ⟨hpos, _, h', hh', hp, cb, hcb, hfrom, hto⟩
  · exact hinv r hold
  · obtain ⟨hp1, hp2, _⟩ := hinv h' hh'
    have hcbmem : cb ∈ codonBiasRows codontable := hcb
    refine ⟨hpos, ?_, ?_⟩
    · rw [← hto, ← codonBiasRows_synonymous codontable hnodup cb hcbmem, hfrom, ← hp]
      exact hp2
    · rw [← hto]
      exact codonBiasRows_toCodon_length codontable hlen3 cb hcbmem

/-- Folding `applySuggestedFix` over a suggestion list keeps the synonymity
invariant and old rows. -/
theorem foldl_applySuggestedFix_syninv (codontable : CodonTable) (sequence : String)
    (hnodup : ((codonRows codontable).map Prod.fst).Nodup)
    (hlen3 : ∀ aa ∈ codontable.aminoAcids, ∀ c ∈ aa.codons, c.triplet.length = 3)
    (i : ℕ) (sfs : List SuggestedFixRow) :
    ∀ history, SynInv codontable sequence history →
      SynInv codontable sequence
        (sfs.foldl (applySuggestedFix (fixInitCtx sequence codontable) i) history) := by
  induction sfs with
  | nil => intro history hinv; exact hinv
  | cons sf rest ih =>
      intro history hinv
      exact ih _ (applySuggestedFix_syninv codontable sequence hnodup hlen3 i history sf hinv)

/-- Folding `applySuggestedFix` keeps every existing row. -/
theorem foldl_applySuggestedFix_mem (ctx : FixContext) (i : ℕ) (sfs : List SuggestedFixRow) :
    ∀ history r, r ∈ history → r ∈ sfs.foldl (applySuggestedFix ctx i) history := by
  induction sfs with
  | nil => intro history r hr; exact hr
  | cons sf rest ih =>
      intro history r hr
      exact ih _ r (applySuggestedFix_sublist ctx i history sf r hr)

/-- The max-step fold of `currentCodonAt` starting from a seed returns the
seed or a list element. -/
theorem currentCodon_foldl_some (l : List HistoryRow) :
    ∀ b0 : HistoryRow,
      ∃ b, l.foldl
          (fun best r =>
            match best with
            | none => some r
            | some bb => if r.step ≥ bb.step then some r else some bb)
          (some b0) = some b ∧ (b ∈ l ∨ b = b0) := by
  induction l with
  | nil => intro b0; exact ⟨b0, rfl, Or.inr rfl⟩
  | cons a t ih =>
      intro b0
      by_cases hstep : a.step ≥ b0.step
      · obtain ⟨b, hb, hmem⟩ := ih a
        refine ⟨b, ?_, ?_⟩
        · simpa [hstep] using hb
        · rcases hmem with h | h
          · exact Or.inl (List.mem_cons_of_mem _ h)
          · exact Or.inl (h ▸ List.mem_cons_self a t)
      · obtain ⟨b, hb, hmem⟩ := ih b0
        refine ⟨b, ?_, ?_⟩
        · simpa [hstep] using hb
        · rcases hmem with h | h
          · exact Or.inl (List.mem_cons_of_mem _ h)
          · exact Or.inr h

/-- At a covered position, `currentCodonAt` is the codon of some history row
of that position. -/
theorem currentCodonAt_mem (history : List HistoryRow) (p : ℕ)
    (hcov : ∃ r ∈ history, r.pos = p) :
    ∃ r ∈ history, r.pos = p ∧ currentCodonAt history p = r.codon := by
  obtain ⟨r0, hr0, hp0⟩ := hcov
  have hr0f : r0 ∈ history.filter (fun r => r.pos = p) :=
    List.mem_filter.mpr ⟨hr0, by simp [hp0]⟩
  unfold currentCodonAt
  match hfil : history.filter (fun r => r.pos = p) with
  | [] => rw [hfil] at hr0f; cases hr0f
  | a :: t =>
      obtain ⟨b, hb, hmem⟩ := currentCodon_foldl_some t a
      have hbmem : b ∈ a :: t := by
        rcases hmem with h | h
        · exact List.mem_cons_of_mem _ h
        · exact h ▸ List.mem_cons_self a t
      rw [← hfil] at hbmem
      have hbf := List.mem_filter.mp hbmem
      refine ⟨b, hbf.1, by simpa using hbf.2, ?_⟩
      rw [hfil]
      simp only [List.foldl_cons, hb]
      rfl

/-- The characters of a joined string list. -/
theorem join_data (l : List String) :
    (String.join l).data = (l.map String.data).flatten := by
  rw [String.join_eq]

/-- Length of a join of triplets. -/
theorem join3_length (l : List String) (h3 : ∀ s ∈ l, s.length = 3) :
    (String.join l).length = 3 * l.length := by
  show (String.join l).data.length = 3 * l.length
  rw [join_data]
  induction l with
  | nil => rfl
  | cons a t ih =>
      have ha : a.data.length = 3 := h3 a (List.mem_cons_self a t)
      have ht := ih (fun s hs => h3 s (List.mem_cons_of_mem a hs))
      simp only [List.map_cons, List.flatten_cons, List.length_append, ha, ht,
        List.length_cons]
      ring

/-- The `p`-th 3-chunk of a join of triplets is the `p`-th triplet. -/
theorem join3_chunk (l : List String) (h3 : ∀ s ∈ l, s.length = 3) :
    ∀ p, p < l.length →
      (((l.map String.data).flatten.drop (3 * p)).take 3) = (l.getD p "").data := by
  induction l with
  | nil => intro p hp; cases hp
  | cons a t ih =>
      intro p hp
      have ha : a.data.length = 3 := h3 a (List.mem_cons_self a t)
      match p with
      | 0 =>
          simp only [List.map_cons, List.flatten_cons, Nat.mul_zero, List.drop_zero,
            List.take_append_eq_append_take, ha, Nat.sub_self, List.take_zero,
            List.append_nil, List.getD_cons_zero]
          rw [← ha, List.take_length]
      | q + 1 =>
          have hq : q < t.length := by simpa using hp
          have hdrop : ((a.data ++ (t.map String.data).flatten).drop (3 * (q + 1))) =
              (t.map String.data).flatten.drop (3 * q) := by
            rw [List.drop_append_eq_append_drop]
            have h1 : a.data.drop (3 * (q + 1)) = [] := by
              apply List.drop_eq_nil_of_le
              omega
            have h2 : 3 * (q + 1) - a.data.length = 3 * q := by omega
            rw [h1, h2, List.nil_append]
          simp only [List.map_cons, List.flatten_cons, hdrop, List.getD_cons_succ]
          exact ih (fun s hs => h3 s (List.mem_cons_of_mem a hs)) q hq

/-- Splitting a join of triplets gives back the triplets. -/
theorem splitCodons_join (l : List String) (h3 : ∀ s ∈ l, s.length = 3) :
    splitCodons (String.join l) = l := by
  unfold splitCodons
  have hlen : (String.join l).length = 3 * l.length := join3_length l h3
  have hcount : ((String.join l).length + 2) / 3 = l.length := by omega
  rw [hcount]
  apply List.ext_getElem (by simp)
  intro p h1 h2
  have hp : p < l.length := by simpa using h2
  have hchunk := join3_chunk l h3 p hp
  simp only [List.getElem_map, List.getElem_range]
  rw [join_data]
  have hget : l.getD p "" = l[p] := by
    rw [List.getD_eq_getElem?_getD, List.getElem?_eq_getElem hp]
    rfl
  rw [hget] at hchunk
  rw [hchunk]
  rfl

/-- For a complete CDS the codon split is the list of original codons. -/
theorem splitCodons_eq_initCodons (sequence : String) (hmod : sequence.length % 3 = 0) :
    splitCodons sequence = (List.range (sequence.length / 3)).map (initCodonAt sequence) := by
  unfold splitCodons initCodonAt
  have hcount : (sequence.length + 2) / 3 = sequence.length / 3 := by omega
  rw [hcount]

/-- Recomputing the sequence from a history satisfying the synonymity and
coverage invariants preserves the codon-by-codon translation of the input. -/
theorem translateSeq_recompute (codontable : CodonTable) (sequence : String)
    (history : List HistoryRow) (hmod : sequence.length % 3 = 0)
    (hsyn : SynInv codontable sequence history) (hcov : CovInv sequence history) :
    translateSeq codontable (recomputeSequence (fixInitCtx sequence codontable) history) =
      translateSeq codontable sequence := by
  have hn : (fixInitCtx sequence codontable).numPositions = sequence.length / 3 := rfl
  unfold recomputeSequence
  rw [hn]
  have h3 : ∀ s ∈ (List.range (sequence.length / 3)).map (currentCodonAt history),
      s.length = 3 := by
    intro s hs
    rw [List.mem_map] at hs
    obtain ⟨p, hp, hs⟩ := hs
    rw [List.mem_range] at hp
    obtain ⟨r, hr, hrp, hcur⟩ := currentCodonAt_mem history p (hcov p hp)
    rw [← hs, hcur]
    exact (hsyn r hr).2.2
  unfold translateSeq
  rw [splitCodons_join _ h3, splitCodons_eq_initCodons sequence hmod,
    List.map_map, List.map_map]
  apply List.map_congr_left
  intro p hp
  rw [List.mem_range] at hp
  obtain ⟨r, hr, hrp, hcur⟩ := currentCodonAt_mem history p (hcov p hp)
  show translateCodon codontable (currentCodonAt history p) =
    translateCodon codontable (initCodonAt sequence p)
  rw [hcur, (hsyn r hr).2.1, hrp]

/-- The full round-loop invariant of the fixer: synonymity, coverage, and
translation preservation of the working sequence. -/
def FixInv (codontable : CodonTable) (sequence : String) (st : FixState) : Prop :=
  SynInv codontable sequence st.history ∧ CovInv sequence st.history ∧
    translateSeq codontable st.sequence = translateSeq codontable sequence

/-- One fixer round preserves the invariant. -/
theorem fixRound_inv (codontable : CodonTable) (sequence : String)
    (hnodup : ((codonRows codontable).map Prod.fst).Nodup)
    (hlen3 : ∀ aa ∈ codontable.aminoAcids, ∀ c ∈ aa.codons, c.triplet.length = 3)
    (hmod : sequence.length % 3 = 0)
    (i : ℕ) (st : FixState) (suggestions : List DnaSuggestion)
    (hinv : FixInv codontable sequence st) :
    FixInv codontable sequence (fixRound (fixInitCtx sequence codontable) i st suggestions) := by
  obtain ⟨hsyn, hcov, _⟩ := hinv
  unfold fixRound
  dsimp only
  have hsyn' := foldl_applySuggestedFix_syninv codontable sequence hnodup hlen3 i
    ((st.suggestedfix ++ (List.map (fun idsugg =>
      { id := st.suggestedfix.length + idsugg.1 + 1, step := i,
        start := idsugg.2.start, endPos := idsugg.2.endPos, gcBias := idsugg.2.bias,
        quantityFixes := idsugg.2.quantityFixes,
        suggestionType := idsugg.2.suggestionType : SuggestedFixRow })
      ((List.range suggestions.length).zip suggestions))).filter (fun r => r.step = i))
    st.history hsyn
  have hcov' : CovInv sequence
      (((st.suggestedfix ++ (List.map (fun idsugg =>
        { id := st.suggestedfix.length + idsugg.1 + 1, step := i,
          start := idsugg.2.start, endPos := idsugg.2.endPos, gcBias := idsugg.2.bias,
          quantityFixes := idsugg.2.quantityFixes,
          suggestionType := idsugg.2.suggestionType : SuggestedFixRow })
        ((List.range suggestions.length).zip suggestions))).filter (fun r => r.step = i)).foldl
        (applySuggestedFix (fixInitCtx sequence codontable) i) st.history) := by
    intro p hp
    obtain ⟨r, hr, hrp⟩ := hcov p hp
    exact ⟨r, foldl_applySuggestedFix_mem _ i _ st.history r hr, hrp⟩
  exact ⟨hsyn', hcov', translateSeq_recompute codontable sequence _ hmod hsyn' hcov'⟩

/-- The round loop preserves the invariant into either exit. -/
theorem fixLoop_inv (codontable : CodonTable) (sequence : String)
    (problematicSequenceFuncs : List ProblematicSequenceFunc)
    (hnodup : ((codonRows codontable).map Prod.fst).Nodup)
    (hlen3 : ∀ aa ∈ codontable.aminoAcids, ∀ c ∈ aa.codons, c.triplet.length = 3)
    (hmod : sequence.length % 3 = 0) :
    ∀ (remaining i : ℕ) (st : FixState), FixInv codontable sequence st →
      FixInv codontable sequence
        ((fixLoop (fixInitCtx sequence codontable) problematicSequenceFuncs
            remaining i st).state) := by
  intro remaining
  induction remaining with
  | zero => intro i st hinv; exact hinv
  | succ r ih =>
      intro i st hinv
      unfold fixLoop
      split
      · exact hinv
      · exact ih (i + 1) _
          (fixRound_inv codontable sequence hnodup hlen3 hmod i st _ hinv)

/-- The initial fixer state satisfies the invariant. -/
theorem fixInitState_inv (codontable : CodonTable) (sequence : String)
    (hmod : sequence.length % 3 = 0) :
    FixInv codontable sequence (fixInitState sequence) := by
  refine ⟨?_, ?_, rfl⟩
  · intro r hr
    simp only [fixInitState, List.mem_map] at hr
    obtain ⟨p, hp, hr⟩ := hr
    rw [List.mem_range] at hp
    refine ⟨by rw [← hr]; exact hp, by rw [← hr], ?_⟩
    rw [← hr]
    show (initCodonAt sequence p).length = 3
    have hlen : (initCodonAt sequence p).length =
        ((sequence.data.drop (3 * p)).take 3).length := rfl
    rw [hlen, List.length_take, List.length_drop]
    have hdl : sequence.data.length = sequence.length := rfl
    omega
  · intro p hp
    refine ⟨{ pos := p, codon := initCodonAt sequence p, step := 0, suggestedfix := none },
      ?_, rfl⟩
    simp only [fixInitState, List.mem_map]
    exact ⟨p, List.mem_range.mpr hp, rfl⟩

/-- Every change-log entry whose previous codon exists is synonymous with its
new codon (both translate like the original codon of the position). -/
theorem buildChanges_syn (codontable : CodonTable) (sequence : String)
    (history : List HistoryRow) (sfix : List SuggestedFixRow)
    (hsyn : SynInv codontable sequence history) :
    ∀ ch ∈ buildChanges history sfix, ∀ f, ch.codonFrom = some f →
      translateCodon codontable f = translateCodon codontable ch.codonTo := by
  intro ch hch f hf
  unfold buildChanges at hch
  rw [List.mem_filterMap] at hch
  obtain ⟨r, hr, hmk⟩ := hch
  have hrh : r ∈ history := by
    have hmemf := (List.perm_insertionSort _ _).mem_iff.mp hr
    exact (List.mem_filter.mp hmemf).1
  rw [Option.map_eq_some'] at hmk
  obtain ⟨srow, _, hche⟩ := hmk
  have hto : ch.codonTo = r.codon := by rw [← hche]
  have hfrom : ch.codonFrom =
      ((history.filter (fun h2 => h2.pos = r.pos ∧ h2.step + 1 = r.step)).head?).map
        (fun h2 => h2.codon) := by rw [← hche]
  rw [hfrom, Option.map_eq_some'] at hf
  obtain ⟨h2, hh2, hfc⟩ := hf
  have hh2m := List.mem_filter.mp (List.mem_of_mem_head? (Option.mem_def.mpr hh2))
  have hh2p : h2.pos = r.pos := by
    have hcond := hh2m.2
    simp only [decide_eq_true_eq] at hcond
    exact hcond.1
  rw [← hfc, hto, (hsyn h2 hh2m.1).2.1, (hsyn r hrh).2.1, hh2p]

/-- C3 (amended): for every codon table ALL OF WHOSE TRIPLETS HAVE LENGTH 3,
any detectors, and any input on which `FixCds` succeeds, the output translates
codon-by-codon to the same amino-acid string as the input, and every recorded
substitution is synonymous.  (The length restriction is forced by the
counterexample `claim_C3_counterexample_short_triplet`: the Go code never
validates triplet lengths.) -/
theorem claim_C3_fixcds_synonymous (sequence : String) (codontable : CodonTable)
    (problematicSequenceFuncs : List ProblematicSequenceFunc)
    (out : String) (changes : List Change)
    (hlen3 : ∀ aa ∈ codontable.aminoAcids, ∀ c ∈ aa.codons, c.triplet.length = 3)
    (hok : FixCds sequence codontable problematicSequenceFuncs = .ok (out, changes)) :
    translateSeq codontable out = translateSeq codontable sequence ∧
    ∀ ch ∈ changes, ∀ f, ch.codonFrom = some f →
      translateCodon codontable f = translateCodon codontable ch.codonTo := by
  unfold FixCds at hok
  split at hok
  · cases hok
  · split at hok
    · cases hok
    · rename_i hnotnodup hmodne
      have hnodup : ((codonRows codontable).map Prod.fst).Nodup := by
        by_contra hcon
        exact hnotnodup hcon
      have hmod : sequence.length % 3 = 0 := by omega
      have hstinv : FixInv codontable sequence
          (fixLoopResult sequence codontable problematicSequenceFuncs).state := by
        exact fixLoop_inv codontable sequence problematicSequenceFuncs hnodup hlen3 hmod
          (FixIterations - 1) 1 (fixInitState sequence)
          (fixInitState_inv codontable sequence hmod)
      cases hfix : fixLoopResult sequence codontable problematicSequenceFuncs with
      | finished st =>
          rw [hfix] at hok hstinv
          have hpair : st.sequence = out ∧ buildChanges st.history st.suggestedfix = changes := by
            simpa using hok
          refine ⟨?_, ?_⟩
          · rw [← hpair.1]
            exact hstinv.2.2
          · rw [← hpair.2]
            exact buildChanges_syn codontable sequence st.history st.suggestedfix hstinv.1
      | capReached st =>
          rw [hfix] at hok hstinv
          dsimp only at hok
          split at hok
          · have hpair : st.sequence = out ∧
                buildChanges st.history st.suggestedfix = changes := by
              simpa using hok
            refine ⟨?_, ?_⟩
            · rw [← hpair.1]
              exact hstinv.2.2
            · rw [← hpair.2]
              exact buildChanges_syn codontable sequence st.history st.suggestedfix hstinv.1
          · cases hok

/-- Codon table of the C3 witness: lysine with the two proper triplets `AAA`
and `AAG`. -/
def synonymWitnessTable : CodonTable where
  aminoAcids := [{ letter := "K",
                   codons := [{ triplet := "AAA", weight := 1 },
                              { triplet := "AAG", weight := 2 }] }]

/-- Detector of the C3 witness: complains once about codon 0 of `AAAGGG`. -/
def synonymWitnessDet : ProblematicSequenceFunc := fun s =>
  if s = "AAAGGG" then
    [{ start := 0, endPos := 0, bias := "NA", quantityFixes := 1, suggestionType := "test" }]
  else []

/-- Witness for the amended C3: the fix `AAAGGG → AAGGGG` (codon 0 rewritten
`AAA → AAG`) preserves the translation, and the single change is synonymous. -/
theorem claim_C3_fixcds_synonymous_witness :
    translateSeq synonymWitnessTable "AAGGGG" = translateSeq synonymWitnessTable "AAAGGG" ∧
    ∀ ch ∈ [{ position := 0, step := 1, codonFrom := some "AAA",
              codonTo := "AAG", reason := "test" : Change }], ∀ f, ch.codonFrom = some f →
      translateCodon synonymWitnessTable f = translateCodon synonymWitnessTable ch.codonTo :=
  claim_C3_fixcds_synonymous "AAAGGG" synonymWitnessTable [synonymWitnessDet] "AAGGGG"
    [{ position := 0, step := 1, codonFrom := some "AAA", codonTo := "AAG", reason := "test" }]
    (by decide) (by rfl)

/-! ## C1: contributions sum to the total energy -/

/-- The sum of the `energy` fields of a contribution list. -/
def contribEnergySum (cs : List EnergyContribution) : ℤ :=
  (cs.map (fun c => c.energy)).sum

/-- Bind of a successful `Except` computation. -/
theorem exceptBind_ok {ε α β : Type} (a : α) (f : α → Except ε β) :
    ((Except.ok a : Except ε α) >>= f) = f a := rfl

/-- Bind of a failed `Except` computation. -/
theorem exceptBind_err {ε α β : Type} (e : ε) (f : α → Except ε β) :
    ((Except.error e : Except ε α) >>= f) = .error e := rfl

/-- Inversion of a successful `Except` bind. -/
theorem exceptBind_ok_iff {ε α β : Type} (x : Except ε α) (f : α → Except ε β) (b : β) :
    (x >>= f) = .ok b ↔ ∃ a, x = .ok a ∧ f a = .ok b := by
  cases x with
  | error e =>
      rw [exceptBind_err]
      constructor
      · intro h; cases h
      · intro ⟨a, ha, _⟩; cases ha
  | ok a =>
      rw [exceptBind_ok]
      constructor
      · intro h; exact ⟨a, rfl, h⟩
      · intro ⟨a2, ha2, hf⟩; cases ha2; exact hf

/-- The interior-loop wrapper records exactly the energy it returns. -/
theorem stackBulgeInteriorLoopEnergy_energy (fc : foldCompound) (cf ct ef et : ℕ)
    (en : ℤ) (c : EnergyContribution)
    (h : stackBulgeInteriorLoopEnergy fc cf ct ef et = .ok (en, c)) :
    c.energy = en := by
  unfold stackBulgeInteriorLoopEnergy at h
  rw [exceptBind_ok_iff] at h; obtain ⟨a1, _, h⟩ := h
  rw [exceptBind_ok_iff] at h; obtain ⟨a2, _, h⟩ := h
  rw [exceptBind_ok_iff] at h; obtain ⟨a3, _, h⟩ := h
  rw [exceptBind_ok_iff] at h; obtain ⟨a4, _, h⟩ := h
  rw [exceptBind_ok_iff] at h; obtain ⟨a5, _, h⟩ := h
  rw [exceptBind_ok_iff] at h; obtain ⟨a6, _, h⟩ := h
  have hpair : (_, _) = (en, c) := Except.ok.inj h
  have h1 := congrArg Prod.fst hpair
  have h2 := congrArg Prod.snd hpair
  simp only at h1 h2
  rw [← h2, ← h1]

/-- The hairpin wrapper records exactly the energy it returns. -/
theorem hairpinLoopEnergy_energy (fc : foldCompound) (f t : ℕ)
    (en : ℤ) (c : EnergyContribution)
    (h : hairpinLoopEnergy fc f t = .ok (en, c)) :
    c.energy = en := by
  unfold hairpinLoopEnergy at h
  rw [exceptBind_ok_iff] at h; obtain ⟨a1, _, h⟩ := h
  rw [exceptBind_ok_iff] at h; obtain ⟨a2, _, h⟩ := h
  rw [exceptBind_ok_iff] at h; obtain ⟨a3, _, h⟩ := h
  split at h
  · cases h
  · have hpair : (_, _) = (en, c) := Except.ok.inj h
    have h1 := congrArg Prod.fst hpair
    have h2 := congrArg Prod.snd hpair
    simp only at h1 h2
    rw [← h2, ← h1]

/-- In the multi-loop stem iteration, the accumulated substructure energy is
the sum of the emitted substructure contributions. -/
theorem multiLoopLoop_sum (stackE : StemEval) (fc : foldCompound) (ct : ℕ)
    (hIH : ∀ cf r, stackE fc cf = .ok r → r.1 = contribEnergySum r.2) :
    ∀ (k ef : ℕ) (r : ℤ × ℤ × ℕ × List EnergyContribution),
      multiLoopLoop stackE fc ct k ef = .ok r → r.2.1 = contribEnergySum r.2.2.2 := by
  intro k
  induction k with
  | zero => intro ef r h; cases h
  | succ k ih =>
      intro ef r h
      unfold multiLoopLoop at h
      split at h
      · rw [exceptBind_ok_iff] at h; obtain ⟨⟨subEn, subCs⟩, hsub, h⟩ := h
        rw [exceptBind_ok_iff] at h; obtain ⟨etZ, _, h⟩ := h
        rw [exceptBind_ok_iff] at h; obtain ⟨bpt, _, h⟩ := h
        rw [exceptBind_ok_iff] at h; obtain ⟨m5, _, h⟩ := h
        rw [exceptBind_ok_iff] at h; obtain ⟨m3, _, h⟩ := h
        rw [exceptBind_ok_iff] at h; obtain ⟨ef2, _, h⟩ := h
        rw [exceptBind_ok_iff] at h
        obtain ⟨⟨stemRest, subRest, unpRest, csRest⟩, hrest, h⟩ := h
        have hr := Except.ok.inj h
        have hsubEn := hIH ef (subEn, subCs) hsub
        have hsubRest := ih ef2 (stemRest, subRest, unpRest, csRest) hrest
        simp only at hsubEn hsubRest
        rw [← hr]
        simp only [contribEnergySum, List.map_append, List.sum_append] at hsubEn hsubRest ⊢
        omega
      · have hr := Except.ok.inj h
        rw [← hr]
        rfl

/-- A successful multi-loop evaluation returns the sum of its emitted
contributions. -/
theorem multiLoopEnergyGo_sum (stackE : StemEval) (fc : foldCompound)
    (hIH : ∀ cf r, stackE fc cf = .ok r → r.1 = contribEnergySum r.2)
    (cf : ℕ) (r : ℤ × List EnergyContribution)
    (h : multiLoopEnergyGo stackE fc cf = .ok r) : r.1 = contribEnergySum r.2 := by
  unfold multiLoopEnergyGo at h
  rw [exceptBind_ok_iff] at h; obtain ⟨ctZ, _, h⟩ := h
  split at h
  · cases h
  · rw [exceptBind_ok_iff] at h; obtain ⟨bpt, _, h⟩ := h
    rw [exceptBind_ok_iff] at h; obtain ⟨m5, _, h⟩ := h
    rw [exceptBind_ok_iff] at h; obtain ⟨m3, _, h⟩ := h
    rw [exceptBind_ok_iff] at h; obtain ⟨ef1, _, h⟩ := h
    rw [exceptBind_ok_iff] at h
    obtain ⟨⟨stemSum, subSum, unpRest, subCs⟩, hloop, h⟩ := h
    have hsub := multiLoopLoop_sum stackE fc ctZ.toNat hIH (ctZ.toNat + 1) ef1
      (stemSum, subSum, unpRest, subCs) hloop
    simp only at hsub
    have hr := Except.ok.inj h
    rw [← hr]
    simp only [contribEnergySum, List.map_append, List.sum_append, List.map_cons,
      List.map_nil, List.sum_cons, List.sum_nil] at hsub ⊢
    omega

/-- A successful terminal step of the descent returns the sum of its emitted
contributions. -/
theorem stackAfterLoop_sum (stackE : StemEval) (fc : foldCompound)
    (hIH : ∀ cf r, stackE fc cf = .ok r → r.1 = contribEnergySum r.2)
    (cf ct ef et : ℕ) (r : ℤ × List EnergyContribution)
    (h : stackAfterLoop stackE fc cf ct ef et = .ok r) : r.1 = contribEnergySum r.2 := by
  unfold stackAfterLoop at h
  split at h
  · rw [exceptBind_ok_iff] at h; obtain ⟨⟨en, c⟩, hhp, h⟩ := h
    have hc := hairpinLoopEnergy_energy fc cf ct en c hhp
    have hr := Except.ok.inj h
    rw [← hr]
    simp only [contribEnergySum, List.map_cons, List.map_nil, List.sum_cons, List.sum_nil]
    omega
  · exact multiLoopEnergyGo_sum stackE fc hIH cf r h

/-- A successful descent loop returns the sum of its emitted contributions. -/
theorem stackLoop_sum (stackE : StemEval) (fc : foldCompound)
    (hIH : ∀ cf r, stackE fc cf = .ok r → r.1 = contribEnergySum r.2) :
    ∀ (k cf ct : ℕ) (r : ℤ × List EnergyContribution),
      stackLoop stackE fc k cf ct = .ok r → r.1 = contribEnergySum r.2 := by
  intro k
  induction k with
  | zero => intro cf ct r h; cases h
  | succ k ih =>
      intro cf ct r h
      unfold stackLoop at h
      split at h
      · rw [exceptBind_ok_iff] at h; obtain ⟨ef, _, h⟩ := h
        rw [exceptBind_ok_iff] at h; obtain ⟨et, _, h⟩ := h
        split at h
        · exact stackAfterLoop_sum stackE fc hIH cf ct ef et r h
        · rw [exceptBind_ok_iff] at h; obtain ⟨bpt, _, h⟩ := h
          split at h
          · cases h
          · rw [exceptBind_ok_iff] at h; obtain ⟨⟨en, c⟩, hsbi, h⟩ := h
            rw [exceptBind_ok_iff] at h; obtain ⟨⟨enRest, csRest⟩, hrest, h⟩ := h
            have hc := stackBulgeInteriorLoopEnergy_energy fc cf ct ef et en c hsbi
            have hrest2 := ih ef et (enRest, csRest) hrest
            simp only at hrest2
            have hr := Except.ok.inj h
            rw [← hr]
            simp only [contribEnergySum, List.map_cons, List.sum_cons] at hrest2 ⊢
            omega
      · exact stackAfterLoop_sum stackE fc hIH cf ct cf ct r h

/-- A successful `stackEnergy` returns the sum of its emitted contributions. -/
theorem stackEnergy_sum :
    ∀ (fuel : ℕ) (fc : foldCompound) (cf : ℕ) (r : ℤ × List EnergyContribution),
      stackEnergy fuel fc cf = .ok r → r.1 = contribEnergySum r.2 := by
  intro fuel
  induction fuel with
  | zero => intro fc cf r h; cases h
  | succ fuel ih =>
      intro fc cf r h
      unfold stackEnergy at h
      rw [exceptBind_ok_iff] at h; obtain ⟨ctZ, _, h⟩ := h
      rw [exceptBind_ok_iff] at h; obtain ⟨bpt, _, h⟩ := h
      split at h
      · cases h
      · exact stackLoop_sum (fun fc' cf' => stackEnergy fuel fc' cf') fc
          (fun cf' r' h' => ih fc cf' r' h') (fc.pairTable.length + 2) cf ctZ.toNat r h

/-- The exterior-loop record carries exactly the exterior-loop energy. -/
theorem exteriorLoopEnergy_energy (fc : foldCompound) (en : ℤ) (c : EnergyContribution)
    (h : exteriorLoopEnergy fc = .ok (en, c)) : c.energy = en := by
  unfold exteriorLoopEnergy at h
  rw [exceptBind_ok_iff] at h; obtain ⟨pf0, _, h⟩ := h
  rw [exceptBind_ok_iff] at h; obtain ⟨en0, _, h⟩ := h
  have hpair : (_, _) = (en, c) := Except.ok.inj h
  have h1 := congrArg Prod.fst hpair
  have h2 := congrArg Prod.snd hpair
  simp only at h1 h2
  rw [← h2, ← h1]

/-- A successful top-level scan returns the sum of its emitted
contributions. -/
theorem evaluateTopLoop_sum (fc : foldCompound) :
    ∀ (k i : ℕ) (r : ℤ × List EnergyContribution),
      evaluateTopLoop fc k i = .ok r → r.1 = contribEnergySum r.2 := by
  intro k
  induction k with
  | zero => intro i r h; cases h
  | succ k ih =>
      intro i r h
      unfold evaluateTopLoop at h
      split at h
      · rw [exceptBind_ok_iff] at h; obtain ⟨pti, _, h⟩ := h
        split at h
        · exact ih (i + 1) r h
        · rw [exceptBind_ok_iff] at h; obtain ⟨⟨en, cs⟩, hse, h⟩ := h
          dsimp only at h
          by_cases hneg : pti < 0
          · rw [if_pos hneg] at h; cases h
          · rw [if_neg hneg] at h
            rw [exceptBind_ok_iff] at h; obtain ⟨⟨enRest, csRest⟩, hrest, h⟩ := h
            have h1 := stackEnergy_sum (fc.length + 2) fc i (en, cs) hse
            have h2 := ih (pti.toNat + 1) (enRest, csRest) hrest
            simp only at h1 h2
            have hr := Except.ok.inj h
            rw [← hr]
            simp only [contribEnergySum, List.map_append, List.sum_append] at h1 h2 ⊢
            omega
      · have hr := Except.ok.inj h
        rw [← hr]
        rfl

/-- A successful `evaluateFoldCompound` returns the sum of all emitted
contributions (exterior record included). -/
theorem evaluateFoldCompound_sum (fc : foldCompound) (r : ℤ × List EnergyContribution)
    (h : evaluateFoldCompound fc = .ok r) : r.1 = contribEnergySum r.2 := by
  unfold evaluateFoldCompound at h
  rw [exceptBind_ok_iff] at h; obtain ⟨⟨extEn, extC⟩, hext, h⟩ := h
  rw [exceptBind_ok_iff] at h; obtain ⟨⟨en, cs⟩, htop, h⟩ := h
  have h1 := exteriorLoopEnergy_energy fc extEn extC hext
  have h2 := evaluateTopLoop_sum fc (fc.length + 1) 0 (en, cs) htop
  simp only at h2
  have hr := Except.ok.inj h
  rw [← hr]
  simp only [contribEnergySum, List.map_cons, List.sum_cons] at h2 ⊢
  omega

/-- C1 (confirmed): whenever `MinimumFreeEnergy` succeeds, the sum of the
`energy` fields of the returned contribution records, divided by 100, equals
the returned total free energy in kcal/mol. -/
theorem claim_C1_contributions_sum (sequence struc : String) (temperature : ℚ)
    (r : ℚ × List EnergyContribution)
    (hok : MinimumFreeEnergy sequence struc temperature = .ok r) :
    ((contribEnergySum r.2 : ℤ) : ℚ) / 100 = r.1 := by
  unfold MinimumFreeEnergy minimumFreeEnergyWith at hok
  dsimp only at hok
  split at hok
  · cases hok
  · split at hok
    · cases hok
    · rw [exceptBind_ok_iff] at hok; obtain ⟨u1, _, hok⟩ := hok
      rw [exceptBind_ok_iff] at hok; obtain ⟨u2, _, hok⟩ := hok
      rw [exceptBind_ok_iff] at hok; obtain ⟨pt, _, hok⟩ := hok
      rw [exceptBind_ok_iff] at hok; obtain ⟨⟨energyInt, cs⟩, heval, hok⟩ := hok
      have hsum := evaluateFoldCompound_sum _ (energyInt, cs) heval
      simp only at hsum
      have hr := Except.ok.inj hok
      rw [← hr]
      simp only
      rw [← hsum]

/-- Witness for C1 on the pair-free input `AAA` / `...`. -/
theorem claim_C1_contributions_sum_witness :
    ((contribEnergySum [{ energy := 0 : EnergyContribution }] : ℤ) : ℚ) / 100 =
      (((0 : ℤ) : ℚ) / 100 : ℚ) :=
  claim_C1_contributions_sum "AAA" "..." 37
    ((((0 : ℤ) : ℚ) / 100 : ℚ), [{ energy := 0 }]) (by rfl)

/-! ## C5: the pair-table builder -/

/-- Number of occurrences of a character in a string prefix. -/
def countChar (c : Char) (l : List Char) : ℕ :=
  (l.filter (fun x => x = c)).length

/-- Number of opening brackets. -/
def opens (l : List Char) : ℕ := countChar '(' l

/-- Number of closing brackets. -/
def closes (l : List Char) : ℕ := countChar ')' l

/-- Balancedness of a dot-bracket string: no prefix closes more than it opens,
and the totals agree. -/
def BracketBalanced (l : List Char) : Prop :=
  (∀ n, n ≤ l.length → closes (l.take n) ≤ opens (l.take n)) ∧ opens l = closes l

instance (l : List Char) : Decidable (BracketBalanced l) := by
  unfold BracketBalanced
  infer_instance

/-- A matched bracket pair recorded in the table at scan position `i`. -/
def MatchedP (s : List Char) (i : ℕ) (tbl : ℕ → ℤ) (a b : ℕ) : Prop :=
  a < b ∧ b < i ∧ tbl a = (b : ℤ) ∧ tbl b = (a : ℤ) ∧
    s.getD a ' ' = '(' ∧ s.getD b ' ' = ')'

/-- Invariant of `pairTableAux` after scanning the first `i` characters of
`s` with table `tbl` and open-bracket stack `stack`. -/
structure PtInv (s : List Char) (i : ℕ) (tbl : ℕ → ℤ) (stack : List ℕ) : Prop where
  hi : i ≤ s.length
  stack_lt : ∀ p ∈ stack, p < i
  stack_open : ∀ p ∈ stack, s.getD p ' ' = '('
  stack_sorted : stack.Pairwise (fun a b => a > b)
  stack_zero : ∀ p ∈ stack, tbl p = 0
  future_zero : ∀ j, i ≤ j → tbl j = 0
  count : opens (s.take i) = closes (s.take i) + stack.length
  prefixle : ∀ n, n ≤ i → closes (s.take n) ≤ opens (s.take n)
  dot : ∀ j, j < i → s.getD j ' ' = '.' → tbl j = -1
  openm : ∀ j, j < i → s.getD j ' ' = '(' → j ∉ stack →
    ∃ k, j < k ∧ k < i ∧ s.getD k ' ' = ')' ∧ tbl j = (k : ℤ) ∧ tbl k = (j : ℤ)
  closem : ∀ j, j < i → s.getD j ' ' = ')' →
    ∃ k, k < j ∧ s.getD k ' ' = '(' ∧ tbl j = (k : ℤ) ∧ tbl k = (j : ℤ)
  sep : ∀ p ∈ stack, ∀ a b : ℕ, MatchedP s i tbl a b → b < p ∨ p < a
  nest : ∀ a b a2 b2 : ℕ, MatchedP s i tbl a b → MatchedP s i tbl a2 b2 →
    a < a2 → a2 < b → b2 < b

/-- Character counts across one scan step. -/
theorem countChar_take_succ (c : Char) (s : List Char) (i : ℕ) (hi : i < s.length) :
    countChar c (s.take (i + 1)) =
      countChar c (s.take i) + (if s.getD i ' ' = c then 1 else 0) := by
  rw [List.take_succ]
  unfold countChar
  rw [List.filter_append, List.length_append]
  congr 1
  rw [List.getElem?_eq_getElem hi]
  have hgd : s.getD i ' ' = s[i] := by
    rw [List.getD_eq_getElem?_getD, List.getElem?_eq_getElem hi]
    rfl
  rw [hgd]
  by_cases hc : s[i] = c
  · simp [hc]
  · simp [hc]

/-- Decomposition of the remaining input: a cons cell names the character at
the scan position. -/
theorem drop_cons_spec (s cs' : List Char) (c : Char) (i : ℕ)
    (h : s.drop i = c :: cs') :
    i < s.length ∧ s.getD i ' ' = c ∧ s.drop (i + 1) = cs' := by
  have hlt : i < s.length := by
    by_contra hge
    rw [List.drop_eq_nil_of_le (by omega)] at h
    cases h
  refine ⟨hlt, ?_, ?_⟩
  · have hhead : (s.drop i).head? = s[i]? := List.head?_drop s i
    rw [h, List.getElem?_eq_getElem hlt] at hhead
    have : c = s[i] := Option.some.inj hhead
    rw [List.getD_eq_getElem?_getD, List.getElem?_eq_getElem hlt, ← this]
    rfl
  · have : s.drop (i + 1) = (s.drop i).drop 1 := by
      rw [List.drop_drop]
    rw [this, h]
    rfl

/-- A pair matched after a step whose character is not `)` was already
matched (given the table is unchanged off the scan position). -/
theorem matched_step_notclose (s : List Char) (i : ℕ) (tbl tbl' : ℕ → ℤ) (a b : ℕ)
    (hc : s.getD i ' ' ≠ ')') (hagree : ∀ j, j ≠ i → tbl' j = tbl j)
    (h : MatchedP s (i + 1) tbl' a b) : MatchedP s i tbl a b := by
  obtain ⟨hab, hbi, hta, htb, hsa, hsb⟩ := h
  have hbne : b ≠ i := by
    intro he
    rw [he] at hsb
    exact hc hsb
  have hblt : b < i := by omega
  have hane : a ≠ i := by omega
  exact ⟨hab, hblt, by rw [← hagree a hane]; exact hta,
    by rw [← hagree b hbne]; exact htb, hsa, hsb⟩

/-- A matched pair stays matched when the table is unchanged off the scan
position. -/
theorem matched_preserve (s : List Char) (i : ℕ) (tbl tbl' : ℕ → ℤ) (a b : ℕ)
    (hagree : ∀ j, j ≠ i → tbl' j = tbl j)
    (h : MatchedP s i tbl a b) : MatchedP s (i + 1) tbl' a b := by
  obtain ⟨hab, hbi, hta, htb, hsa, hsb⟩ := h
  have hbne : b ≠ i := by omega
  have hane : a ≠ i := by omega
  exact ⟨hab, by omega, by rw [hagree a hane]; exact hta,
    by rw [hagree b hbne]; exact htb, hsa, hsb⟩

/-- Scan step over a non-bracket character: the table records -1 at the scan
position. -/
theorem PtInv.step_other (s : List Char) (i : ℕ) (tbl : ℕ → ℤ) (stack : List ℕ)
    (hinv : PtInv s i tbl stack) (hi : i < s.length)
    (hco : s.getD i ' ' ≠ '(') (hcc : s.getD i ' ' ≠ ')') :
    PtInv s (i + 1) (fun j => if j = i then -1 else tbl j) stack := by
  have hagree : ∀ j, j ≠ i → (fun j => if j = i then (-1 : ℤ) else tbl j) j = tbl j := by
    intro j hj
    simp [hj]
  have hmr : ∀ a b, MatchedP s (i + 1) (fun j => if j = i then -1 else tbl j) a b →
      MatchedP s i tbl a b :=
    fun a b h => matched_step_notclose s i tbl _ a b hcc hagree h
  have hop : opens (s.take (i + 1)) = opens (s.take i) := by
    unfold opens
    rw [countChar_take_succ '(' s i hi, if_neg hco, Nat.add_zero]
  have hcl : closes (s.take (i + 1)) = closes (s.take i) := by
    unfold closes
    rw [countChar_take_succ ')' s i hi, if_neg hcc, Nat.add_zero]
  refine ⟨by omega, fun p hp => by have := hinv.stack_lt p hp; omega,
    hinv.stack_open, hinv.stack_sorted, ?_, ?_, ?_, ?_, ?_, ?_, ?_, ?_, ?_⟩
  · intro p hp
    have hplt := hinv.stack_lt p hp
    show (if p = i then (-1 : ℤ) else tbl p) = 0
    rw [if_neg (by omega : ¬ p = i)]
    exact hinv.stack_zero p hp
  · intro j hj
    show (if j = i then (-1 : ℤ) else tbl j) = 0
    rw [if_neg (by omega : ¬ j = i)]
    exact hinv.future_zero j (by omega)
  · rw [hop, hcl]
    exact hinv.count
  · intro n hn
    rcases Nat.lt_or_ge n (i + 1) with h1 | h1
    · exact hinv.prefixle n (by omega)
    · have h3 : n = i + 1 := by omega
      rw [h3, hop, hcl]
      exact hinv.prefixle i (le_refl i)
  · intro j hj hdj
    show (if j = i then (-1 : ℤ) else tbl j) = -1
    by_cases hji : j = i
    · rw [if_pos hji]
    · rw [if_neg hji]
      exact hinv.dot j (by omega) hdj
  · intro j hj hoj hjs
    have hji : j ≠ i := by
      intro he
      rw [he] at hoj
      exact hco hoj
    obtain ⟨k, h1, h2, h3, h4, h5⟩ := hinv.openm j (by omega) hoj hjs
    have hki : k ≠ i := by omega
    refine ⟨k, h1, by omega, h3, ?_, ?_⟩
    · show (if j = i then (-1 : ℤ) else tbl j) = (k : ℤ)
      rw [if_neg hji]
      exact h4
    · show (if k = i then (-1 : ℤ) else tbl k) = (j : ℤ)
      rw [if_neg hki]
      exact h5
  · intro j hj hcj
    have hji : j ≠ i := by
      intro he
      rw [he] at hcj
      exact hcc hcj
    obtain ⟨k, h1, h2, h3, h4⟩ := hinv.closem j (by omega) hcj
    have hkj : k < j := h1
    have hki : k ≠ i := by omega
    refine ⟨k, h1, h2, ?_, ?_⟩
    · show (if j = i then (-1 : ℤ) else tbl j) = (k : ℤ)
      rw [if_neg hji]
      exact h3
    · show (if k = i then (-1 : ℤ) else tbl k) = (j : ℤ)
      rw [if_neg hki]
      exact h4
  · intro p hp a b hm
    exact hinv.sep p hp a b (hmr a b hm)
  · intro a b a2 b2 h1 h2 h3 h4
    exact hinv.nest a b a2 b2 (hmr a b h1) (hmr a2 b2 h2) h3 h4

/-- Scan step over an opening bracket: the position is pushed on the stack and
the table is unchanged. -/
theorem PtInv.step_push (s : List Char) (i : ℕ) (tbl : ℕ → ℤ) (stack : List ℕ)
    (hinv : PtInv s i tbl stack) (hi : i < s.length)
    (hc : s.getD i ' ' = '(') : PtInv s (i + 1) tbl (i :: stack) := by
  have hcc : s.getD i ' ' ≠ ')' := by rw [hc]; decide
  have hagree : ∀ j, j ≠ i → tbl j = tbl j := fun _ _ => rfl
  have hmr : ∀ a b, MatchedP s (i + 1) tbl a b → MatchedP s i tbl a b :=
    fun a b h => matched_step_notclose s i tbl tbl a b hcc hagree h
  have hop : opens (s.take (i + 1)) = opens (s.take i) + 1 := by
    unfold opens
    rw [countChar_take_succ '(' s i hi, if_pos hc]
  have hcl : closes (s.take (i + 1)) = closes (s.take i) := by
    unfold closes
    rw [countChar_take_succ ')' s i hi, if_neg hcc, Nat.add_zero]
  refine ⟨by omega, ?_, ?_, ?_, ?_, ?_, ?_, ?_, ?_, ?_, ?_, ?_, ?_⟩
  · intro p hp
    rcases List.mem_cons.mp hp with h | h
    · omega
    · have := hinv.stack_lt p h
      omega
  · intro p hp
    rcases List.mem_cons.mp hp with h | h
    · rw [h]; exact hc
    · exact hinv.stack_open p h
  · exact List.pairwise_cons.mpr ⟨fun p hp => hinv.stack_lt p hp, hinv.stack_sorted⟩
  · intro p hp
    rcases List.mem_cons.mp hp with h | h
    · rw [h]; exact hinv.future_zero i (le_refl i)
    · exact hinv.stack_zero p h
  · intro j hj
    exact hinv.future_zero j (by omega)
  · rw [hop, hcl, List.length_cons]
    have := hinv.count
    omega
  · intro n hn
    rcases Nat.lt_or_ge n (i + 1) with h1 | h1
    · exact hinv.prefixle n (by omega)
    · have h3 : n = i + 1 := by omega
      rw [h3, hop, hcl]
      have := hinv.prefixle i (le_refl i)
      omega
  · intro j hj hdj
    by_cases hji : j = i
    · rw [hji, hc] at hdj
      cases hdj
    · exact hinv.dot j (by omega) hdj
  · intro j hj hoj hjs
    have hji : j ≠ i := fun he => hjs (by rw [he]; exact List.mem_cons_self i stack)
    have hjs' : j ∉ stack := fun hm => hjs (List.mem_cons_of_mem i hm)
    obtain ⟨k, h1, h2, h3, h4, h5⟩ := hinv.openm j (by omega) hoj hjs'
    exact ⟨k, h1, by omega, h3, h4, h5⟩
  · intro j hj hcj
    have hji : j ≠ i := by
      intro he
      rw [he, hc] at hcj
      cases hcj
    exact hinv.closem j (by omega) hcj
  · intro p hp a b hm
    have hold := hmr a b hm
    rcases List.mem_cons.mp hp with h | h
    · left
      rw [h]
      exact hold.2.1
    · exact hinv.sep p h a b hold
  · intro a b a2 b2 h1 h2 h3 h4
    exact hinv.nest a b a2 b2 (hmr a b h1) (hmr a2 b2 h2) h3 h4

/-- Scan step over a closing bracket with a nonempty stack: the top of the
stack is popped and the two positions record each other in the table. -/
theorem PtInv.step_pop (s : List Char) (i p : ℕ) (tbl : ℕ → ℤ) (rest : List ℕ)
    (hinv : PtInv s i tbl (p :: rest)) (hi : i < s.length)
    (hc : s.getD i ' ' = ')') :
    PtInv s (i + 1)
      (fun j => if j = i then (p : ℤ) else if j = p then (i : ℤ) else tbl j) rest := by
  have hco : s.getD i ' ' ≠ '(' := by rw [hc]; decide
  have hpi : p < i := hinv.stack_lt p (List.mem_cons_self p rest)
  have hpo : s.getD p ' ' = '(' := hinv.stack_open p (List.mem_cons_self p rest)
  have hpz : tbl p = 0 := hinv.stack_zero p (List.mem_cons_self p rest)
  have hrest_lt_p : ∀ q ∈ rest, q < p :=
    fun q hq => (List.pairwise_cons.mp hinv.stack_sorted).1 q hq
  have hT_i : (fun j => if j = i then (p : ℤ) else if j = p then (i : ℤ) else tbl j) i
      = (p : ℤ) := by simp
  have hT_p : (fun j => if j = i then (p : ℤ) else if j = p then (i : ℤ) else tbl j) p
      = (i : ℤ) := by
    show (if p = i then (p : ℤ) else if p = p then (i : ℤ) else tbl p) = (i : ℤ)
    rw [if_neg (by omega : ¬ p = i), if_pos rfl]
  have hT_other : ∀ j, j ≠ i → j ≠ p →
      (fun j => if j = i then (p : ℤ) else if j = p then (i : ℤ) else tbl j) j = tbl j := by
    intro j h1 h2
    simp [h1, h2]
  have hred : ∀ a b, MatchedP s (i + 1)
      (fun j => if j = i then (p : ℤ) else if j = p then (i : ℤ) else tbl j) a b →
      (a = p ∧ b = i) ∨ MatchedP s i tbl a b := by
    intro a b hm
    obtain ⟨hab, hbi1, hta, htb, hsa, hsb⟩ := hm
    by_cases hbe : b = i
    · left
      refine ⟨?_, hbe⟩
      rw [hbe, hT_i] at htb
      exact (Nat.cast_inj.mp htb).symm
    · right
      have hblt : b < i := by omega
      have hane : a ≠ i := by omega
      have hbnp : b ≠ p := by
        intro he
        rw [he, hT_p] at htb
        have : i = a := Nat.cast_inj.mp htb
        omega
      have hanp : a ≠ p := by
        intro he
        rw [he, hT_p] at hta
        have : i = b := Nat.cast_inj.mp hta
        omega
      rw [hT_other a hane hanp] at hta
      rw [hT_other b hbe hbnp] at htb
      exact ⟨hab, hblt, hta, htb, hsa, hsb⟩
  have hpres : ∀ a b, MatchedP s i tbl a b → MatchedP s (i + 1)
      (fun j => if j = i then (p : ℤ) else if j = p then (i : ℤ) else tbl j) a b := by
    intro a b hm
    obtain ⟨hab, hbi, hta, htb, hsa, hsb⟩ := hm
    have hsep := hinv.sep p (List.mem_cons_self p rest) a b ⟨hab, hbi, hta, htb, hsa, hsb⟩
    have hanp : a ≠ p := by omega
    have hbnp : b ≠ p := by omega
    refine ⟨hab, by omega, ?_, ?_, hsa, hsb⟩
    · rw [hT_other a (by omega) hanp]
      exact hta
    · rw [hT_other b (by omega) hbnp]
      exact htb
  have hop : opens (s.take (i + 1)) = opens (s.take i) := by
    unfold opens
    rw [countChar_take_succ '(' s i hi, if_neg hco, Nat.add_zero]
  have hcl : closes (s.take (i + 1)) = closes (s.take i) + 1 := by
    unfold closes
    rw [countChar_take_succ ')' s i hi, if_pos hc]
  have hcount := hinv.count
  rw [List.length_cons] at hcount
  refine ⟨by omega, ?_, ?_, List.Pairwise.of_cons hinv.stack_sorted, ?_, ?_, ?_, ?_, ?_,
    ?_, ?_, ?_, ?_⟩
  · intro q hq
    have := hinv.stack_lt q (List.mem_cons_of_mem p hq)
    omega
  · intro q hq
    exact hinv.stack_open q (List.mem_cons_of_mem p hq)
  · intro q hq
    have hq_lt : q < p := hrest_lt_p q hq
    have hq_lt_i : q < i := by omega
    show (if q = i then (p : ℤ) else if q = p then (i : ℤ) else tbl q) = 0
    rw [if_neg (by omega : ¬ q = i), if_neg (by omega : ¬ q = p)]
    exact hinv.stack_zero q (List.mem_cons_of_mem p hq)
  · intro j hj
    show (if j = i then (p : ℤ) else if j = p then (i : ℤ) else tbl j) = 0
    rw [if_neg (by omega : ¬ j = i), if_neg (by omega : ¬ j = p)]
    exact hinv.future_zero j (by omega)
  · rw [hop, hcl]
    omega
  · intro n hn
    rcases Nat.lt_or_ge n (i + 1) with h1 | h1
    · exact hinv.prefixle n (by omega)
    · have h3 : n = i + 1 := by omega
      rw [h3, hop, hcl]
      omega
  · intro j hj hdj
    have hji : j ≠ i := by
      intro he
      rw [he, hc] at hdj
      cases hdj
    have hjp : j ≠ p := by
      intro he
      rw [he, hpo] at hdj
      cases hdj
    show (if j = i then (p : ℤ) else if j = p then (i : ℤ) else tbl j) = -1
    rw [if_neg hji, if_neg hjp]
    exact hinv.dot j (by omega) hdj
  · intro j hj hoj hjs
    have hji : j ≠ i := by
      intro he
      rw [he, hc] at hoj
      cases hoj
    by_cases hjp : j = p
    · subst hjp
      exact ⟨i, hpi, by omega, hc, hT_p, hT_i⟩
    · have hjs' : j ∉ p :: rest := by
        intro hm
        rcases List.mem_cons.mp hm with h | h
        · exact hjp h
        · exact hjs h
      obtain ⟨k, h1, h2, h3, h4, h5⟩ := hinv.openm j (by omega) hoj hjs'
      have hki : k ≠ i := by omega
      have hkp : k ≠ p := by
        intro he
        rw [he, hpo] at h3
        cases h3
      refine ⟨k, h1, by omega, h3, ?_, ?_⟩
      · show (if j = i then (p : ℤ) else if j = p then (i : ℤ) else tbl j) = (k : ℤ)
        rw [if_neg hji, if_neg hjp]
        exact h4
      · show (if k = i then (p : ℤ) else if k = p then (i : ℤ) else tbl k) = (j : ℤ)
        rw [if_neg hki, if_neg hkp]
        exact h5
  · intro j hj hcj
    by_cases hji : j = i
    · subst hji
      exact ⟨p, hpi, hpo, hT_i, hT_p⟩
    · have hjp : j ≠ p := by
        intro he
        rw [he, hpo] at hcj
        cases hcj
      obtain ⟨k, h1, h2, h3, h4⟩ := hinv.closem j (by omega) hcj
      have hki : k ≠ i := by omega
      have hkp : k ≠ p := by
        intro he
        rw [he, hpz] at h4
        have : (0 : ℤ) = (j : ℤ) := h4
        omega
      refine ⟨k, h1, h2, ?_, ?_⟩
      · show (if j = i then (p : ℤ) else if j = p then (i : ℤ) else tbl j) = (k : ℤ)
        rw [if_neg hji, if_neg hjp]
        exact h3
      · show (if k = i then (p : ℤ) else if k = p then (i : ℤ) else tbl k) = (j : ℤ)
        rw [if_neg hki, if_neg hkp]
        exact h4
  · intro q hq a b hm
    rcases hred a b hm with ⟨hap, hbi⟩ | hold
    · right
      rw [hap]
      exact hrest_lt_p q hq
    · exact hinv.sep q (List.mem_cons_of_mem p hq) a b hold
  · intro a b a2 b2 h1 h2 h3 h4
    rcases hred a b h1 with ⟨hap, hbi⟩ | hold1
    · rcases hred a2 b2 h2 with ⟨hap2, hbi2⟩ | hold2
      · omega
      · rw [hbi]
        exact hold2.2.1
    · rcases hred a2 b2 h2 with ⟨hap2, hbi2⟩ | hold2
      · have hsep := hinv.sep p (List.mem_cons_self p rest) a b hold1
        omega
      · exact hinv.nest a b a2 b2 hold1 hold2 h3 h4

/-- The invariant holds before the scan begins. -/
theorem ptInv_init (s : List Char) : PtInv s 0 (fun _ => 0) [] := by
  refine ⟨Nat.zero_le _, ?_, ?_, List.Pairwise.nil, ?_, ?_, ?_, ?_, ?_, ?_, ?_, ?_, ?_⟩
  · intro p hp
    cases hp
  · intro p hp
    cases hp
  · intro p hp
    cases hp
  · intro j _
    rfl
  · rfl
  · intro n hn
    have : n = 0 := by omega
    rw [this]
    exact le_refl _
  · intro j hj _
    omega
  · intro j hj _ _
    omega
  · intro j hj _
    omega
  · intro p hp
    cases hp
  · intro a b a2 b2 h1 _ _ _
    have := h1.2.1
    omega

/-- If the scan succeeds, the final table satisfies the invariant at the end
of the string with an empty stack. -/
theorem pairTableAux_ok_spec (cs : List Char) :
    ∀ (s : List Char) (i : ℕ) (tbl : ℕ → ℤ) (stack : List ℕ),
    cs = s.drop i → PtInv s i tbl stack →
    ∀ tbl', pairTableAux cs i tbl stack = .ok tbl' → PtInv s s.length tbl' [] := by
  induction cs with
  | nil =>
    intro s i tbl stack hdrop hinv tbl' hok
    unfold pairTableAux at hok
    by_cases hs : stack = []
    · rw [if_pos hs] at hok
      have htbl : tbl = tbl' := by
        cases hok
        rfl
      have hlen : s.length ≤ i := by
        by_contra hlt
        have : s.drop i ≠ [] := by
          intro he
          rw [List.drop_eq_nil_iff] at he
          omega
        exact this hdrop.symm
      have hieq : i = s.length := by
        have := hinv.hi
        omega
      rw [← htbl]
      rw [hieq, hs] at hinv
      exact hinv
    · rw [if_neg hs] at hok
      cases hok
  | cons c cs ih =>
    intro s i tbl stack hdrop hinv tbl' hok
    obtain ⟨hlt, hchar, hdrop'⟩ := drop_cons_spec s cs c i hdrop.symm
    unfold pairTableAux at hok
    by_cases hc1 : c = '('
    · rw [if_pos hc1] at hok
      exact ih s (i + 1) tbl (i :: stack) hdrop'.symm
        (hinv.step_push s i tbl stack hlt (by rw [hchar, hc1])) tbl' hok
    · by_cases hc2 : c = ')'
      · rw [if_neg hc1, if_pos hc2] at hok
        cases stack with
        | nil => cases hok
        | cons p rest =>
          exact ih s (i + 1) _ rest hdrop'.symm
            (hinv.step_pop s i p tbl rest hlt (by rw [hchar, hc2])) tbl' hok
      · rw [if_neg hc1, if_neg hc2] at hok
        exact ih s (i + 1) _ stack hdrop'.symm
          (hinv.step_other s i tbl stack hlt
            (by rw [hchar]; exact hc1) (by rw [hchar]; exact hc2)) tbl' hok

/-- If the string is balanced, the scan succeeds. -/
theorem pairTableAux_balanced_ok (cs : List Char) :
    ∀ (s : List Char) (i : ℕ) (tbl : ℕ → ℤ) (stack : List ℕ),
    cs = s.drop i → PtInv s i tbl stack → BracketBalanced s →
    ∃ tbl', pairTableAux cs i tbl stack = .ok tbl' := by
  induction cs with
  | nil =>
    intro s i tbl stack hdrop hinv hbal
    have hlen : s.length ≤ i := by
      by_contra hlt
      have : s.drop i ≠ [] := by
        intro he
        rw [List.drop_eq_nil_iff] at he
        omega
      exact this hdrop.symm
    have hieq : i = s.length := by
      have := hinv.hi
      omega
    have hcount := hinv.count
    rw [hieq, List.take_length] at hcount
    have hstack : stack.length = 0 := by
      have := hbal.2
      omega
    have hs : stack = [] := List.length_eq_zero.mp hstack
    refine ⟨tbl, ?_⟩
    unfold pairTableAux
    rw [if_pos hs]
  | cons c cs ih =>
    intro s i tbl stack hdrop hinv hbal
    obtain ⟨hlt, hchar, hdrop'⟩ := drop_cons_spec s cs c i hdrop.symm
    by_cases hc1 : c = '('
    · obtain ⟨tbl', h⟩ := ih s (i + 1) tbl (i :: stack) hdrop'.symm
        (hinv.step_push s i tbl stack hlt (by rw [hchar, hc1])) hbal
      refine ⟨tbl', ?_⟩
      unfold pairTableAux
      rw [if_pos hc1]
      exact h
    · by_cases hc2 : c = ')'
      · cases stack with
        | nil =>
          exfalso
          have hcount := hinv.count
          have hpre := hbal.1 (i + 1) (by omega)
          have hcl : closes (s.take (i + 1)) = closes (s.take i) + 1 := by
            unfold closes
            rw [countChar_take_succ ')' s i hlt, if_pos (by rw [hchar, hc2])]
          have hop : opens (s.take (i + 1)) = opens (s.take i) := by
            unfold opens
            rw [countChar_take_succ '(' s i hlt,
              if_neg (by rw [hchar, hc2]; decide), Nat.add_zero]
          rw [hcl, hop] at hpre
          simp only [List.length_nil] at hcount
          omega
        | cons p rest =>
          obtain ⟨tbl', h⟩ := ih s (i + 1) _ rest hdrop'.symm
            (hinv.step_pop s i p tbl rest hlt (by rw [hchar, hc2])) hbal
          refine ⟨tbl', ?_⟩
          unfold pairTableAux
          rw [if_neg hc1, if_pos hc2]
          exact h
      · obtain ⟨tbl', h⟩ := ih s (i + 1) _ stack hdrop'.symm
          (hinv.step_other s i tbl stack hlt
            (by rw [hchar]; exact hc1) (by rw [hchar]; exact hc2)) hbal
        refine ⟨tbl', ?_⟩
        unfold pairTableAux
        rw [if_neg hc1, if_neg hc2]
        exact h

/-- The only error the scan ever produces is `malformedStructure`. -/
theorem pairTableAux_error_eq (cs : List Char) :
    ∀ (i : ℕ) (tbl : ℕ → ℤ) (stack : List ℕ) (e : MfeError),
    pairTableAux cs i tbl stack = .error e → e = .malformedStructure := by
  induction cs with
  | nil =>
    intro i tbl stack e h
    unfold pairTableAux at h
    by_cases hs : stack = []
    · rw [if_pos hs] at h
      cases h
    · rw [if_neg hs] at h
      cases h
      rfl
  | cons c cs ih =>
    intro i tbl stack e h
    unfold pairTableAux at h
    by_cases hc1 : c = '('
    · rw [if_pos hc1] at h
      exact ih _ _ _ _ h
    · by_cases hc2 : c = ')'
      · rw [if_neg hc1, if_pos hc2] at h
        cases stack with
        | nil =>
          cases h
          rfl
        | cons p rest => exact ih _ _ _ _ h
      · rw [if_neg hc1, if_neg hc2] at h
        exact ih _ _ _ _ h

/-- Decomposition of a successful `pairTable` run into the underlying scan. -/
theorem pairTable_ok_iff (struc : List Char) (P : List ℤ) :
    pairTable struc = .ok P ↔
    ∃ tbl', pairTableAux struc 0 (fun _ => 0) [] = .ok tbl' ∧
      P = (List.range struc.length).map tbl' := by
  unfold pairTable
  cases h : pairTableAux struc 0 (fun _ => 0) [] with
  | ok t =>
    constructor
    · intro hok
      have hP : Except.ok ((List.range struc.length).map t) = Except.ok P := hok
      exact ⟨t, rfl, (Except.ok.inj hP).symm⟩
    · rintro ⟨tbl', ht, hP⟩
      have : t = tbl' := Except.ok.inj ht
      rw [hP, ← this]
      rfl
  | error e =>
    constructor
    · intro hok
      cases hok
    · rintro ⟨tbl', ht, hP⟩
      cases ht

/-- Reading the materialized pair table below its length reads the scan table. -/
theorem rangeMap_getD (n : ℕ) (tbl : ℕ → ℤ) (i : ℕ) (hi : i < n) :
    ((List.range n).map tbl).getD i 0 = tbl i := by
  rw [List.getD_eq_getElem?_getD, List.getElem?_map, List.getElem?_range hi]
  rfl

/-- A defaulted in-range read is a member of the list. -/
theorem getD_mem_of_lt (s : List Char) (i : ℕ) (hi : i < s.length) :
    s.getD i ' ' ∈ s := by
  rw [List.getD_eq_getElem?_getD, List.getElem?_eq_getElem hi]
  exact List.getElem_mem hi

/-- The final invariant of a successful scan of the whole string. -/
theorem pairTable_ok_final (struc : List Char) (tbl' : ℕ → ℤ)
    (h : pairTableAux struc 0 (fun _ => 0) [] = .ok tbl') :
    PtInv struc struc.length tbl' [] :=
  pairTableAux_ok_spec struc struc 0 (fun _ => 0) []
    (by rw [List.drop_zero]) (ptInv_init struc) tbl' h

/-- C5: for every string over the alphabet `{'(', ')', '.'}`, `pairTable`
returns an error (always `malformedStructure`) exactly when the brackets are
unbalanced; on success the returned array `P` has the length of the input,
holds `-1` at every dot, is an involution at every paired position
(`P[i] = j` with `j` in range implies `P[j] = i`), every recorded pair is
oriented with the opening bracket at the smaller index and the closing
bracket at the larger one, and — completeness of the recording — every
opening bracket is linked to a closing bracket further right and every
closing bracket to an opening bracket further left, mutually
(`P[i] = j ∧ P[j] = i` for each matched bracket pair). -/
theorem claim_C5_pair_table (struc : List Char)
    (halpha : ∀ c ∈ struc, c = '(' ∨ c = ')' ∨ c = '.') :
    ((∃ P, pairTable struc = .ok P) ↔ BracketBalanced struc) ∧
    (¬ BracketBalanced struc → pairTable struc = .error .malformedStructure) ∧
    ∀ P, pairTable struc = .ok P →
      P.length = struc.length ∧
      (∀ i, i < struc.length → struc.getD i ' ' = '.' → P.getD i 0 = -1) ∧
      (∀ i j, i < struc.length → j < struc.length → P.getD i 0 = (j : ℤ) →
        P.getD j 0 = (i : ℤ)) ∧
      (∀ i j, i < j → j < struc.length → P.getD i 0 = (j : ℤ) →
        struc.getD i ' ' = '(' ∧ struc.getD j ' ' = ')') ∧
      (∀ i, i < struc.length → struc.getD i ' ' = '(' →
        ∃ j, i < j ∧ j < struc.length ∧ struc.getD j ' ' = ')' ∧
          P.getD i 0 = (j : ℤ) ∧ P.getD j 0 = (i : ℤ)) ∧
      (∀ i, i < struc.length → struc.getD i ' ' = ')' →
        ∃ j, j < i ∧ struc.getD j ' ' = '(' ∧
          P.getD i 0 = (j : ℤ) ∧ P.getD j 0 = (i : ℤ)) := by
  have hiff : (∃ P, pairTable struc = .ok P) ↔ BracketBalanced struc := by
    constructor
    · rintro ⟨P, hok⟩
      obtain ⟨tbl', haux, hP⟩ := (pairTable_ok_iff struc P).mp hok
      have hfin := pairTable_ok_final struc tbl' haux
      refine ⟨hfin.prefixle, ?_⟩
      have hcount := hfin.count
      rw [List.take_length, List.length_nil] at hcount
      omega
    · intro hbal
      obtain ⟨tbl', haux⟩ := pairTableAux_balanced_ok struc struc 0 (fun _ => 0) []
        (by rw [List.drop_zero]) (ptInv_init struc) hbal
      exact ⟨(List.range struc.length).map tbl',
        (pairTable_ok_iff struc _).mpr ⟨tbl', haux, rfl⟩⟩
  refine ⟨hiff, ?_, ?_⟩
  · intro hnb
    cases h : pairTable struc with
    | ok P => exact absurd (hiff.mp ⟨P, h⟩) hnb
    | error e =>
      have he : e = .malformedStructure := by
        unfold pairTable at h
        cases haux : pairTableAux struc 0 (fun _ => 0) [] with
        | ok t =>
          rw [haux] at h
          cases h
        | error e2 =>
          rw [haux] at h
          have h2 : (Except.error e2 : Except MfeError (List ℤ)) = Except.error e := h
          rw [← Except.error.inj h2]
          exact pairTableAux_error_eq struc 0 (fun _ => 0) [] e2 haux
      rw [he]
  · intro P hok
    obtain ⟨tbl', haux, hP⟩ := (pairTable_ok_iff struc P).mp hok
    have hfin := pairTable_ok_final struc tbl' haux
    refine ⟨?_, ?_, ?_, ?_, ?_, ?_⟩
    · rw [hP, List.length_map, List.length_range]
    · intro i hi hdot
      rw [hP, rangeMap_getD struc.length tbl' i hi]
      exact hfin.dot i hi hdot
    · intro i j hi hj hij
      rw [hP, rangeMap_getD struc.length tbl' i hi] at hij
      rw [hP, rangeMap_getD struc.length tbl' j hj]
      rcases halpha (struc.getD i ' ') (getD_mem_of_lt struc i hi) with hc | hc | hc
      · obtain ⟨k, h1, h2, h3, h4, h5⟩ := hfin.openm i hi hc (List.not_mem_nil i)
        have hkj : k = j := by
          rw [hij] at h4
          exact Nat.cast_inj.mp h4.symm
        rw [← hkj]
        exact h5
      · obtain ⟨k, h1, h2, h3, h4⟩ := hfin.closem i hi hc
        have hkj : k = j := by
          rw [hij] at h3
          exact Nat.cast_inj.mp h3.symm
        rw [← hkj]
        exact h4
      · have := hfin.dot i hi hc
        rw [hij] at this
        omega
    · intro i j hij hj hPij
      have hi : i < struc.length := by omega
      rw [hP, rangeMap_getD struc.length tbl' i hi] at hPij
      rcases halpha (struc.getD i ' ') (getD_mem_of_lt struc i hi) with hc | hc | hc
      · obtain ⟨k, h1, h2, h3, h4, h5⟩ := hfin.openm i hi hc (List.not_mem_nil i)
        have hkj : k = j := by
          rw [hPij] at h4
          exact Nat.cast_inj.mp h4.symm
        rw [← hkj]
        exact ⟨hc, h3⟩
      · obtain ⟨k, h1, h2, h3, h4⟩ := hfin.closem i hi hc
        have hkj : k = j := by
          rw [hPij] at h3
          exact Nat.cast_inj.mp h3.symm
        omega
      · have := hfin.dot i hi hc
        rw [hPij] at this
        omega
    · intro i hi hoi
      obtain ⟨k, h1, h2, h3, h4, h5⟩ := hfin.openm i hi hoi (List.not_mem_nil i)
      refine ⟨k, h1, h2, h3, ?_, ?_⟩
      · rw [hP, rangeMap_getD struc.length tbl' i hi]
        exact h4
      · rw [hP, rangeMap_getD struc.length tbl' k h2]
        exact h5
    · intro i hi hci
      obtain ⟨k, h1, h2, h3, h4⟩ := hfin.closem i hi hci
      refine ⟨k, h1, h2, ?_, ?_⟩
      · rw [hP, rangeMap_getD struc.length tbl' i hi]
        exact h3
      · rw [hP, rangeMap_getD struc.length tbl' k (by omega)]
        exact h4

theorem claim_C5_pair_table_witness :
    (∀ c ∈ ['(', '.', ')'], c = '(' ∨ c = ')' ∨ c = '.') ∧
    (((∃ P, pairTable ['(', '.', ')'] = .ok P) ↔ BracketBalanced ['(', '.', ')']) ∧
     (¬ BracketBalanced ['(', '.', ')'] →
       pairTable ['(', '.', ')'] = .error .malformedStructure) ∧
     ∀ P, pairTable ['(', '.', ')'] = .ok P →
       P.length = (['(', '.', ')'] : List Char).length ∧
       (∀ i, i < (['(', '.', ')'] : List Char).length →
         (['(', '.', ')'] : List Char).getD i ' ' = '.' → P.getD i 0 = -1) ∧
       (∀ i j, i < (['(', '.', ')'] : List Char).length →
         j < (['(', '.', ')'] : List Char).length → P.getD i 0 = (j : ℤ) →
         P.getD j 0 = (i : ℤ)) ∧
       (∀ i j, i < j → j < (['(', '.', ')'] : List Char).length →
         P.getD i 0 = (j : ℤ) →
         (['(', '.', ')'] : List Char).getD i ' ' = '(' ∧
           (['(', '.', ')'] : List Char).getD j ' ' = ')') ∧
       (∀ i, i < (['(', '.', ')'] : List Char).length →
         (['(', '.', ')'] : List Char).getD i ' ' = '(' →
         ∃ j, i < j ∧ j < (['(', '.', ')'] : List Char).length ∧
           (['(', '.', ')'] : List Char).getD j ' ' = ')' ∧
           P.getD i 0 = (j : ℤ) ∧ P.getD j 0 = (i : ℤ)) ∧
       (∀ i, i < (['(', '.', ')'] : List Char).length →
         (['(', '.', ')'] : List Char).getD i ' ' = ')' →
         ∃ j, j < i ∧ (['(', '.', ')'] : List Char).getD j ' ' = '(' ∧
           P.getD i 0 = (j : ℤ) ∧ P.getD j 0 = (i : ℤ))) :=
  ⟨by decide, claim_C5_pair_table ['(', '.', ')'] (by decide)⟩

/-! ## C4: the invalid-pair policy of the loop decomposition -/

/-- Classification of the nonzero base-pair codes. -/
theorem basePairEncodedType_ne_zero_cases (a b : Char) (h : basePairEncodedType a b ≠ 0) :
    (a = 'A' ∧ b = 'U') ∨ (a = 'C' ∧ b = 'G') ∨ (a = 'G' ∧ b = 'C') ∨
    (a = 'G' ∧ b = 'U') ∨ (a = 'U' ∧ b = 'A') ∨ (a = 'U' ∧ b = 'G') := by
  unfold basePairEncodedType at h
  by_cases h1 : a = 'A'
  · rw [if_pos h1] at h
    by_cases h2 : b = 'U'
    · exact Or.inl ⟨h1, h2⟩
    · rw [if_neg h2] at h
      exact absurd rfl h
  · rw [if_neg h1] at h
    by_cases h3 : a = 'C'
    · rw [if_pos h3] at h
      by_cases h4 : b = 'G'
      · exact Or.inr (Or.inl ⟨h3, h4⟩)
      · rw [if_neg h4] at h
        exact absurd rfl h
    · rw [if_neg h3] at h
      by_cases h5 : a = 'G'
      · rw [if_pos h5] at h
        by_cases h6 : b = 'C'
        · exact Or.inr (Or.inr (Or.inl ⟨h5, h6⟩))
        · rw [if_neg h6] at h
          by_cases h7 : b = 'U'
          · exact Or.inr (Or.inr (Or.inr (Or.inl ⟨h5, h7⟩)))
          · rw [if_neg h7] at h
            exact absurd rfl h
      · rw [if_neg h5] at h
        by_cases h8 : a = 'U'
        · rw [if_pos h8] at h
          by_cases h9 : b = 'A'
          · exact Or.inr (Or.inr (Or.inr (Or.inr (Or.inl ⟨h8, h9⟩))))
          · rw [if_neg h9] at h
            by_cases h10 : b = 'G'
            · exact Or.inr (Or.inr (Or.inr (Or.inr (Or.inr ⟨h8, h10⟩))))
            · rw [if_neg h10] at h
              exact absurd rfl h
        · rw [if_neg h8] at h
          exact absurd rfl h

/-- The zero base-pair code is symmetric in its two bases. -/
theorem basePairEncodedType_zero_symm (a b : Char) (h : basePairEncodedType a b = 0) :
    basePairEncodedType b a = 0 := by
  by_contra hne
  rcases basePairEncodedType_ne_zero_cases b a hne with
    ⟨h1, h2⟩ | ⟨h1, h2⟩ | ⟨h1, h2⟩ | ⟨h1, h2⟩ | ⟨h1, h2⟩ | ⟨h1, h2⟩ <;>
    (subst h1; subst h2; exact absurd h (by decide))

/-- A pair table is well formed when every in-range entry is either -1 or one
half of a mutual partner link. -/
def TableWF (P : List ℤ) : Prop :=
  ∀ i, i < P.length → P.getD i 0 = -1 ∨
    ∃ j, j < P.length ∧ j ≠ i ∧ P.getD i 0 = (j : ℤ) ∧ P.getD j 0 = (i : ℤ)

/-- A pair table is nested when no two partner links cross. -/
def TableNested (P : List ℤ) : Prop :=
  ∀ f t f2 t2 : ℕ, f < t → t < P.length → P.getD f 0 = (t : ℤ) →
    f2 < t2 → t2 < P.length → P.getD f2 0 = (t2 : ℤ) →
    f < f2 → f2 < t → t2 < t

/-- A table built by a successful `pairTable` run over the dot-bracket
alphabet is well formed. -/
theorem pairTable_partner (struc : List Char) (P : List ℤ)
    (halpha : ∀ c ∈ struc, c = '(' ∨ c = ')' ∨ c = '.')
    (hok : pairTable struc = .ok P) :
    P.length = struc.length ∧ TableWF P := by
  obtain ⟨tbl', haux, hP⟩ := (pairTable_ok_iff struc P).mp hok
  have hfin := pairTable_ok_final struc tbl' haux
  have hlen : P.length = struc.length := by
    rw [hP, List.length_map, List.length_range]
  refine ⟨hlen, ?_⟩
  intro i hi
  rw [hlen] at hi
  rcases halpha _ (getD_mem_of_lt struc i hi) with hc | hc | hc
  · obtain ⟨k, h1, h2, h3, h4, h5⟩ := hfin.openm i hi hc (List.not_mem_nil i)
    right
    refine ⟨k, by omega, by omega, ?_, ?_⟩
    · rw [hP, rangeMap_getD _ _ i hi]
      exact h4
    · rw [hP, rangeMap_getD _ _ k h2]
      exact h5
  · obtain ⟨k, h1, h2, h3, h4⟩ := hfin.closem i hi hc
    right
    refine ⟨k, by omega, by omega, ?_, ?_⟩
    · rw [hP, rangeMap_getD _ _ i hi]
      exact h3
    · rw [hP, rangeMap_getD _ _ k (by omega)]
      exact h4
  · left
    rw [hP, rangeMap_getD _ _ i hi]
    exact hfin.dot i hi hc

/-- A table built by a successful `pairTable` run over the dot-bracket
alphabet is nested. -/
theorem pairTable_nested (struc : List Char) (P : List ℤ)
    (halpha : ∀ c ∈ struc, c = '(' ∨ c = ')' ∨ c = '.')
    (hok : pairTable struc = .ok P) : TableNested P := by
  obtain ⟨tbl', haux, hP⟩ := (pairTable_ok_iff struc P).mp hok
  have hfin := pairTable_ok_final struc tbl' haux
  have hlen : P.length = struc.length := by
    rw [hP, List.length_map, List.length_range]
  have hwf := (pairTable_partner struc P halpha hok).2
  have hchars : ∀ a b : ℕ, a < b → b < struc.length → tbl' a = (b : ℤ) →
      struc.getD a ' ' = '(' ∧ struc.getD b ' ' = ')' := by
    intro a b hab hb ht
    have ha : a < struc.length := by omega
    rcases halpha _ (getD_mem_of_lt struc a ha) with hc | hc | hc
    · obtain ⟨k, h1, h2, h3, h4, h5⟩ := hfin.openm a ha hc (List.not_mem_nil a)
      have hk : k = b := by
        rw [ht] at h4
        exact Nat.cast_inj.mp h4.symm
      rw [← hk]
      exact ⟨hc, h3⟩
    · obtain ⟨k, h1, h2, h3, h4⟩ := hfin.closem a ha hc
      rw [ht] at h3
      have hk : k = b := Nat.cast_inj.mp h3.symm
      omega
    · have := hfin.dot a ha hc
      rw [ht] at this
      omega
  have hmk : ∀ a b : ℕ, a < b → b < P.length → P.getD a 0 = (b : ℤ) →
      MatchedP struc struc.length tbl' a b := by
    intro a b hab hb hPa
    have hb' : b < struc.length := by omega
    have ha' : a < struc.length := by omega
    have hta : tbl' a = (b : ℤ) := by
      rw [hP, rangeMap_getD _ _ a ha'] at hPa
      exact hPa
    rcases hwf a (by omega) with hm | ⟨j, hj1, hj2, hj3, hj4⟩
    · rw [hPa] at hm
      omega
    · have hjb : j = b := by
        rw [hPa] at hj3
        exact Nat.cast_inj.mp hj3.symm
      have htb : tbl' b = (a : ℤ) := by
        rw [← hjb] at hb' ⊢
        rw [hP, rangeMap_getD _ _ j (by omega)] at hj4
        exact hj4
      obtain ⟨hca, hcb⟩ := hchars a b hab hb' hta
      exact ⟨hab, by omega, hta, htb, hca, hcb⟩
  intro f t f2 t2 h1 h2 h3 h4 h5 h6 h7 h8
  exact hfin.nest f t f2 t2 (hmk f t h1 h2 h3) (hmk f2 t2 h4 h5 h6) h7 h8

/-- A full-length class match means every character is in the class. -/
theorem classPrefixLen_all (cls : Char → Bool) :
    ∀ l : List Char, classPrefixLen cls l = l.length → ∀ c ∈ l, cls c := by
  intro l
  induction l with
  | nil =>
    intro _ c hc
    cases hc
  | cons a as ih =>
    intro h c hc
    unfold classPrefixLen at h
    rw [List.length_cons] at h
    by_cases ha : cls a
    · rw [if_pos ha] at h
      rcases List.mem_cons.mp hc with h1 | h1
      · rw [h1]
        exact ha
      · exact ih (by omega) c h1
    · rw [if_neg ha] at h
      omega

/-- A validated structure string uses only the dot-bracket alphabet. -/
theorem ensureValidStructure_ok (struc : List Char)
    (h : ensureValidStructure struc = .ok ()) :
    ∀ c ∈ struc, c = '(' ∨ c = ')' ∨ c = '.' := by
  unfold ensureValidStructure at h
  by_cases h0 : classPrefixLen (fun c => c = '(' ∨ c = ')' ∨ c = '.') struc = 0
  · rw [if_pos h0] at h
    cases h
  · rw [if_neg h0] at h
    by_cases h1 : classPrefixLen (fun c => c = '(' ∨ c = ')' ∨ c = '.') struc = struc.length
    · intro c hc
      exact of_decide_eq_true (classPrefixLen_all _ struc h1 c hc)
    · rw [if_neg h1] at h
      cases h

/-- The validators fail only with `runtimeError` or `invalidAlphabet`. -/
theorem ensureValidRNA_error (s : List Char) (e : MfeError)
    (h : ensureValidRNA s = .error e) : e = .runtimeError ∨ e = .invalidAlphabet := by
  unfold ensureValidRNA at h
  by_cases h0 : classPrefixLen (fun c => c = 'A' ∨ c = 'C' ∨ c = 'G' ∨ c = 'U') s = 0
  · rw [if_pos h0] at h
    cases h
    exact Or.inl rfl
  · rw [if_neg h0] at h
    by_cases h1 : classPrefixLen (fun c => c = 'A' ∨ c = 'C' ∨ c = 'G' ∨ c = 'U') s = s.length
    · rw [if_pos h1] at h
      cases h
    · rw [if_neg h1] at h
      cases h
      exact Or.inr rfl

/-- The structure validator fails only with `runtimeError` or
`invalidAlphabet`. -/
theorem ensureValidStructure_error (s : List Char) (e : MfeError)
    (h : ensureValidStructure s = .error e) : e = .runtimeError ∨ e = .invalidAlphabet := by
  unfold ensureValidStructure at h
  by_cases h0 : classPrefixLen (fun c => c = '(' ∨ c = ')' ∨ c = '.') s = 0
  · rw [if_pos h0] at h
    cases h
    exact Or.inl rfl
  · rw [if_neg h0] at h
    by_cases h1 : classPrefixLen (fun c => c = '(' ∨ c = ')' ∨ c = '.') s = s.length
    · rw [if_pos h1] at h
      cases h
    · rw [if_neg h1] at h
      cases h
      exact Or.inr rfl

/-- Inversion of a failed `Except` bind. -/
theorem exceptBind_err_iff {ε α β : Type} (x : Except ε α) (f : α → Except ε β) (e : ε) :
    (x >>= f) = .error e ↔ x = .error e ∨ ∃ a, x = .ok a ∧ f a = .error e := by
  cases x with
  | error e2 =>
    rw [exceptBind_err]
    constructor
    · intro h
      left
      rw [Except.error.inj h]
    · rintro (h | ⟨a, ha, _⟩)
      · rw [Except.error.inj h]
      · cases ha
  | ok a =>
    rw [exceptBind_ok]
    constructor
    · intro h
      exact Or.inr ⟨a, rfl, h⟩
    · rintro (h | ⟨a2, ha2, hf⟩)
      · cases h
      · cases ha2
        exact hf

/-- A failed `Except.map` is a failure of its argument. -/
theorem exceptMap_error {ε α β : Type} (g : α → β) (x : Except ε α) (e : ε)
    (h : Except.map g x = .error e) : x = .error e := by
  cases x with
  | ok a => cases h
  | error e2 =>
    have h2 : (Except.error e2 : Except ε β) = .error e := h
    rw [Except.error.inj h2]

/-- Checked sequence reads fail only with `runtimeError`. -/
theorem seqAt_error (fc : foldCompound) (i : ℤ) (e : MfeError)
    (h : fc.seqAt i = .error e) : e = .runtimeError := by
  unfold foldCompound.seqAt at h
  split at h
  · cases h
  · cases h
    rfl

/-- Checked encoded-sequence reads fail only with `runtimeError`. -/
theorem encAt_error (fc : foldCompound) (i : ℤ) (e : MfeError)
    (h : fc.encAt i = .error e) : e = .runtimeError := by
  unfold foldCompound.encAt at h
  split at h
  · cases h
  · cases h
    rfl

/-- Checked pair-table reads fail only with `runtimeError`. -/
theorem ptAt_error (fc : foldCompound) (i : ℤ) (e : MfeError)
    (h : fc.ptAt i = .error e) : e = .runtimeError := by
  unfold foldCompound.ptAt at h
  split at h
  · cases h
  · cases h
    rfl

/-- A successful checked pair-table read is an in-range defaulted read. -/
theorem ptAt_ok (fc : foldCompound) (i : ℤ) (v : ℤ)
    (h : fc.ptAt i = .ok v) :
    0 ≤ i ∧ i.toNat < fc.pairTable.length ∧ fc.pairTable.getD i.toNat 0 = v := by
  unfold foldCompound.ptAt at h
  split at h
  · rename_i hc
    exact ⟨hc.1, hc.2, Except.ok.inj h⟩
  · cases h

/-- A successful checked sequence read is an in-range defaulted read. -/
theorem seqAt_ok (fc : foldCompound) (i : ℤ) (v : Char)
    (h : fc.seqAt i = .ok v) :
    0 ≤ i ∧ i.toNat < fc.sequence.length ∧ fc.sequence.getD i.toNat ' ' = v := by
  unfold foldCompound.seqAt at h
  split at h
  · rename_i hc
    exact ⟨hc.1, hc.2, Except.ok.inj h⟩
  · cases h

/-- The base-pair code lookup fails only with `runtimeError`. -/
theorem encodedBasePairType_error (fc : foldCompound) (i j : ℤ) (e : MfeError)
    (h : encodedBasePairType fc i j = .error e) : e = .runtimeError := by
  unfold encodedBasePairType at h
  rw [exceptBind_err_iff] at h
  rcases h with h | ⟨a, _, h⟩
  · exact seqAt_error fc i e h
  · rw [exceptBind_err_iff] at h
    rcases h with h | ⟨b, _, h⟩
    · exact seqAt_error fc j e h
    · cases h

/-- A successful base-pair code lookup reads the two sequence characters. -/
theorem encodedBasePairType_ok (fc : foldCompound) (i j : ℤ) (v : ℕ)
    (h : encodedBasePairType fc i j = .ok v) :
    0 ≤ i ∧ i.toNat < fc.sequence.length ∧ 0 ≤ j ∧ j.toNat < fc.sequence.length ∧
    basePairEncodedType (fc.sequence.getD i.toNat ' ') (fc.sequence.getD j.toNat ' ') = v := by
  unfold encodedBasePairType at h
  rw [exceptBind_ok_iff] at h
  obtain ⟨a, ha, h⟩ := h
  rw [exceptBind_ok_iff] at h
  obtain ⟨b, hb, h⟩ := h
  obtain ⟨h1, h2, h3⟩ := seqAt_ok fc i a ha
  obtain ⟨h4, h5, h6⟩ := seqAt_ok fc j b hb
  refine ⟨h1, h2, h4, h5, ?_⟩
  rw [h3, h6]
  exact Except.ok.inj h

/-- The forward paired seek fails only with `runtimeError`. -/
theorem seekPairedForwardAux_error (pt : List ℤ) :
    ∀ (r i : ℕ) (e : MfeError), seekPairedForwardAux pt i r = .error e →
      e = .runtimeError := by
  intro r
  induction r with
  | zero =>
    intro i e h
    cases h
    rfl
  | succ r ih =>
    intro i e h
    unfold seekPairedForwardAux at h
    split at h
    · split at h
      · exact ih (i + 1) e h
      · cases h
    · cases h
      rfl

/-- Characterization of a successful forward paired seek: the result is the
first paired position at or after the start. -/
theorem seekPairedForwardAux_ok (pt : List ℤ) :
    ∀ (r i j : ℕ), seekPairedForwardAux pt i r = .ok j →
      i ≤ j ∧ j < pt.length ∧ pt.getD j 0 ≠ -1 ∧
      ∀ m, i ≤ m → m < j → pt.getD m 0 = -1 := by
  intro r
  induction r with
  | zero =>
    intro i j h
    cases h
  | succ r ih =>
    intro i j h
    unfold seekPairedForwardAux at h
    split at h
    · rename_i hlen
      split at h
      · rename_i hm1
        obtain ⟨h1, h2, h3, h4⟩ := ih (i + 1) j h
        refine ⟨by omega, h2, h3, ?_⟩
        intro m hm1' hm2
        by_cases hmi : m = i
        · rw [hmi]
          assumption
        · exact h4 m (by omega) hm2
      · rename_i hm1
        cases h
        exact ⟨le_refl i, hlen, hm1, fun m h1 h2 => by omega⟩
    · cases h

/-- The backward paired seek fails only with `runtimeError`. -/
theorem seekPairedBackwardAux_error (pt : List ℤ) :
    ∀ (r i : ℕ) (e : MfeError), seekPairedBackwardAux pt i r = .error e →
      e = .runtimeError := by
  intro r
  induction r with
  | zero =>
    intro i e h
    cases h
    rfl
  | succ r ih =>
    intro i e h
    unfold seekPairedBackwardAux at h
    split at h
    · split at h
      · split at h
        · cases h
          rfl
        · exact ih (i - 1) e h
      · cases h
    · cases h
      rfl

/-- Characterization of a successful backward paired seek: the result is the
first paired position at or before the start. -/
theorem seekPairedBackwardAux_ok (pt : List ℤ) :
    ∀ (r i j : ℕ), seekPairedBackwardAux pt i r = .ok j →
      j ≤ i ∧ j < pt.length ∧ pt.getD j 0 ≠ -1 ∧
      ∀ m, j < m → m ≤ i → pt.getD m 0 = -1 := by
  intro r
  induction r with
  | zero =>
    intro i j h
    cases h
  | succ r ih =>
    intro i j h
    unfold seekPairedBackwardAux at h
    split at h
    · rename_i hlen
      split at h
      · rename_i hm1
        split at h
        · cases h
        · rename_i hi0
          obtain ⟨h1, h2, h3, h4⟩ := ih (i - 1) j h
          refine ⟨by omega, h2, h3, ?_⟩
          intro m hm1' hm2
          by_cases hmi : m = i
          · rw [hmi]
            assumption
          · exact h4 m hm1' (by omega)
      · rename_i hm1
        cases h
        exact ⟨le_refl i, hlen, hm1, fun m h1 h2 => by omega⟩
    · cases h

/-- The guarded stem seek fails only with `runtimeError`. -/
theorem seekStemAux_error (pt : List ℤ) (bound : ℕ) (strict : Bool) :
    ∀ (r ef : ℕ) (e : MfeError), seekStemAux pt bound strict ef r = .error e →
      e = .runtimeError := by
  intro r
  induction r with
  | zero =>
    intro ef e h
    cases h
  | succ r ih =>
    intro ef e h
    unfold seekStemAux at h
    by_cases hcond : (if strict then ef < bound else ef ≤ bound)
    · rw [if_pos hcond] at h
      by_cases hlen : ef < pt.length
      · rw [if_pos hlen] at h
        by_cases hm1 : pt.getD ef 0 = -1
        · rw [if_pos hm1] at h
          exact ih (ef + 1) e h
        · rw [if_neg hm1] at h
          cases h
      · rw [if_neg hlen] at h
        cases h
        rfl
    · rw [if_neg hcond] at h
      cases h

/-- Characterization of a successful guarded stem seek: the scanned interval
is unpaired, and a result still inside the guard bound is a paired position. -/
theorem seekStemAux_ok (pt : List ℤ) (bound : ℕ) (strict : Bool) :
    ∀ (r ef ef' : ℕ), (if strict then bound else bound + 1) ≤ ef + r →
      seekStemAux pt bound strict ef r = .ok ef' →
      ef ≤ ef' ∧ (∀ m, ef ≤ m → m < ef' → pt.getD m 0 = -1) ∧
      ((if strict then ef' < bound else ef' ≤ bound) →
        ef' < pt.length ∧ pt.getD ef' 0 ≠ -1) := by
  intro r
  induction r with
  | zero =>
    intro ef ef' hr h
    cases h
    refine ⟨le_refl ef, fun m h1 h2 => by omega, ?_⟩
    intro hcond
    exfalso
    by_cases hs : strict = true
    · rw [if_pos hs] at hr
      rw [hs, if_pos rfl] at hcond
      omega
    · rw [if_neg hs] at hr
      have hs2 : strict = false := by
        cases strict
        · rfl
        · exact absurd rfl hs
      rw [hs2] at hcond
      simp only [Bool.false_eq_true, if_false] at hcond
      omega
  | succ r ih =>
    intro ef ef' hr h
    unfold seekStemAux at h
    by_cases hcond : (if strict then ef < bound else ef ≤ bound)
    · rw [if_pos hcond] at h
      by_cases hlen : ef < pt.length
      · rw [if_pos hlen] at h
        by_cases hm1 : pt.getD ef 0 = -1
        · rw [if_pos hm1] at h
          obtain ⟨h1, h2, h3⟩ := ih (ef + 1) ef' (by omega) h
          refine ⟨by omega, ?_, h3⟩
          intro m hm1' hm2
          by_cases hmi : m = ef
          · rw [hmi]
            exact hm1
          · exact h2 m (by omega) hm2
        · rw [if_neg hm1] at h
          cases h
          exact ⟨le_refl ef, fun m h1 h2 => by omega, fun _ => ⟨hlen, hm1⟩⟩
      · rw [if_neg hlen] at h
        cases h
    · rw [if_neg hcond] at h
      cases h
      exact ⟨le_refl ef, fun m h1 h2 => by omega, fun hc => absurd hc hcond⟩

/-- Entry form of the stem-seek characterization. -/
theorem seekStem_ok (pt : List ℤ) (bound : ℕ) (strict : Bool) (ef ef' : ℕ)
    (h : seekStem pt bound strict ef = .ok ef') :
    ef ≤ ef' ∧ (∀ m, ef ≤ m → m < ef' → pt.getD m 0 = -1) ∧
    ((if strict then ef' < bound else ef' ≤ bound) →
      ef' < pt.length ∧ pt.getD ef' 0 ≠ -1) := by
  unfold seekStem at h
  refine seekStemAux_ok pt bound strict (bound + 1 - ef) ef ef' ?_ h
  by_cases hs : strict = true
  · rw [if_pos hs]
    omega
  · rw [if_neg hs]
    omega

/-- The exterior seek fails only with `runtimeError`. -/
theorem extSeekAux_error (fc : foldCompound) :
    ∀ (r ef : ℕ) (e : MfeError), extSeekAux fc ef r = .error e → e = .runtimeError := by
  intro r
  induction r with
  | zero =>
    intro ef e h
    cases h
  | succ r ih =>
    intro ef e h
    unfold extSeekAux at h
    split at h
    · split at h
      · split at h
        · exact ih (ef + 1) e h
        · cases h
      · cases h
        rfl
    · cases h

/-- The hairpin wrapper fails only with `runtimeError`. -/
theorem hairpinLoopEnergy_error (fc : foldCompound) (f t : ℕ) (e : MfeError)
    (h : hairpinLoopEnergy fc f t = .error e) : e = .runtimeError := by
  unfold hairpinLoopEnergy at h
  rw [exceptBind_err_iff] at h
  rcases h with h | ⟨a1, _, h⟩
  · exact encodedBasePairType_error fc _ _ e h
  · rw [exceptBind_err_iff] at h
    rcases h with h | ⟨a2, _, h⟩
    · exact encAt_error fc _ e h
    · rw [exceptBind_err_iff] at h
      rcases h with h | ⟨a3, _, h⟩
      · exact encAt_error fc _ e h
      · by_cases h0 : f = 0
        · rw [if_pos h0] at h
          cases h
          rfl
        · rw [if_neg h0] at h
          cases h

/-- The degree-2 loop wrapper fails only with `runtimeError`. -/
theorem stackBulgeInteriorLoopEnergy_error (fc : foldCompound) (cf ct ef et : ℕ)
    (e : MfeError) (h : stackBulgeInteriorLoopEnergy fc cf ct ef et = .error e) :
    e = .runtimeError := by
  unfold stackBulgeInteriorLoopEnergy at h
  rw [exceptBind_err_iff] at h
  rcases h with h | ⟨a1, _, h⟩
  · exact encodedBasePairType_error fc _ _ e h
  · rw [exceptBind_err_iff] at h
    rcases h with h | ⟨a2, _, h⟩
    · exact encodedBasePairType_error fc _ _ e h
    · rw [exceptBind_err_iff] at h
      rcases h with h | ⟨a3, _, h⟩
      · exact encAt_error fc _ e h
      · rw [exceptBind_err_iff] at h
        rcases h with h | ⟨a4, _, h⟩
        · exact encAt_error fc _ e h
        · rw [exceptBind_err_iff] at h
          rcases h with h | ⟨a5, _, h⟩
          · exact encAt_error fc _ e h
          · rw [exceptBind_err_iff] at h
            rcases h with h | ⟨a6, _, h⟩
            · exact encAt_error fc _ e h
            · cases h

/-- The exterior stem iteration fails only with `runtimeError` or fuel
exhaustion. -/
theorem exteriorLoopEnergyGo_error (fc : foldCompound) :
    ∀ (k pf : ℕ) (e : MfeError), exteriorLoopEnergyGo fc k pf = .error e →
      e = .runtimeError ∨ e = .outOfFuel := by
  intro k
  induction k with
  | zero =>
    intro pf e h
    right
    exact (Except.error.inj h).symm
  | succ k ih =>
    intro pf e h
    unfold exteriorLoopEnergyGo at h
    split at h
    · rw [exceptBind_err_iff] at h
      rcases h with h | ⟨ptpZ, _, h⟩
      · exact Or.inl (ptAt_error fc _ e h)
      · rw [exceptBind_err_iff] at h
        rcases h with h | ⟨bpt, _, h⟩
        · exact Or.inl (encodedBasePairType_error fc _ _ e h)
        · dsimp only at h
          have hrest : ∀ m5 m3 : ℤ,
              (if ptpZ < 0 then (Except.error MfeError.runtimeError : Except MfeError ℤ)
               else do
                 let pf2 ← extSeek fc (ptpZ.toNat + 1)
                 let rest ← exteriorLoopEnergyGo fc k pf2
                 pure (exteriorStemEnergy bpt m5 m3 fc.energyParams + rest)) = .error e →
              e = .runtimeError ∨ e = .outOfFuel := by
            intro m5 m3 hh
            by_cases hneg : ptpZ < 0
            · rw [if_pos hneg] at hh
              exact Or.inl (Except.error.inj hh).symm
            · rw [if_neg hneg] at hh
              rw [exceptBind_err_iff] at hh
              rcases hh with hh | ⟨pf2, _, hh⟩
              · exact Or.inl (extSeekAux_error fc _ _ e hh)
              · rw [exceptBind_err_iff] at hh
                rcases hh with hh | ⟨rest, _, hh⟩
                · exact ih pf2 e hh
                · cases hh
          by_cases hp5 : pf > 0
          · rw [if_pos hp5] at h
            rw [exceptBind_err_iff] at h
            rcases h with h | ⟨m5, _, h⟩
            · exact Or.inl (encAt_error fc _ e (by
                have h2 := exceptMap_error _ _ e h
                rw [exceptBind_err_iff] at h2
                rcases h2 with h2 | ⟨a, _, h2⟩
                · exact h2
                · cases h2))
            · by_cases hp3 : ptpZ < (fc.length : ℤ) - 1
              · rw [if_pos hp3] at h
                rw [exceptBind_err_iff] at h
                rcases h with h | ⟨m3, _, h⟩
                · exact Or.inl (encAt_error fc _ e (by
                    have h2 := exceptMap_error _ _ e h
                    rw [exceptBind_err_iff] at h2
                    rcases h2 with h2 | ⟨a, _, h2⟩
                    · exact h2
                    · cases h2))
                · exact hrest m5 m3 h
              · rw [if_neg hp3] at h
                exact hrest m5 (-1) h
          · rw [if_neg hp5] at h
            have h' : (if ptpZ < (fc.length : ℤ) - 1 then
                (do
                  let y ← Except.map (fun x => x) (do
                    let a ← fc.encAt (ptpZ + 1)
                    pure ((a : ℤ)))
                  (if ptpZ < 0 then (Except.error MfeError.runtimeError : Except MfeError ℤ)
                   else do
                     let pf2 ← extSeek fc (ptpZ.toNat + 1)
                     let rest ← exteriorLoopEnergyGo fc k pf2
                     pure (exteriorStemEnergy bpt (-1) y fc.energyParams + rest)))
              else
                (if ptpZ < 0 then (Except.error MfeError.runtimeError : Except MfeError ℤ)
                 else do
                   let pf2 ← extSeek fc (ptpZ.toNat + 1)
                   let rest ← exteriorLoopEnergyGo fc k pf2
                   pure (exteriorStemEnergy bpt (-1) (-1) fc.energyParams + rest))) =
              .error e := h
            by_cases hp3 : ptpZ < (fc.length : ℤ) - 1
            · rw [if_pos hp3] at h'
              rw [exceptBind_err_iff] at h'
              rcases h' with h' | ⟨m3, _, h'⟩
              · exact Or.inl (encAt_error fc _ e (by
                  have h2 := exceptMap_error _ _ e h'
                  rw [exceptBind_err_iff] at h2
                  rcases h2 with h2 | ⟨a, _, h2⟩
                  · exact h2
                  · cases h2))
              · exact hrest (-1) m3 h'
            · rw [if_neg hp3] at h'
              exact hrest (-1) (-1) h'
    · cases h

/-- The exterior-loop evaluation fails only with `runtimeError` or fuel
exhaustion. -/
theorem exteriorLoopEnergy_error (fc : foldCompound) (e : MfeError)
    (h : exteriorLoopEnergy fc = .error e) : e = .runtimeError ∨ e = .outOfFuel := by
  unfold exteriorLoopEnergy at h
  rw [exceptBind_err_iff] at h
  rcases h with h | ⟨pf0, _, h⟩
  · exact Or.inl (extSeekAux_error fc _ _ e h)
  · rw [exceptBind_err_iff] at h
    rcases h with h | ⟨en, _, h⟩
    · exact exteriorLoopEnergyGo_error fc _ _ e h
    · cases h

/-- `pairTable` fails only with `malformedStructure`. -/
theorem pairTable_error (struc : List Char) (e : MfeError)
    (h : pairTable struc = .error e) : e = .malformedStructure := by
  unfold pairTable at h
  cases haux : pairTableAux struc 0 (fun _ => 0) [] with
  | ok t =>
    rw [haux] at h
    cases h
  | error e2 =>
    rw [haux] at h
    have h2 : (Except.error e2 : Except MfeError (List ℤ)) = Except.error e := h
    rw [← Except.error.inj h2]
    exact pairTableAux_error_eq struc 0 (fun _ => 0) [] e2 haux

/-- A mutually recorded pair whose base-pair code (in both orientations) is
zero: the configuration the invalid-pair policy rejects. -/
def zeroCodePartner (fc : foldCompound) (f t : ℕ) : Prop :=
  f < fc.pairTable.length ∧ t < fc.pairTable.length ∧
  fc.pairTable.getD f 0 = (t : ℤ) ∧ fc.pairTable.getD t 0 = (f : ℤ) ∧
  basePairEncodedType (fc.sequence.getD f ' ') (fc.sequence.getD t ' ') = 0 ∧
  basePairEncodedType (fc.sequence.getD t ' ') (fc.sequence.getD f ' ') = 0

/-- Entry form of the forward-seek characterization. -/
theorem seekPairedForward_ok (pt : List ℤ) (i j : ℕ)
    (h : seekPairedForward pt i = .ok j) :
    i ≤ j ∧ j < pt.length ∧ pt.getD j 0 ≠ -1 ∧
    ∀ m, i ≤ m → m < j → pt.getD m 0 = -1 :=
  seekPairedForwardAux_ok pt (pt.length - i) i j h

/-- The forward seek fails only with `runtimeError`. -/
theorem seekPairedForward_error (pt : List ℤ) (i : ℕ) (e : MfeError)
    (h : seekPairedForward pt i = .error e) : e = .runtimeError :=
  seekPairedForwardAux_error pt (pt.length - i) i e h

/-- Entry form of the backward-seek characterization. -/
theorem seekPairedBackward_ok (pt : List ℤ) (i j : ℕ)
    (h : seekPairedBackward pt i = .ok j) :
    j ≤ i ∧ j < pt.length ∧ pt.getD j 0 ≠ -1 ∧
    ∀ m, j < m → m ≤ i → pt.getD m 0 = -1 :=
  seekPairedBackwardAux_ok pt (i + 1) i j h

/-- The backward seek fails only with `runtimeError`. -/
theorem seekPairedBackward_error (pt : List ℤ) (i : ℕ) (e : MfeError)
    (h : seekPairedBackward pt i = .error e) : e = .runtimeError :=
  seekPairedBackwardAux_error pt (i + 1) i e h

/-- Characterization of the enclosed 3' seek: the result is the last paired
position strictly below the closing 3' index. -/
theorem seekEnclosedThree_ok (pt : List ℤ) (ct j : ℕ)
    (h : seekEnclosedThree pt ct = .ok j) :
    ct ≠ 0 ∧ j ≤ ct - 1 ∧ j < pt.length ∧ pt.getD j 0 ≠ -1 ∧
    ∀ m, j < m → m ≤ ct - 1 → pt.getD m 0 = -1 := by
  unfold seekEnclosedThree at h
  by_cases h0 : ct = 0
  · rw [if_pos h0] at h
    cases h
  · rw [if_neg h0] at h
    obtain ⟨h1, h2, h3, h4⟩ := seekPairedBackward_ok pt (ct - 1) j h
    exact ⟨h0, h1, h2, h3, h4⟩

/-- The enclosed 3' seek fails only with `runtimeError`. -/
theorem seekEnclosedThree_error (pt : List ℤ) (ct : ℕ) (e : MfeError)
    (h : seekEnclosedThree pt ct = .error e) : e = .runtimeError := by
  unfold seekEnclosedThree at h
  by_cases h0 : ct = 0
  · rw [if_pos h0] at h
    cases h
    rfl
  · rw [if_neg h0] at h
    exact seekPairedBackward_error pt (ct - 1) e h

/-- The guarded stem seek fails only with `runtimeError` (entry form). -/
theorem seekStem_error (pt : List ℤ) (bound : ℕ) (strict : Bool) (ef : ℕ) (e : MfeError)
    (h : seekStem pt bound strict ef = .error e) : e = .runtimeError :=
  seekStemAux_error pt bound strict (bound + 1 - ef) ef e h

/-- An invalid-pair failure of the multi-loop stem iteration names a mutual
zero-code pair (soundness, relative to the stem evaluator). -/
theorem multiLoopLoop_ip (stackE : StemEval) (fc : foldCompound) (ct : ℕ)
    (hIH : ∀ cf f t, cf < fc.pairTable.length → fc.pairTable.getD cf 0 ≠ -1 →
      stackE fc cf = .error (.invalidPair f t) → zeroCodePartner fc f t) :
    ∀ (k ef f t : ℕ),
      (ef < ct → ef < fc.pairTable.length ∧ fc.pairTable.getD ef 0 ≠ -1) →
      multiLoopLoop stackE fc ct k ef = .error (.invalidPair f t) →
      zeroCodePartner fc f t := by
  intro k
  induction k with
  | zero =>
    intro ef f t hef h
    cases h
  | succ k ih =>
    intro ef f t hef h
    unfold multiLoopLoop at h
    by_cases hcond : ef < ct
    · rw [if_pos hcond] at h
      rw [exceptBind_err_iff] at h
      rcases h with h | ⟨⟨subEn, subCs⟩, hsub, h⟩
      · exact hIH ef f t (hef hcond).1 (hef hcond).2 h
      · rw [exceptBind_err_iff] at h
        rcases h with h | ⟨etZ, hetZ, h⟩
        · cases ptAt_error fc _ _ h
        · rw [exceptBind_err_iff] at h
          rcases h with h | ⟨bpt, _, h⟩
          · cases encodedBasePairType_error fc _ _ _ h
          · rw [exceptBind_err_iff] at h
            rcases h with h | ⟨m5, _, h⟩
            · cases encAt_error fc _ _ h
            · rw [exceptBind_err_iff] at h
              rcases h with h | ⟨m3, _, h⟩
              · cases encAt_error fc _ _ h
              · rw [exceptBind_err_iff] at h
                rcases h with h | ⟨ef2, hseek, h⟩
                · cases seekStem_error _ _ _ _ _ h
                · rw [exceptBind_err_iff] at h
                  rcases h with h | ⟨⟨sa, sb, sc, sd⟩, hrec, h⟩
                  · refine ih ef2 f t ?_ h
                    intro h2
                    obtain ⟨hs1, hs2, hs3⟩ := seekStem_ok fc.pairTable ct true _ ef2 hseek
                    exact hs3 (by rw [if_pos rfl]; exact h2)
                  · cases h
    · rw [if_neg hcond] at h
      cases h

/-- An invalid-pair failure of the multi-loop evaluation names a mutual
zero-code pair (soundness, relative to the stem evaluator). -/
theorem multiLoopEnergyGo_ip (stackE : StemEval) (fc : foldCompound)
    (hIH : ∀ cf f t, cf < fc.pairTable.length → fc.pairTable.getD cf 0 ≠ -1 →
      stackE fc cf = .error (.invalidPair f t) → zeroCodePartner fc f t)
    (cf f t : ℕ) (h : multiLoopEnergyGo stackE fc cf = .error (.invalidPair f t)) :
    zeroCodePartner fc f t := by
  unfold multiLoopEnergyGo at h
  rw [exceptBind_err_iff] at h
  rcases h with h | ⟨ctZ, hctZ, h⟩
  · cases ptAt_error fc _ _ h
  · by_cases hguard : (cf : ℤ) ≥ ctZ
    · rw [if_pos hguard] at h
      cases h
    · rw [if_neg hguard] at h
      rw [exceptBind_err_iff] at h
      rcases h with h | ⟨bpt, _, h⟩
      · cases encodedBasePairType_error fc _ _ _ h
      · rw [exceptBind_err_iff] at h
        rcases h with h | ⟨m5, _, h⟩
        · cases encAt_error fc _ _ h
        · rw [exceptBind_err_iff] at h
          rcases h with h | ⟨m3, _, h⟩
          · cases encAt_error fc _ _ h
          · rw [exceptBind_err_iff] at h
            rcases h with h | ⟨ef1, hseek, h⟩
            · cases seekStem_error _ _ _ _ _ h
            · rw [exceptBind_err_iff] at h
              rcases h with h | ⟨⟨sa, sb, sc, sd⟩, hloop, h⟩
              · refine multiLoopLoop_ip stackE fc ctZ.toNat hIH _ ef1 f t ?_ h
                intro h2
                obtain ⟨hs1, hs2, hs3⟩ := seekStem_ok fc.pairTable ctZ.toNat false _ ef1 hseek
                exact hs3 (by rw [if_neg (by decide : ¬ false = true)]; omega)
              · cases h

/-- An invalid-pair failure of the descent's terminal step names a mutual
zero-code pair. -/
theorem stackAfterLoop_ip (stackE : StemEval) (fc : foldCompound)
    (hIH : ∀ cf f t, cf < fc.pairTable.length → fc.pairTable.getD cf 0 ≠ -1 →
      stackE fc cf = .error (.invalidPair f t) → zeroCodePartner fc f t)
    (cf ct ef et f t : ℕ)
    (h : stackAfterLoop stackE fc cf ct ef et = .error (.invalidPair f t)) :
    zeroCodePartner fc f t := by
  unfold stackAfterLoop at h
  by_cases hgt : ef > et
  · rw [if_pos hgt] at h
    rw [exceptBind_err_iff] at h
    rcases h with h | ⟨⟨en, c⟩, _, h⟩
    · cases hairpinLoopEnergy_error fc _ _ _ h
    · cases h
  · rw [if_neg hgt] at h
    exact multiLoopEnergyGo_ip stackE fc hIH cf f t h

/-- An invalid-pair failure of the descent loop names a mutual zero-code
pair. -/
theorem stackLoop_ip (stackE : StemEval) (fc : foldCompound)
    (hWF : TableWF fc.pairTable)
    (hIH : ∀ cf f t, cf < fc.pairTable.length → fc.pairTable.getD cf 0 ≠ -1 →
      stackE fc cf = .error (.invalidPair f t) → zeroCodePartner fc f t) :
    ∀ (k cf ct f t : ℕ), stackLoop stackE fc k cf ct = .error (.invalidPair f t) →
      zeroCodePartner fc f t := by
  intro k
  induction k with
  | zero =>
    intro cf ct f t h
    cases h
  | succ k ih =>
    intro cf ct f t h
    unfold stackLoop at h
    by_cases hcond : cf < ct
    · rw [if_pos hcond] at h
      rw [exceptBind_err_iff] at h
      rcases h with h | ⟨ef, hef, h⟩
      · cases seekPairedForward_error _ _ _ h
      · rw [exceptBind_err_iff] at h
        rcases h with h | ⟨et, het, h⟩
        · cases seekEnclosedThree_error _ _ _ h
        · by_cases hm : (fc.pairTable.getD et 0 ≠ (ef : ℤ) ∨ ef > et)
          · rw [if_pos hm] at h
            exact stackAfterLoop_ip stackE fc hIH cf ct ef et f t h
          · rw [if_neg hm] at h
            push_neg at hm
            rw [exceptBind_err_iff] at h
            rcases h with h | ⟨bpt, hbpt, h⟩
            · cases encodedBasePairType_error fc _ _ _ h
            · by_cases hz : bpt = 0
              · rw [if_pos hz] at h
                have hinj := Except.error.inj h
                cases hinj
                obtain ⟨he1, he2, he3, he4⟩ := seekPairedForward_ok _ _ _ hef
                obtain ⟨ht0, ht1, ht2, ht3, ht4⟩ := seekEnclosedThree_ok _ _ _ het
                rcases hWF t ht2 with hmm | ⟨j, hj1, hj2, hj3, hj4⟩
                · rw [hm.1] at hmm
                  omega
                · have hj : f = j := by
                    rw [hm.1] at hj3
                    exact Nat.cast_inj.mp hj3
                  subst hj
                  obtain ⟨hc1, hc2, hc3, hc4, hc5⟩ :=
                    encodedBasePairType_ok fc t f 0 (hz ▸ hbpt)
                  simp only [Int.toNat_natCast] at hc5
                  refine ⟨he2, ht2, hj4, hm.1, ?_, hc5⟩
                  exact basePairEncodedType_zero_symm _ _ hc5
              · rw [if_neg hz] at h
                rw [exceptBind_err_iff] at h
                rcases h with h | ⟨⟨en, c⟩, _, h⟩
                · cases stackBulgeInteriorLoopEnergy_error fc _ _ _ _ _ h
                · rw [exceptBind_err_iff] at h
                  rcases h with h | ⟨⟨enR, csR⟩, _, h⟩
                  · exact ih ef et f t h
                  · cases h
    · rw [if_neg hcond] at h
      exact stackAfterLoop_ip stackE fc hIH cf ct cf ct f t h

/-- An invalid-pair failure of `stackEnergy` at a paired position names a
mutual zero-code pair. -/
theorem stackEnergy_ip (fc : foldCompound) (hWF : TableWF fc.pairTable) :
    ∀ (fuel cf f t : ℕ), cf < fc.pairTable.length → fc.pairTable.getD cf 0 ≠ -1 →
      stackEnergy fuel fc cf = .error (.invalidPair f t) → zeroCodePartner fc f t := by
  intro fuel
  induction fuel with
  | zero =>
    intro cf f t _ _ h
    cases h
  | succ fuel ih =>
    intro cf f t hcf hcfp h
    unfold stackEnergy at h
    rw [exceptBind_err_iff] at h
    rcases h with h | ⟨ctZ, hctZ, h⟩
    · cases ptAt_error fc _ _ h
    · rw [exceptBind_err_iff] at h
      rcases h with h | ⟨bpt, hbpt, h⟩
      · cases encodedBasePairType_error fc _ _ _ h
      · obtain ⟨hz1, hz2, hz3⟩ := ptAt_ok fc _ _ hctZ
        rw [Int.toNat_natCast] at hz2 hz3
        by_cases hz : bpt = 0
        · rw [if_pos hz] at h
          have hinj := Except.error.inj h
          cases hinj
          rcases hWF cf hcf with hmm | ⟨j, hj1, hj2, hj3, hj4⟩
          · exact absurd hmm hcfp
          · have hctj : ctZ = (j : ℤ) := by
              rw [← hz3]
              exact hj3
            have hctn : ctZ.toNat = j := by
              rw [hctj, Int.toNat_natCast]
            obtain ⟨hc1, hc2, hc3, hc4, hc5⟩ :=
              encodedBasePairType_ok fc cf ctZ 0 (hz ▸ hbpt)
            rw [Int.toNat_natCast] at hc5
            rw [hctn] at hc5 ⊢
            refine ⟨hcf, hj1, hj3, hj4, hc5, ?_⟩
            exact basePairEncodedType_zero_symm _ _ hc5
        · rw [if_neg hz] at h
          exact stackLoop_ip (fun fc' cf' => stackEnergy fuel fc' cf') fc hWF
            (fun cf' f' t' hc1 hc2 hh => ih cf' f' t' hc1 hc2 hh)
            (fc.pairTable.length + 2) cf ctZ.toNat f t h

/-- An invalid-pair failure of the top-level scan names a mutual zero-code
pair. -/
theorem evaluateTopLoop_ip (fc : foldCompound) (hWF : TableWF fc.pairTable) :
    ∀ (k i f t : ℕ), evaluateTopLoop fc k i = .error (.invalidPair f t) →
      zeroCodePartner fc f t := by
  intro k
  induction k with
  | zero =>
    intro i f t h
    cases h
  | succ k ih =>
    intro i f t h
    unfold evaluateTopLoop at h
    split at h
    · rw [exceptBind_err_iff] at h
      rcases h with h | ⟨pti, hpti, h⟩
      · cases ptAt_error fc _ _ h
      · split at h
        · exact ih (i + 1) f t h
        · rename_i hne
          rw [exceptBind_err_iff] at h
          rcases h with h | ⟨⟨en, cs⟩, hse, h⟩
          · obtain ⟨hp1, hp2, hp3⟩ := ptAt_ok fc _ _ hpti
            rw [Int.toNat_natCast] at hp2 hp3
            refine stackEnergy_ip fc hWF (fc.length + 2) i f t hp2 ?_ h
            rw [hp3]
            exact hne
          · dsimp only at h
            by_cases hneg : pti < 0
            · rw [if_pos hneg] at h
              cases h
            · rw [if_neg hneg] at h
              rw [exceptBind_err_iff] at h
              rcases h with h | ⟨⟨enR, csR⟩, _, h⟩
              · exact ih (pti.toNat + 1) f t h
              · cases h
    · cases h

/-- An invalid-pair failure of the full evaluation names a mutual zero-code
pair (soundness). -/
theorem evaluateFoldCompound_ip (fc : foldCompound) (hWF : TableWF fc.pairTable)
    (f t : ℕ) (h : evaluateFoldCompound fc = .error (.invalidPair f t)) :
    zeroCodePartner fc f t := by
  unfold evaluateFoldCompound at h
  rw [exceptBind_err_iff] at h
  rcases h with h | ⟨⟨extEn, extC⟩, _, h⟩
  · rcases exteriorLoopEnergy_error fc _ h with h2 | h2 <;> cases h2
  · rw [exceptBind_err_iff] at h
    rcases h with h | ⟨⟨en, cs⟩, _, h⟩
    · exact evaluateTopLoop_ip fc hWF (fc.length + 1) 0 f t h
    · cases h

/-- A mutual partner link with the opening side at the smaller index. -/
def pairIn (P : List ℤ) (f t : ℕ) : Prop :=
  f < t ∧ t < P.length ∧ P.getD f 0 = (t : ℤ) ∧ P.getD t 0 = (f : ℤ)

/-- All pairs starting at or after `lo` and ending at or before `hi` carry a
nonzero base-pair code. -/
def Covers (fc : foldCompound) (lo hi : ℕ) : Prop :=
  ∀ f t, pairIn fc.pairTable f t → lo ≤ f → t ≤ hi →
    basePairEncodedType (fc.sequence.getD f ' ') (fc.sequence.getD t ' ') ≠ 0

/-- A successful multi-loop stem iteration code-checks every pair between the
current iterator and the closing 3' index (completeness, relative to the stem
evaluator). -/
theorem multiLoopLoop_cover (stackE : StemEval) (fc : foldCompound)
    (hWF : TableWF fc.pairTable) (hNest : TableNested fc.pairTable)
    (hIH : ∀ cf r, cf < fc.pairTable.length → fc.pairTable.getD cf 0 ≠ -1 →
      stackE fc cf = .ok r → Covers fc cf (fc.pairTable.getD cf 0).toNat)
    (cf ct : ℕ) (hclose : pairIn fc.pairTable cf ct) :
    ∀ (k ef : ℕ) (r : ℤ × ℤ × ℕ × List EnergyContribution), cf < ef →
      (∀ m, cf < m → m < ef → fc.pairTable.getD m 0 ≠ -1 →
        ∃ j : ℕ, fc.pairTable.getD m 0 = (j : ℤ) ∧ j < ef) →
      (ef < ct → ef < fc.pairTable.length ∧ fc.pairTable.getD ef 0 ≠ -1) →
      multiLoopLoop stackE fc ct k ef = .ok r →
      ∀ f t, pairIn fc.pairTable f t → ef ≤ f → t < ct →
        basePairEncodedType (fc.sequence.getD f ' ') (fc.sequence.getD t ' ') ≠ 0 := by
  intro k
  induction k with
  | zero =>
    intro ef r _ _ _ h
    cases h
  | succ k ih =>
    intro ef r hgt hleft hpaired h
    by_cases hcond : ef < ct
    · unfold multiLoopLoop at h
      rw [if_pos hcond] at h
      rw [exceptBind_ok_iff] at h
      obtain ⟨⟨subEn, subCs⟩, hsub, h⟩ := h
      rw [exceptBind_ok_iff] at h
      obtain ⟨etZ, hetZ, h⟩ := h
      rw [exceptBind_ok_iff] at h
      obtain ⟨bpt, _, h⟩ := h
      rw [exceptBind_ok_iff] at h
      obtain ⟨m5, _, h⟩ := h
      rw [exceptBind_ok_iff] at h
      obtain ⟨m3, _, h⟩ := h
      rw [exceptBind_ok_iff] at h
      obtain ⟨ef2, hseek, h⟩ := h
      rw [exceptBind_ok_iff] at h
      obtain ⟨⟨sa, sb, sc, sd⟩, hrec, h⟩ := h
      obtain ⟨hef_len, hef_p⟩ := hpaired hcond
      obtain ⟨hz1, hz2, hz3⟩ := ptAt_ok fc _ _ hetZ
      rw [Int.toNat_natCast] at hz2 hz3
      rcases hWF ef hef_len with hmm | ⟨q, hq1, hq2, hq3, hq4⟩
      · exact absurd hmm hef_p
      · have hetq : etZ = (q : ℤ) := by
          rw [← hz3]
          exact hq3
        have hetn : etZ.toNat = q := by
          rw [hetq, Int.toNat_natCast]
        have hor : ef < q := by
          rcases Nat.lt_or_ge ef q with hlt | hge
          · exact hlt
          · exfalso
            have hqe : q < ef := by omega
            rcases Nat.lt_trichotomy q cf with hqc | hqc | hqc
            · have := hNest q ef cf ct hqe hef_len hq4
                hclose.1 hclose.2.1 hclose.2.2.1 hqc hgt
              omega
            · rw [hqc] at hq4
              rw [hclose.2.2.1] at hq4
              have : ct = ef := Nat.cast_inj.mp hq4
              omega
            · obtain ⟨j2, hj2a, hj2b⟩ := hleft q hqc hqe
                (by rw [hq4]; exact (by omega : ((ef : ℕ) : ℤ) ≠ -1))
              rw [hq4] at hj2a
              have : ef = j2 := Nat.cast_inj.mp hj2a
              omega
        have hstem := hIH ef (subEn, subCs) hef_len hef_p hsub
        rw [hq3, Int.toNat_natCast] at hstem
        rw [hetn] at hseek
        obtain ⟨hs1, hs2, hs3⟩ := seekStem_ok fc.pairTable ct true _ ef2 hseek
        have hpairq : pairIn fc.pairTable ef q := ⟨hor, hq1, hq3, hq4⟩
        have hgt2 : cf < ef2 := by omega
        have hleft2 : ∀ m, cf < m → m < ef2 → fc.pairTable.getD m 0 ≠ -1 →
            ∃ j : ℕ, fc.pairTable.getD m 0 = (j : ℤ) ∧ j < ef2 := by
          intro m hm1 hm2 hmp
          rcases Nat.lt_trichotomy m ef with hme | hme | hme
          · obtain ⟨j, hja, hjb⟩ := hleft m hm1 hme hmp
            exact ⟨j, hja, by omega⟩
          · rw [hme]
            exact ⟨q, hq3, by omega⟩
          · rcases Nat.lt_or_ge m (q + 1) with hmq | hmq
            · by_cases hmq2 : m = q
              · rw [hmq2]
                exact ⟨ef, hq4, by omega⟩
              · have hmq3 : m < q := by omega
                rcases hWF m (by omega) with hmm2 | ⟨j, hja, hjb, hjc, hjd⟩
                · exact absurd hmm2 hmp
                · rcases Nat.lt_trichotomy j m with hjm | hjm | hjm
                  · exact ⟨j, hjc, by omega⟩
                  · omega
                  · have : j < q := hNest ef q m j hor hq1 hq3 hjm
                      hja hjc hme hmq3
                    exact ⟨j, hjc, by omega⟩
            · have hun := hs2 m hmq hm2
              exact absurd hun hmp
        have hpaired2 : ef2 < ct → ef2 < fc.pairTable.length ∧
            fc.pairTable.getD ef2 0 ≠ -1 := by
          intro h2
          exact hs3 (by rw [if_pos rfl]; exact h2)
        have hcov2 := ih ef2 (sa, sb, sc, sd) hgt2 hleft2 hpaired2 hrec
        intro f t hft hf ht
        rcases Nat.lt_or_ge f ef2 with hfe | hfe
        · rcases Nat.eq_or_lt_of_le hf with hfeq | hflt
          · have htq : t = q := by
              have := hft.2.2.1
              rw [← hfeq] at this
              rw [hq3] at this
              exact Nat.cast_inj.mp this.symm
            exact hstem f t hft hf (by omega)
          · rcases Nat.lt_or_ge q f with hqf | hqf
            · have hun := hs2 f (by omega) hfe
              rw [hft.2.2.1] at hun
              have := hft.1
              omega
            · have hfq : f < q := by
                by_cases hfq2 : f = q
                · exfalso
                  have := hft.2.2.1
                  rw [hfq2, hq4] at this
                  have : ef = t := Nat.cast_inj.mp this
                  have := hft.1
                  omega
                · omega
              have htq : t < q := hNest ef q f t hor hq1 hq3 hft.1
                hft.2.1 hft.2.2.1 hflt hfq
              exact hstem f t hft (by omega) (by omega)
        · exact hcov2 f t hft hfe ht
    · intro f t hft hf ht
      have := hft.1
      omega

/-- A successful multi-loop evaluation code-checks every pair strictly inside
the closing pair (completeness, relative to the stem evaluator). -/
theorem multiLoopEnergyGo_cover (stackE : StemEval) (fc : foldCompound)
    (hWF : TableWF fc.pairTable) (hNest : TableNested fc.pairTable)
    (hIH : ∀ cf r, cf < fc.pairTable.length → fc.pairTable.getD cf 0 ≠ -1 →
      stackE fc cf = .ok r → Covers fc cf (fc.pairTable.getD cf 0).toNat)
    (cf : ℕ) (r : ℤ × List EnergyContribution)
    (hcf_len : cf < fc.pairTable.length)
    (h : multiLoopEnergyGo stackE fc cf = .ok r) :
    ∀ f t, pairIn fc.pairTable f t → cf < f → t < (fc.pairTable.getD cf 0).toNat →
      basePairEncodedType (fc.sequence.getD f ' ') (fc.sequence.getD t ' ') ≠ 0 := by
  unfold multiLoopEnergyGo at h
  rw [exceptBind_ok_iff] at h
  obtain ⟨ctZ, hctZ, h⟩ := h
  obtain ⟨hz1, hz2, hz3⟩ := ptAt_ok fc _ _ hctZ
  rw [Int.toNat_natCast] at hz2 hz3
  by_cases hguard : (cf : ℤ) ≥ ctZ
  · rw [if_pos hguard] at h
    cases h
  · rw [if_neg hguard] at h
    rw [exceptBind_ok_iff] at h
    obtain ⟨bpt, _, h⟩ := h
    rw [exceptBind_ok_iff] at h
    obtain ⟨m5, _, h⟩ := h
    rw [exceptBind_ok_iff] at h
    obtain ⟨m3, _, h⟩ := h
    rw [exceptBind_ok_iff] at h
    obtain ⟨ef1, hseek, h⟩ := h
    rw [exceptBind_ok_iff] at h
    obtain ⟨⟨sa, sb, sc, sd⟩, hloop, h⟩ := h
    rcases hWF cf hcf_len with hmm | ⟨q, hq1, hq2, hq3, hq4⟩
    · rw [hmm] at hz3
      rw [← hz3] at hguard
      omega
    · have hctq : ctZ = (q : ℤ) := by
        rw [← hz3]
        exact hq3
      have hcfq : cf < q := by
        rw [hctq] at hguard
        omega
      have hctn : ctZ.toNat = q := by
        rw [hctq, Int.toNat_natCast]
      have hclose : pairIn fc.pairTable cf q := ⟨hcfq, hq1, hq3, hq4⟩
      rw [hctn] at hseek hloop
      obtain ⟨hs1, hs2, hs3⟩ := seekStem_ok fc.pairTable q false _ ef1 hseek
      have hcov := multiLoopLoop_cover stackE fc hWF hNest hIH cf q hclose
        (q + 1) ef1 (sa, sb, sc, sd) (by omega) ?hleft ?hpaired hloop
      case hleft =>
        intro m hm1 hm2 hmp
        have hun := hs2 m (by omega) hm2
        exact absurd hun hmp
      case hpaired =>
        intro h2
        exact hs3 (by rw [if_neg (by decide : ¬ false = true)]; omega)
      intro f t hft hf ht
      rw [hq3, Int.toNat_natCast] at ht
      rcases Nat.lt_or_ge f ef1 with hfe | hfe
      · have hun := hs2 f (by omega) hfe
        rw [hft.2.2.1] at hun
        have := hft.1
        omega
      · exact hcov f t hft hfe ht

/-- A successful descent loop code-checks every pair strictly inside the
current closing pair. -/
theorem stackLoop_cover (stackE : StemEval) (fc : foldCompound)
    (hWF : TableWF fc.pairTable) (hNest : TableNested fc.pairTable)
    (hIH : ∀ cf r, cf < fc.pairTable.length → fc.pairTable.getD cf 0 ≠ -1 →
      stackE fc cf = .ok r → Covers fc cf (fc.pairTable.getD cf 0).toNat) :
    ∀ (k cf ct : ℕ) (r : ℤ × List EnergyContribution),
      pairIn fc.pairTable cf ct →
      stackLoop stackE fc k cf ct = .ok r →
      ∀ f t, pairIn fc.pairTable f t → cf < f → t < ct →
        basePairEncodedType (fc.sequence.getD f ' ') (fc.sequence.getD t ' ') ≠ 0 := by
  intro k
  induction k with
  | zero =>
    intro cf ct r _ h
    cases h
  | succ k ih =>
    intro cf ct r hclose h
    unfold stackLoop at h
    rw [if_pos hclose.1] at h
    rw [exceptBind_ok_iff] at h
    obtain ⟨ef, hef, h⟩ := h
    rw [exceptBind_ok_iff] at h
    obtain ⟨et, het, h⟩ := h
    obtain ⟨he1, he2, he3, he4⟩ := seekPairedForward_ok _ _ _ hef
    obtain ⟨ht0, ht1, ht2, ht3, ht4⟩ := seekEnclosedThree_ok _ _ _ het
    by_cases hm : (fc.pairTable.getD et 0 ≠ (ef : ℤ) ∨ ef > et)
    · rw [if_pos hm] at h
      unfold stackAfterLoop at h
      by_cases hgt : ef > et
      · intro f t hft hf ht
        exfalso
        have hfp : fc.pairTable.getD f 0 ≠ -1 := by
          rw [hft.2.2.1]
          omega
        have htp : fc.pairTable.getD t 0 ≠ -1 := by
          rw [hft.2.2.2]
          omega
        have hfef : ef ≤ f := by
          by_contra hc
          exact hfp (he4 f (by omega) (by omega))
        have htet : t ≤ et := by
          by_contra hc
          exact htp (ht4 t (by omega) (by omega))
        have := hft.1
        omega
      · rw [if_neg hgt] at h
        intro f t hft hf ht
        have hcov := multiLoopEnergyGo_cover stackE fc hWF hNest hIH cf r
          (by omega) h f t hft hf
        rw [hclose.2.2.1, Int.toNat_natCast] at hcov
        exact hcov ht
    · rw [if_neg hm] at h
      push_neg at hm
      rw [exceptBind_ok_iff] at h
      obtain ⟨bpt, hbpt, h⟩ := h
      by_cases hz : bpt = 0
      · rw [if_pos hz] at h
        cases h
      · rw [if_neg hz] at h
        rw [exceptBind_ok_iff] at h
        obtain ⟨⟨en, c⟩, _, h⟩ := h
        rw [exceptBind_ok_iff] at h
        obtain ⟨⟨enR, csR⟩, hrec, h⟩ := h
        rcases hWF et ht2 with hmm | ⟨j, hj1, hj2, hj3, hj4⟩
        · rw [hm.1] at hmm
          omega
        · have hj : ef = j := by
            rw [hm.1] at hj3
            exact Nat.cast_inj.mp hj3
          subst hj
          have hefet : ef < et := by omega
          have hpair2 : pairIn fc.pairTable ef et := ⟨hefet, ht2, hj4, hm.1⟩
          obtain ⟨hc1, hc2, hc3, hc4, hc5⟩ := encodedBasePairType_ok fc et ef bpt hbpt
          simp only [Int.toNat_natCast] at hc5
          have hcode : basePairEncodedType (fc.sequence.getD ef ' ')
              (fc.sequence.getD et ' ') ≠ 0 := by
            intro hzz
            exact hz (by rw [← hc5]; exact basePairEncodedType_zero_symm _ _ hzz)
          intro f t hft hf ht
          have hfp : fc.pairTable.getD f 0 ≠ -1 := by
            rw [hft.2.2.1]
            omega
          have htp : fc.pairTable.getD t 0 ≠ -1 := by
            rw [hft.2.2.2]
            omega
          have hfef : ef ≤ f := by
            by_contra hc
            exact hfp (he4 f (by omega) (by omega))
          have htet : t ≤ et := by
            by_contra hc
            exact htp (ht4 t (by omega) (by omega))
          rcases Nat.eq_or_lt_of_le hfef with hfeq | hflt
          · have htt : t = et := by
              have := hft.2.2.1
              rw [← hfeq, hj4] at this
              exact Nat.cast_inj.mp this.symm
            rw [← hfeq, htt]
            exact hcode
          · have htne : t ≠ et := by
              intro he
              have := hft.2.2.2
              rw [he, hm.1] at this
              have : ef = f := Nat.cast_inj.mp this
              omega
            exact ih ef et (enR, csR) hpair2 hrec f t hft hflt (by omega)

/-- A successful `stackEnergy` code-checks the closing pair and every pair it
encloses (completeness). -/
theorem stackEnergy_cover (fc : foldCompound)
    (hWF : TableWF fc.pairTable) (hNest : TableNested fc.pairTable) :
    ∀ (fuel cf : ℕ) (r : ℤ × List EnergyContribution),
      cf < fc.pairTable.length → fc.pairTable.getD cf 0 ≠ -1 →
      stackEnergy fuel fc cf = .ok r →
      Covers fc cf (fc.pairTable.getD cf 0).toNat := by
  intro fuel
  induction fuel with
  | zero =>
    intro cf r _ _ h
    cases h
  | succ fuel ih =>
    intro cf r hcf hcfp h
    unfold stackEnergy at h
    rw [exceptBind_ok_iff] at h
    obtain ⟨ctZ, hctZ, h⟩ := h
    rw [exceptBind_ok_iff] at h
    obtain ⟨bpt, hbpt, h⟩ := h
    obtain ⟨hz1, hz2, hz3⟩ := ptAt_ok fc _ _ hctZ
    rw [Int.toNat_natCast] at hz2 hz3
    by_cases hz : bpt = 0
    · rw [if_pos hz] at h
      cases h
    · rw [if_neg hz] at h
      rcases hWF cf hcf with hmm | ⟨q, hq1, hq2, hq3, hq4⟩
      · exact absurd hmm hcfp
      · have hctq : ctZ = (q : ℤ) := by
          rw [← hz3]
          exact hq3
        have hctn : ctZ.toNat = q := by
          rw [hctq, Int.toNat_natCast]
        rw [hctn] at h
        rw [hq3, Int.toNat_natCast]
        by_cases hor : cf < q
        · have hclose : pairIn fc.pairTable cf q := ⟨hor, hq1, hq3, hq4⟩
          obtain ⟨hc1, hc2, hc3, hc4, hc5⟩ := encodedBasePairType_ok fc cf ctZ bpt hbpt
          rw [Int.toNat_natCast] at hc5
          rw [hctn] at hc5
          intro f t hft hf ht
          rcases Nat.eq_or_lt_of_le hf with hfeq | hflt
          · have htt : t = q := by
              have := hft.2.2.1
              rw [← hfeq, hq3] at this
              exact Nat.cast_inj.mp this.symm
            rw [← hfeq, htt]
            rw [hc5]
            exact hz
          · have htne : t ≠ q := by
              intro he
              have := hft.2.2.2
              rw [he, hq4] at this
              have : cf = f := Nat.cast_inj.mp this
              omega
            exact stackLoop_cover (fun fc' cf' => stackEnergy fuel fc' cf') fc hWF hNest
              (fun cf' r' hc1' hc2' hh => ih cf' r' hc1' hc2' hh)
              (fc.pairTable.length + 2) cf q r hclose h f t hft hflt (by omega)
        · intro f t hft hf ht
          have := hft.1
          omega

/-- A successful top-level scan code-checks every pair starting at or after
the scan position. -/
theorem evaluateTopLoop_cover (fc : foldCompound)
    (hWF : TableWF fc.pairTable) (hNest : TableNested fc.pairTable)
    (hlen : fc.length = fc.pairTable.length) :
    ∀ (k i : ℕ) (r : ℤ × List EnergyContribution),
      (∀ m, m < i → fc.pairTable.getD m 0 ≠ -1 →
        ∃ j : ℕ, fc.pairTable.getD m 0 = (j : ℤ) ∧ j < i) →
      evaluateTopLoop fc k i = .ok r →
      ∀ f t, pairIn fc.pairTable f t → i ≤ f →
        basePairEncodedType (fc.sequence.getD f ' ') (fc.sequence.getD t ' ') ≠ 0 := by
  intro k
  induction k with
  | zero =>
    intro i r _ h
    cases h
  | succ k ih =>
    intro i r htop h
    unfold evaluateTopLoop at h
    split at h
    · rename_i hilen
      rw [exceptBind_ok_iff] at h
      obtain ⟨pti, hpti, h⟩ := h
      obtain ⟨hp1, hp2, hp3⟩ := ptAt_ok fc _ _ hpti
      rw [Int.toNat_natCast] at hp2 hp3
      split at h
      · rename_i hm1
        intro f t hft hf
        have hfne : f ≠ i := by
          intro he
          have h2 := hft.2.2.1
          rw [he, hp3, hm1] at h2
          have h3 := hft.1
          omega
        refine ih (i + 1) r ?_ h f t hft (by omega)
        intro m hm hmp
        rcases Nat.lt_or_ge m i with hmi | hmi
        · obtain ⟨j, hja, hjb⟩ := htop m hmi hmp
          exact ⟨j, hja, by omega⟩
        · have hmi2 : m = i := by omega
          rw [hmi2, hp3, hm1] at hmp
          exact absurd rfl hmp
      · rename_i hm1
        rw [exceptBind_ok_iff] at h
        obtain ⟨⟨en, cs⟩, hse, h⟩ := h
        dsimp only at h
        by_cases hneg : pti < 0
        · rw [if_pos hneg] at h
          cases h
        · rw [if_neg hneg] at h
          rw [exceptBind_ok_iff] at h
          obtain ⟨⟨enR, csR⟩, hrec, h⟩ := h
          have hip : fc.pairTable.getD i 0 ≠ -1 := by
            rw [hp3]
            exact hm1
          rcases hWF i hp2 with hmm | ⟨q, hq1, hq2, hq3, hq4⟩
          · exact absurd hmm hip
          · have hor : i < q := by
              rcases Nat.lt_trichotomy i q with hlt | heq | hgt2
              · exact hlt
              · omega
              · exfalso
                obtain ⟨j2, hj2a, hj2b⟩ := htop q hgt2 (by
                  rw [hq4]
                  exact (by omega : ((i : ℕ) : ℤ) ≠ -1))
                rw [hq4] at hj2a
                have : i = j2 := Nat.cast_inj.mp hj2a
                omega
            have hclose : pairIn fc.pairTable i q := ⟨hor, hq1, hq3, hq4⟩
            have hcov := stackEnergy_cover fc hWF hNest (fc.length + 2) i (en, cs)
              hp2 hip hse
            rw [hq3, Int.toNat_natCast] at hcov
            have hptn : pti.toNat = q := by
              have h5 : pti = (q : ℤ) := by
                rw [← hp3]
                exact hq3
              rw [h5, Int.toNat_natCast]
            rw [hptn] at hrec
            have htop2 : ∀ m, m < q + 1 → fc.pairTable.getD m 0 ≠ -1 →
                ∃ j : ℕ, fc.pairTable.getD m 0 = (j : ℤ) ∧ j < q + 1 := by
              intro m hm hmp
              rcases Nat.lt_or_ge m i with hmi | hmi
              · obtain ⟨j, hja, hjb⟩ := htop m hmi hmp
                exact ⟨j, hja, by omega⟩
              · rcases Nat.eq_or_lt_of_le hmi with hmi2 | hmi2
                · rw [← hmi2]
                  exact ⟨q, hq3, by omega⟩
                · by_cases hmq : m = q
                  · rw [hmq]
                    exact ⟨i, hq4, by omega⟩
                  · have hmq2 : m < q := by omega
                    rcases hWF m (by omega) with hmm2 | ⟨j, hja, hjb, hjc, hjd⟩
                    · exact absurd hmm2 hmp
                    · rcases Nat.lt_trichotomy j m with hjm | hjm | hjm
                      · exact ⟨j, hjc, by omega⟩
                      · omega
                      · have : j < q := hNest i q m j hor hq1 hq3 hjm
                          hja hjc hmi2 hmq2
                        exact ⟨j, hjc, by omega⟩
            have hrec_cover := ih (q + 1) (enR, csR) htop2 hrec
            intro f t hft hf
            rcases Nat.eq_or_lt_of_le hf with hfeq | hflt
            · have htt : t = q := by
                have h2 := hft.2.2.1
                rw [← hfeq, hq3] at h2
                exact Nat.cast_inj.mp h2.symm
              exact hcov f t hft hf (by omega)
            · rcases Nat.lt_or_ge q f with hqf | hqf
              · exact hrec_cover f t hft (by omega)
              · have hfq : f < q := by
                  by_cases hfq2 : f = q
                  · exfalso
                    have h2 := hft.2.2.1
                    rw [hfq2, hq4] at h2
                    have h3 : i = t := Nat.cast_inj.mp h2
                    have h4 := hft.1
                    omega
                  · omega
                have htq : t < q := hNest i q f t hor hq1 hq3 hft.1
                  hft.2.1 hft.2.2.1 hflt hfq
                exact hcov f t hft (by omega) (by omega)
    · rename_i hilen
      intro f t hft hf
      exfalso
      have h2 := hft.2.1
      have h3 := hft.1
      omega

/-- A successful full evaluation code-checks every pair of the table
(completeness). -/
theorem evaluateFoldCompound_cover (fc : foldCompound)
    (hWF : TableWF fc.pairTable) (hNest : TableNested fc.pairTable)
    (hlen : fc.length = fc.pairTable.length)
    (r : ℤ × List EnergyContribution) (h : evaluateFoldCompound fc = .ok r) :
    ∀ f t, pairIn fc.pairTable f t →
      basePairEncodedType (fc.sequence.getD f ' ') (fc.sequence.getD t ' ') ≠ 0 := by
  unfold evaluateFoldCompound at h
  rw [exceptBind_ok_iff] at h
  obtain ⟨⟨extEn, extC⟩, _, h⟩ := h
  rw [exceptBind_ok_iff] at h
  obtain ⟨⟨en, cs⟩, htop, h⟩ := h
  intro f t hft
  refine evaluateTopLoop_cover fc hWF hNest hlen (fc.length + 1) 0 (en, cs) ?_ htop
    f t hft (Nat.zero_le f)
  intro m hm hmp
  omega

/-- C4: the invalid-pair policy.  (a) Soundness: whenever `MinimumFreeEnergy`
fails with `InvalidPair(f, t)`, the structure's pair table really records `f`
and `t` as partners and the base-pair lookup code of the two sequence
characters (uppercased, in either orientation) is 0.  (b) Completeness:
whenever `MinimumFreeEnergy` succeeds, no pair recorded in the pair table has
base-pair code 0 — so an evaluation that encounters a zero-code pair can never
return an energy. -/
theorem claim_C4_invalid_pair_policy (sequence struc : String) (temperature : ℚ) :
    (∀ f t, MinimumFreeEnergy sequence struc temperature = .error (.invalidPair f t) →
      ∃ P, pairTable struc.data = .ok P ∧ f < P.length ∧ t < P.length ∧
        P.getD f 0 = (t : ℤ) ∧ P.getD t 0 = (f : ℤ) ∧
        basePairEncodedType ((sequence.data.map Char.toUpper).getD f ' ')
          ((sequence.data.map Char.toUpper).getD t ' ') = 0 ∧
        basePairEncodedType ((sequence.data.map Char.toUpper).getD t ' ')
          ((sequence.data.map Char.toUpper).getD f ' ') = 0) ∧
    (∀ r, MinimumFreeEnergy sequence struc temperature = .ok r →
      ∀ (P : List ℤ) (f t : ℕ), pairTable struc.data = .ok P → f < P.length →
        P.getD f 0 = (t : ℤ) →
        basePairEncodedType ((sequence.data.map Char.toUpper).getD f ' ')
          ((sequence.data.map Char.toUpper).getD t ' ') ≠ 0) := by
  constructor
  · intro f t h
    unfold MinimumFreeEnergy minimumFreeEnergyWith at h
    dsimp only at h
    split at h
    · cases h
    · split at h
      · cases h
      · rw [exceptBind_err_iff] at h
        rcases h with h | ⟨⟨⟩, hrna, h⟩
        · rcases ensureValidRNA_error _ _ h with h2 | h2 <;> cases h2
        · rw [exceptBind_err_iff] at h
          rcases h with h | ⟨⟨⟩, hstr, h⟩
          · rcases ensureValidStructure_error _ _ h with h2 | h2 <;> cases h2
          · rw [exceptBind_err_iff] at h
            rcases h with h | ⟨P, hP, h⟩
            · cases pairTable_error _ _ h
            · rw [exceptBind_err_iff] at h
              rcases h with h | ⟨⟨energyInt, cs⟩, heval, h⟩
              · have halpha := ensureValidStructure_ok struc.data hstr
                have hwf := (pairTable_partner struc.data P halpha hP).2
                obtain ⟨z1, z2, z3, z4, z5, z6⟩ :=
                  evaluateFoldCompound_ip _ hwf f t h
                exact ⟨P, hP, z1, z2, z3, z4, z5, z6⟩
              · cases h
  · intro r hok P f t hP hflen hPft
    unfold MinimumFreeEnergy minimumFreeEnergyWith at hok
    dsimp only at hok
    split at hok
    · cases hok
    · rename_i hlen1
      split at hok
      · cases hok
      · rw [exceptBind_ok_iff] at hok
        obtain ⟨⟨⟩, hrna, hok⟩ := hok
        rw [exceptBind_ok_iff] at hok
        obtain ⟨⟨⟩, hstr, hok⟩ := hok
        rw [exceptBind_ok_iff] at hok
        obtain ⟨P2, hP2, hok⟩ := hok
        rw [exceptBind_ok_iff] at hok
        obtain ⟨⟨energyInt, cs⟩, heval, hok⟩ := hok
        have hPP : P2 = P := by
          rw [hP] at hP2
          exact (Except.ok.inj hP2).symm
        subst hPP
        have halpha := ensureValidStructure_ok struc.data hstr
        obtain ⟨hPlen, hwf⟩ := pairTable_partner struc.data P2 halpha hP
        have hnest := pairTable_nested struc.data P2 halpha hP
        have hlen2 : sequence.length = P2.length := by
          have h3 : sequence.length = struc.length := not_not.mp hlen1
          have h4 : struc.length = struc.data.length := rfl
          omega
        rcases hwf f hflen with hmm | ⟨j, hj1, hj2, hj3, hj4⟩
        · rw [hPft] at hmm
          omega
        · have hjt : j = t := by
            rw [hPft] at hj3
            exact Nat.cast_inj.mp hj3.symm
          subst hjt
          rcases Nat.lt_trichotomy f j with hor | hor | hor
          · have hpair : pairIn P2 f j := ⟨hor, hj1, hPft, hj4⟩
            exact evaluateFoldCompound_cover _ hwf hnest hlen2
              (energyInt, cs) heval f j hpair
          · omega
          · have hpair : pairIn P2 j f := ⟨hor, hflen, hj4, hPft⟩
            intro hzz
            exact evaluateFoldCompound_cover _ hwf hnest hlen2
              (energyInt, cs) heval j f hpair
              (basePairEncodedType_zero_symm _ _ hzz)

theorem claim_C4_invalid_pair_policy_witness :
    ∃ P, pairTable ("(...)" : String).data = .ok P ∧ 0 < P.length ∧ 4 < P.length ∧
      P.getD 0 0 = ((4 : ℕ) : ℤ) ∧ P.getD 4 0 = ((0 : ℕ) : ℤ) ∧
      basePairEncodedType ((("AAAAG" : String).data.map Char.toUpper).getD 0 ' ')
        ((("AAAAG" : String).data.map Char.toUpper).getD 4 ' ') = 0 ∧
      basePairEncodedType ((("AAAAG" : String).data.map Char.toUpper).getD 4 ' ')
        ((("AAAAG" : String).data.map Char.toUpper).getD 0 ' ') = 0 :=
  (claim_C4_invalid_pair_policy "AAAAG" "(...)" 37).1 0 4 (by rfl)
